import Mathlib

/-!
Verification development for the `nfs4_share` share-tree engine
(`src/nfs4_share/share.py`).

The filesystem is modelled as a flat finite map from canonical absolute
paths (lists of components) to entries; a regular-file entry carries the
inode number of the content it links to, a directory entry carries its
own ACL.  File ACLs live in a separate per-inode table, so that two
hardlinks to the same inode share one ACL, exactly as NFSv4 ACLs are
inode metadata.  The hardlink count of an inode is the number of
directory entries referencing it.

Errors are Python exceptions: an operation returns `Except Err Unit`
together with the state reached so far, so that (as in Python) side
effects performed before a raise persist.  A trace of effect and
log events is threaded through every operation so that ordering claims
(creation order, bottom-up removal order, log messages) can be stated.

The ACL value objects (`nfs4_share/acl.py`) are an external collaborator
whose interface alone is specified; the definitions marked
"Modelled from the spec" embed that interface.
-/

namespace Nfs4Share

/-- One NFSv4 access-control entry, as constructed by
`AccessControlEntity(entry_type, flags, identity, domain, permissions)`.
Modelled from the spec: `nfs4_share/acl.py` is not part of the analysed
source, only its interface is specified (§6). -/
structure AccessControlEntity where
  entry_type : String
  flags : String
  identity : String
  domain : String
  permissions : String
deriving DecidableEq, Repr

/-- An access-control list: an ordered list of entries.
Modelled from the spec (external collaborator interface, §6). -/
abbrev ACL := List AccessControlEntity

/-- `a - b` on ACLs.  Modelled from the spec: "set-difference of
entries, used to strip the share's ambient entries back out of a file's
ACL". -/
def aclSub (a b : ACL) : ACL := a.filter (fun e => decide (e ∉ b))

/-- `acl.append(target)` combination: the entries of `acl` are layered
on top of the target's current ACL.  Modelled from the spec ("applied",
"layered on top of" the existing entries). -/
def aclAppend (newEntries current : ACL) : ACL := newEntries ++ current

/-- `acl.unset(target)` combination: every occurrence of each entry of
`acl` is removed from the target's current ACL.  Modelled from the
spec ("removes ... the share's deny-everyone access-control entry"). -/
def aclUnset (removed current : ACL) : ACL := current.filter (fun e => decide (e ∉ removed))

/-- The non-deny part of an ACL: entries whose type is not `"D"`. -/
def nonDeny (a : ACL) : ACL := a.filter (fun e => decide (e.entry_type ≠ "D"))

/-- A canonical absolute filesystem path, as its list of components. -/
abbrev Path := List String

/-- A directory entry: a regular file (a hardlink to an inode) or a
directory carrying its own ACL. -/
inductive Entry where
  | file (ino : Nat)
  | dir (acl : ACL)
deriving DecidableEq, Repr

/-- First value bound to a key in an association list. -/
def kvGet {κ α : Type} [DecidableEq κ] : List (κ × α) → κ → Option α
  | [], _ => none
  | (q, v) :: rest, k => if q = k then some v else kvGet rest k

/-- Replace the first binding of a key, or append a fresh binding at the
end (so that creation order of filesystem entries is observable). -/
def kvSet {κ α : Type} [DecidableEq κ] : List (κ × α) → κ → α → List (κ × α)
  | [], k, v => [(k, v)]
  | (q, w) :: rest, k, v => if q = k then (k, v) :: rest else (q, w) :: kvSet rest k v

/-- Remove every binding of a key. -/
def kvDel {κ α : Type} [DecidableEq κ] : List (κ × α) → κ → List (κ × α)
  | [], _ => []
  | (q, w) :: rest, k => if q = k then kvDel rest k else (q, w) :: kvDel rest k

/-- The filesystem: directory entries, the per-inode ACL table, and the
set of inodes whose linking is denied by `fs.protect_hardlinks`
(the environment condition behind `PermissionError` on `os.link`). -/
structure FS where
  entries : List (Path × Entry)
  inodeAcls : List (Nat × ACL)
  protectedInos : List Nat
deriving DecidableEq, Repr

def FS.get (fs : FS) (p : Path) : Option Entry := kvGet fs.entries p

def FS.isFile (fs : FS) (p : Path) : Bool :=
  match fs.get p with
  | some (.file _) => true
  | _ => false

def FS.isDir (fs : FS) (p : Path) : Bool :=
  match fs.get p with
  | some (.dir _) => true
  | _ => false

def FS.pathExists (fs : FS) (p : Path) : Bool := (fs.get p).isSome

def FS.set (fs : FS) (p : Path) (e : Entry) : FS :=
  { fs with entries := kvSet fs.entries p e }

def FS.del (fs : FS) (p : Path) : FS :=
  { fs with entries := kvDel fs.entries p }

def FS.inoAcl (fs : FS) (i : Nat) : ACL := (kvGet fs.inodeAcls i).getD []

def FS.setInoAcl (fs : FS) (i : Nat) (a : ACL) : FS :=
  { fs with inodeAcls := kvSet fs.inodeAcls i a }

/-- `st_nlink` of inode `i`: the number of directory entries that link
to it. -/
def FS.countIno (fs : FS) (i : Nat) : Nat :=
  fs.entries.countP (fun e => decide (e.2 = Entry.file i))

/-- `AccessControlList.from_file`: the current ACL of the object at
`p` (inode ACL for a file, own ACL for a directory).  Modelled from the
spec (§6). -/
def FS.aclAt (fs : FS) (p : Path) : ACL :=
  match fs.get p with
  | some (.file i) => fs.inoAcl i
  | some (.dir a) => a
  | none => []

/-- `acl.set(target)`: replace the ACL of the object at `p`. -/
def FS.setAclAt (fs : FS) (p : Path) (a : ACL) : FS :=
  match fs.get p with
  | some (.file i) => fs.setInoAcl i a
  | some (.dir _) => fs.set p (.dir a)
  | none => fs

/-- `isUnder p q`: `p` is a (possibly equal) leading part of `q`. -/
def isUnder : Path → Path → Bool
  | [], _ => true
  | _ :: _, [] => false
  | x :: xs, y :: ys => if x = y then isUnder xs ys else false

/-- The name of `q` as a direct child of `p`, if it is one. -/
def childNameOf (p q : Path) : Option String :=
  match isUnder p q, q.drop p.length with
  | true, [n] => some n
  | _, _ => none

/-- All inodes of file entries at or under `p`, with multiplicity and in
entry order (a recursive ACL tool visits each path separately). -/
def FS.inosUnder (fs : FS) (p : Path) : List Nat :=
  fs.entries.filterMap (fun e =>
    if isUnder p e.1 then
      match e.2 with
      | .file i => some i
      | .dir _ => none
    else none)

/-- Apply `f` once per visited path to every inode ACL in the list of
visited inodes. -/
def applyInos (f : ACL → ACL) (inos : List Nat) (tbl : List (Nat × ACL)) :
    List (Nat × ACL) :=
  inos.foldl (fun t i => kvSet t i (f ((kvGet t i).getD []))) tbl

/-- A recursive ACL operation (`nfs4_setfacl -R`-style): apply `f` to
the ACL of `p` and of everything beneath it; directory ACLs in place,
file ACLs once per visited hardlink.  Modelled from the spec (§6,
recursive `append`/`unset`). -/
def FS.mapAclUnder (fs : FS) (p : Path) (f : ACL → ACL) : FS :=
  { entries := fs.entries.map (fun e =>
      if isUnder p e.1 then
        match e.2 with
        | .dir a => (e.1, Entry.dir (f a))
        | .file i => (e.1, Entry.file i)
      else e),
    inodeAcls := applyInos f (fs.inosUnder p) fs.inodeAcls,
    protectedInos := fs.protectedInos }

/-- The Python exceptions that the engine raises or handles. -/
inductive Err where
  | fileExists (filename : Path)
  | fileNotFound (filename : Path)
  | permissionDenied (filename : Path)
  | dirNotEmpty (filename : Path)
  | notADirectory (filename : Path)
  | illegalShareSetup (filename : Path)
deriving DecidableEq, Repr

/-- Trace events: filesystem effects plus error-level log records. -/
inductive Event where
  | mkdirE (p : Path)
  | setAclE (p : Path) (a : ACL)
  | appendAclE (p : Path) (a : ACL)
  | appendAclRecE (p : Path) (a : ACL)
  | unsetAclRecE (p : Path) (a : ACL)
  | linkE (src tgt : Path)
  | unlinkE (p : Path)
  | rmdirE (p : Path)
  | logUnhandledE (p : Path)
  | logPermissionE (p : Path) (a : ACL)
  | logOneLinkE (p : Path)
deriving DecidableEq, Repr

/-- Program state: the filesystem plus the event trace so far. -/
structure MState where
  fs : FS
  trace : List Event
deriving DecidableEq, Repr

/-- Result of a stateful operation: a normal or exceptional outcome,
together with the state reached (side effects before a raise persist,
as in Python). -/
abbrev MRes (α : Type) := Except Err α × MState

def emit (st : MState) (e : Event) : MState :=
  { st with trace := st.trace ++ [e] }

/-- Sequencing: an exception short-circuits but keeps the state. -/
def andThen (r : MRes Unit) (k : MState → MRes Unit) : MRes Unit :=
  match r with
  | (.ok _, st) => k st
  | (.error e, st) => (.error e, st)

/-- Run an action for each element in order, stopping at the first
exception (a Python `for` loop whose body may raise). -/
def runAll {α : Type} (f : α → MState → MRes Unit) : List α → MState → MRes Unit
  | [], st => (.ok (), st)
  | a :: rest, st => andThen (f a st) (runAll f rest)

/-- `os.link(src, target)`: fails if the target exists, or with a
permission error naming the source when its inode is link-protected;
otherwise adds a second directory entry for the inode. -/
def osLink (src tgt : Path) (st : MState) : MRes Unit :=
  match st.fs.get src with
  | some (.file i) =>
    if st.fs.pathExists tgt then (.error (.fileExists tgt), st)
    else if i ∈ st.fs.protectedInos then (.error (.permissionDenied src), st)
    else (.ok (), emit { st with fs := st.fs.set tgt (Entry.file i) } (.linkE src tgt))
  | some (.dir _) => (.error (.permissionDenied src), st)
  | none => (.error (.fileNotFound src), st)

/-- `os.unlink(p)`. -/
def osUnlink (p : Path) (st : MState) : MRes Unit :=
  match st.fs.get p with
  | some (.file _) => (.ok (), emit { st with fs := st.fs.del p } (.unlinkE p))
  | some (.dir _) => (.error (.permissionDenied p), st)
  | none => (.error (.fileNotFound p), st)

/-- `os.rmdir(p)`: fails unless `p` is an empty directory. -/
def osRmdir (p : Path) (st : MState) : MRes Unit :=
  match st.fs.get p with
  | some (.dir _) =>
    if st.fs.entries.any (fun e => isUnder p e.1 && decide (e.1 ≠ p)) then
      (.error (.dirNotEmpty p), st)
    else (.ok (), emit { st with fs := st.fs.del p } (.rmdirE p))
  | some (.file _) => (.error (.notADirectory p), st)
  | none => (.error (.fileNotFound p), st)

/-- `os.makedirs(base ++ rest, exist_ok)` walking the remaining
components: creates every missing ancestor (with an empty ACL) and
finally the directory itself, mirroring CPython's error behaviour. -/
def osMakedirsAux (existOk : Bool) : Path → List String → MState → MRes Unit
  | base, [], st =>
    match st.fs.get base with
    | some (.dir _) =>
      if existOk then (.ok (), st) else (.error (.fileExists base), st)
    | some (.file _) => (.error (.fileExists base), st)
    | none => (.ok (), emit { st with fs := st.fs.set base (Entry.dir []) } (.mkdirE base))
  | base, c :: cs, st =>
    let q := base ++ [c]
    match st.fs.get q with
    | some (.dir _) => osMakedirsAux existOk q cs st
    | some (.file _) =>
      if cs = [] then osMakedirsAux existOk q cs st
      else (.error (.notADirectory q), st)
    | none =>
      if cs = [] then osMakedirsAux existOk q cs st
      else
        osMakedirsAux existOk q cs
          (emit { st with fs := st.fs.set q (Entry.dir []) } (.mkdirE q))

/-- `os.makedirs(p, exist_ok)`. -/
def osMakedirs (p : Path) (existOk : Bool) (st : MState) : MRes Unit :=
  match p with
  | [] => (.error (.fileNotFound []), st)
  | c :: cs => osMakedirsAux existOk [] (c :: cs) st

/-- The Share object: its canonical directory and its in-memory lock
ACL. -/
structure Share where
  directory : Path
  lock_acl : ACL
deriving DecidableEq, Repr

/-- The fixed lock entry built in `Share.__init__`: a deny-type entry
for `EVERYONE` with the permission letters `wadNTo`. -/
def lockAce : AccessControlEntity :=
  { entry_type := "D", flags := "", identity := "EVERYONE", domain := "",
    permissions := "wadNTo" }

def theLockAcl : ACL := [lockAce]

/-- `Share.__init__(directory, exist_ok)`: refuses a path that exists as
a regular file with `IllegalShareSetupError` before touching the
filesystem, otherwise creates (or, with `exist_ok`, binds to) the
directory and initialises the lock ACL in memory. -/
def shareInit (directory : Path) (existOk : Bool) (st : MState) :
    Except Err Share × MState :=
  if st.fs.isFile directory then (.error (.illegalShareSetup directory), st)
  else
    match osMakedirs directory existOk st with
    | (.ok _, st') => (.ok { directory := directory, lock_acl := theLockAcl }, st')
    | (.error e, st') => (.error e, st')

/-- The `Share.permissions` property: the share directory's current ACL,
re-read from the filesystem at every use. -/
def Share.permissionsOf (sh : Share) (st : MState) : ACL := st.fs.aclAt sh.directory

/-- `Share._lock(target)`: recursive append of the lock ACL. -/
def Share.lockPath (sh : Share) (target : Path) (st : MState) : MState :=
  emit { st with fs := st.fs.mapAclUnder target (aclAppend sh.lock_acl) }
    (.appendAclRecE target sh.lock_acl)

/-- `Share._unlock(target)`: recursive unset of the lock ACL. -/
def Share.unlockPath (sh : Share) (target : Path) (st : MState) : MState :=
  emit { st with fs := st.fs.mapAclUnder target (aclUnset sh.lock_acl) }
    (.unsetAclRecE target sh.lock_acl)

/-- `Share.lock()`. -/
def Share.lock (sh : Share) (st : MState) : MState := sh.lockPath sh.directory st

/-- `Share.unlock()`. -/
def Share.unlock (sh : Share) (st : MState) : MState := sh.unlockPath sh.directory st

/-- `Share._makedir(directory)`: `os.makedirs` then set the share
directory's current ACL on the new directory. -/
def Share.makedirS (sh : Share) (d : Path) (st : MState) : MRes Unit :=
  andThen (osMakedirs d false st) (fun st1 =>
    let p := sh.permissionsOf st1
    (.ok (), emit { st1 with fs := st1.fs.setAclAt d p } (.setAclE d p)))

/-- The unguarded tail of `Share._unshare_file`: restore the file's ACL
minus the share's ambient entries, then unlink the share's entry. -/
def Share.unshareFileGo (sh : Share) (target : Path) (st : MState) : MRes Unit :=
  let newPerms := aclSub (st.fs.aclAt target) (sh.permissionsOf st)
  let st1 := emit { st with fs := st.fs.setAclAt target newPerms }
    (.setAclE target newPerms)
  osUnlink target st1

/-- `Share._unshare_file(target, force)`: without `force`, a hardlink
count of exactly 1 is refused with `FileNotFoundError` (after logging)
before any effect on the file. -/
def Share.unshareFile (sh : Share) (target : Path) (force : Bool) (st : MState) :
    MRes Unit :=
  if force then sh.unshareFileGo target st
  else
    match st.fs.get target with
    | none => (.error (.fileNotFound target), st)
    | some (.dir _) => sh.unshareFileGo target st
    | some (.file i) =>
      if st.fs.countIno i = 1 then
        (.error (.fileNotFound target), emit st (.logOneLinkE target))
      else sh.unshareFileGo target st

/-- `Share._unshare_dir(target)`: plain `os.rmdir`, failing when the
directory is not empty. -/
def Share.unshareDir (_sh : Share) (target : Path) (st : MState) : MRes Unit :=
  osRmdir target st

/-- `Share._link_files(source, target)` with explicit recursion fuel for
the `FileExistsError` handler (which un-shares the stale target and
re-enters the whole routine; a second conflict cannot recur once the
stale entry is gone, so fuel 2 realises "retry once"). -/
def Share.linkFilesN (sh : Share) (source target : Path) :
    Nat → MState → MRes Unit
  | 0, st => (.error (.fileExists target), st)
  | Nat.succ fuel, st =>
    let st0 := sh.unlockPath source st
    match osLink source target st0 with
    | (.ok _, st1) =>
      let p := sh.permissionsOf st1
      (.ok (), emit { st1 with fs := st1.fs.setAclAt target (aclAppend p (st1.fs.aclAt target)) }
        (.appendAclE target p))
    | (.error (.fileExists _), st1) =>
      andThen (sh.unshareFile target false st1) (sh.linkFilesN source target fuel)
    | (.error (.permissionDenied f), st1) =>
      (.ok (), emit st1 (.logPermissionE f (st1.fs.aclAt target)))
    | (.error e, st1) => (.error e, st1)

/-- `Share._link_files(source, target)`. -/
def Share.linkFiles (sh : Share) (source target : Path) (st : MState) : MRes Unit :=
  sh.linkFilesN source target 2 st

/-- One `(root, subdirectories, files)` triple of an `os.walk`. -/
abbrev WalkTuple := Path × List String × List String

/-- Names of the directory children of `p`, in entry order (the model of
`scandir` order). -/
def FS.dirChildNames (fs : FS) (p : Path) : List String :=
  fs.entries.filterMap (fun e =>
    match e.2 with
    | .dir _ => childNameOf p e.1
    | .file _ => none)

/-- Names of the regular-file children of `p`, in entry order. -/
def FS.fileChildNames (fs : FS) (p : Path) : List String :=
  fs.entries.filterMap (fun e =>
    match e.2 with
    | .file _ => childNameOf p e.1
    | .dir _ => none)

/-- `os.walk(p)` top-down, with recursion fuel. -/
def walkTopA (fs : FS) : Nat → Path → List WalkTuple
  | 0, _ => []
  | Nat.succ fuel, p =>
    match fs.get p with
    | some (.dir _) =>
      (p, fs.dirChildNames p, fs.fileChildNames p) ::
        (fs.dirChildNames p).flatMap (fun d => walkTopA fs fuel (p ++ [d]))
    | _ => []

/-- `os.walk(p, topdown=False)`, with recursion fuel. -/
def walkBotA (fs : FS) : Nat → Path → List WalkTuple
  | 0, _ => []
  | Nat.succ fuel, p =>
    match fs.get p with
    | some (.dir _) =>
      ((fs.dirChildNames p).flatMap (fun d => walkBotA fs fuel (p ++ [d]))) ++
        [(p, fs.dirChildNames p, fs.fileChildNames p)]
    | _ => []

/-- Fuel sufficient to exhaust any walk of `fs`: one more than the
longest entry path. -/
def FS.depthBound (fs : FS) : Nat :=
  (fs.entries.map (fun e => e.1.length)).foldr Nat.max 0 + 1

def fsWalkTop (fs : FS) (p : Path) : List WalkTuple := walkTopA fs fs.depthBound p

def fsWalkBot (fs : FS) (p : Path) : List WalkTuple := walkBotA fs fs.depthBound p

/-- The mirror path of a source path `r` (which extends the source
root): the top mirror directory followed by `r`'s tail beyond the
source root, i.e. `root.replace(source_root, within_share_dir_path, 1)`
on canonical paths. -/
def relTarget (srcLen : Nat) (top r : Path) : Path := top ++ r.drop srcLen

/-- The body of the `os.walk` loop of `_duplicate_as_linked_tree` for
one walk triple: create each mirror subdirectory, then hardlink each
file. -/
def Share.dupTuple (sh : Share) (srcLen : Nat) (top : Path) (t : WalkTuple)
    (st : MState) : MRes Unit :=
  let shareRoot := relTarget srcLen top t.1
  andThen (runAll (fun sd => sh.makedirS (shareRoot ++ [sd])) t.2.1 st)
    (fun st1 => runAll (fun f => sh.linkFiles (t.1 ++ [f]) (shareRoot ++ [f])) t.2.2 st1)

/-- `Share._duplicate_as_linked_tree(source_root)`: create the top-level
mirror directory, then walk the source top-down, mirroring directories
and hardlinking files. -/
def Share.dupTree (sh : Share) (sourceRoot : Path) (st : MState) : MRes Unit :=
  let top := sh.directory ++ [sourceRoot.getLastD ""]
  andThen (sh.makedirS top st) (fun st1 =>
    runAll (sh.dupTuple sourceRoot.length top) (fsWalkTop st1.fs sourceRoot) st1)

/-- The body of the `os.walk` loop of `_unshare_linked_tree` for one
walk triple: un-share each file, then remove each subdirectory. -/
def Share.unshareTuple (sh : Share) (force : Bool) (t : WalkTuple) (st : MState) :
    MRes Unit :=
  andThen (runAll (fun f => sh.unshareFile (t.1 ++ [f]) force) t.2.2 st)
    (fun st1 => runAll (fun sd => sh.unshareDir (t.1 ++ [sd])) t.2.1 st1)

/-- `Share._unshare_linked_tree(directory, force_file_removal)`: walk
the target bottom-up un-sharing files and removing subdirectories, then
remove the target directory itself. -/
def Share.unshareTree (sh : Share) (directory : Path) (force : Bool) (st : MState) :
    MRes Unit :=
  andThen (runAll (sh.unshareTuple force) (fsWalkBot st.fs directory) st)
    (fun st1 => osRmdir directory st1)

/-- `Share.self_destruct(force_file_removal)`. -/
def Share.selfDestruct (sh : Share) (force : Bool) (st : MState) : MRes Unit :=
  sh.unshareTree sh.directory force st

/-- The per-directory body of the `add` loop: duplicate the tree; on
`FileExistsError`, un-share the stale subtree named by the exception and
duplicate again (the retry is outside the handler's protection). -/
def Share.addDir (sh : Share) (d : Path) (st : MState) : MRes Unit :=
  match sh.dupTree d st with
  | (.ok _, st1) => (.ok (), st1)
  | (.error (.fileExists f), st1) =>
    andThen (sh.unshareTree f false st1) (fun st2 => sh.dupTree d st2)
  | (.error e, st1) => (.error e, st1)

/-- Log every unhandled input item. -/
def logAll (ps : List Path) (st : MState) : MState :=
  ps.foldl (fun s p => emit s (.logUnhandledE p)) st

/-- `Share.add(items)`: classify the items once at entry, hardlink the
files into the share root under their base names, mirror the
directories (with conflict recovery), then log every item that was
neither. -/
def Share.add (sh : Share) (items : List Path) (st : MState) : MRes Unit :=
  let files := items.filter (fun i => st.fs.isFile i)
  let dirs := items.filter (fun i => st.fs.isDir i)
  let unhandled :=
    (items.filter (fun i => !(st.fs.isFile i) && !(st.fs.isDir i))).dedup
  andThen (runAll (fun f => sh.linkFiles f (sh.directory ++ [f.getLastD ""])) files st)
    (fun st1 => andThen (runAll sh.addDir dirs st1)
      (fun st2 => (.ok (), logAll unhandled st2)))

/-! ### Association-list lemmas -/

theorem kvGet_kvSet_self {κ α : Type} [DecidableEq κ] (l : List (κ × α)) (k : κ) (v : α) :
    kvGet (kvSet l k v) k = some v := by
  induction l with
  | nil => simp [kvGet, kvSet]
  | cons hd t ih =>
    obtain ⟨k1, v1⟩ := hd
    by_cases hk : k1 = k
    · simp [kvSet, hk, kvGet]
    · simpa [kvSet, hk, kvGet] using ih

theorem kvGet_kvSet_ne {κ α : Type} [DecidableEq κ] (l : List (κ × α)) (k k' : κ) (v : α)
    (h : k' ≠ k) : kvGet (kvSet l k v) k' = kvGet l k' := by
  induction l with
  | nil => simp [kvGet, kvSet, Ne.symm h]
  | cons hd t ih =>
    obtain ⟨k1, v1⟩ := hd
    by_cases hk : k1 = k
    · subst hk
      simp [kvSet, kvGet, Ne.symm h]
    · simp [kvSet, hk, kvGet, ih]

theorem kvGet_kvDel_self {κ α : Type} [DecidableEq κ] (l : List (κ × α)) (k : κ) :
    kvGet (kvDel l k) k = none := by
  induction l with
  | nil => simp [kvGet, kvDel]
  | cons hd t ih =>
    obtain ⟨k1, v1⟩ := hd
    by_cases hk : k1 = k
    · simpa [kvDel, hk] using ih
    · simpa [kvDel, hk, kvGet] using ih

theorem kvGet_kvDel_ne {κ α : Type} [DecidableEq κ] (l : List (κ × α)) (k k' : κ)
    (h : k' ≠ k) : kvGet (kvDel l k) k' = kvGet l k' := by
  induction l with
  | nil => simp [kvDel]
  | cons hd t ih =>
    obtain ⟨k1, v1⟩ := hd
    by_cases hk : k1 = k
    · subst hk
      simp [kvDel, kvGet, Ne.symm h, ih]
    · simp [kvDel, hk, kvGet, ih]

theorem kvSet_of_not_mem {κ α : Type} [DecidableEq κ] (l : List (κ × α)) (k : κ) (v : α)
    (h : k ∉ l.map Prod.fst) : kvSet l k v = l ++ [(k, v)] := by
  induction l with
  | nil => simp [kvSet]
  | cons hd t ih =>
    obtain ⟨k1, v1⟩ := hd
    simp only [List.map_cons, List.mem_cons] at h
    push_neg at h
    simp [kvSet, Ne.symm h.1, ih h.2]

theorem kvGet_eq_none_of_not_mem {κ α : Type} [DecidableEq κ] (l : List (κ × α)) (k : κ)
    (h : k ∉ l.map Prod.fst) : kvGet l k = none := by
  induction l with
  | nil => simp [kvGet]
  | cons hd t ih =>
    obtain ⟨k1, v1⟩ := hd
    simp only [List.map_cons, List.mem_cons] at h
    push_neg at h
    simp [kvGet, Ne.symm h.1, ih h.2]

theorem kvGet_isSome_of_mem {κ α : Type} [DecidableEq κ] (l : List (κ × α)) (k : κ)
    (h : k ∈ l.map Prod.fst) : (kvGet l k).isSome := by
  induction l with
  | nil => simp at h
  | cons hd t ih =>
    obtain ⟨k1, v1⟩ := hd
    by_cases hk : k1 = k
    · simp [kvGet, hk]
    · simp only [List.map_cons, List.mem_cons] at h
      rcases h with h | h
      · exact absurd h.symm hk
      · simpa [kvGet, hk] using ih h

/-- A found binding splits the list, with no earlier binding of the key. -/
theorem kvGet_split {κ α : Type} [DecidableEq κ] (l : List (κ × α)) (k : κ) (v : α)
    (h : kvGet l k = some v) :
    ∃ l1 l2, l = l1 ++ (k, v) :: l2 ∧ k ∉ l1.map Prod.fst := by
  induction l with
  | nil => simp [kvGet] at h
  | cons hd t ih =>
    obtain ⟨k1, v1⟩ := hd
    by_cases hk : k1 = k
    · subst hk
      simp only [kvGet, if_pos rfl] at h
      have hv := Option.some.inj h
      subst hv
      exact ⟨[], t, rfl, by simp⟩
    · simp only [kvGet, if_neg hk] at h
      obtain ⟨l1, l2, heq, hnot⟩ := ih h
      refine ⟨(k1, v1) :: l1, l2, by simp [heq], ?_⟩
      simp only [List.map_cons, List.mem_cons]
      push_neg
      exact ⟨Ne.symm hk, hnot⟩

theorem kvDel_append {κ α : Type} [DecidableEq κ] (l1 l2 : List (κ × α)) (k : κ) :
    kvDel (l1 ++ l2) k = kvDel l1 k ++ kvDel l2 k := by
  induction l1 with
  | nil => simp [kvDel]
  | cons hd t ih =>
    obtain ⟨k1, v1⟩ := hd
    by_cases hk : k1 = k <;> simp [kvDel, hk, ih]

theorem kvDel_of_not_mem {κ α : Type} [DecidableEq κ] (l : List (κ × α)) (k : κ)
    (h : k ∉ l.map Prod.fst) : kvDel l k = l := by
  induction l with
  | nil => simp [kvDel]
  | cons hd t ih =>
    obtain ⟨k1, v1⟩ := hd
    simp only [List.map_cons, List.mem_cons] at h
    push_neg at h
    simp [kvDel, Ne.symm h.1, ih h.2]

/-- Well-formed filesystem: at most one entry per path. -/
def FS.wf (fs : FS) : Prop := (fs.entries.map Prod.fst).Nodup

/-- Under `wf`, a found binding has no other binding of the same key. -/
theorem kvGet_split_nodup {κ α : Type} [DecidableEq κ] (l : List (κ × α)) (k : κ) (v : α)
    (hnd : (l.map Prod.fst).Nodup) (h : kvGet l k = some v) :
    ∃ l1 l2, l = l1 ++ (k, v) :: l2 ∧ k ∉ l1.map Prod.fst ∧ k ∉ l2.map Prod.fst := by
  obtain ⟨l1, l2, heq, hnot⟩ := kvGet_split l k v h
  refine ⟨l1, l2, heq, hnot, ?_⟩
  rw [heq] at hnd
  simp only [List.map_append, List.map_cons, List.nodup_append, List.nodup_cons] at hnd
  exact hnd.2.1.1

/-- Under `wf`, deleting a file entry lowers its inode's link count by
exactly one. -/
theorem countIno_del (fs : FS) (p : Path) (i : Nat) (hwf : fs.wf)
    (h : fs.get p = some (Entry.file i)) :
    (fs.del p).countIno i = fs.countIno i - 1 := by
  obtain ⟨l1, l2, heq, hnot1, hnot2⟩ := kvGet_split_nodup fs.entries p _ hwf h
  simp only [FS.del, FS.countIno, heq, kvDel_append, kvDel_of_not_mem _ _ hnot1]
  have : kvDel ((p, Entry.file i) :: l2) p = l2 := by
    simp [kvDel, kvDel_of_not_mem _ _ hnot2]
  rw [this]
  simp [List.countP_append, List.countP_cons]

/-- Deleting an entry never raises a link count. -/
theorem countIno_del_le (fs : FS) (p : Path) (i : Nat) :
    (fs.del p).countIno i ≤ fs.countIno i := by
  simp only [FS.del, FS.countIno]
  induction fs.entries with
  | nil => simp [kvDel]
  | cons hd t ih =>
    obtain ⟨k1, v1⟩ := hd
    by_cases hk : k1 = p <;> simp [kvDel, hk, List.countP_cons] <;> omega

/-! ### Basic filesystem-operation lemmas -/

theorem FS.get_set_self (fs : FS) (p : Path) (e : Entry) : (fs.set p e).get p = some e :=
  kvGet_kvSet_self _ _ _

theorem FS.get_set_ne (fs : FS) (p q : Path) (e : Entry) (h : q ≠ p) :
    (fs.set p e).get q = fs.get q :=
  kvGet_kvSet_ne _ _ _ _ h

theorem FS.get_del_self (fs : FS) (p : Path) : (fs.del p).get p = none :=
  kvGet_kvDel_self _ _

theorem FS.get_del_ne (fs : FS) (p q : Path) (h : q ≠ p) : (fs.del p).get q = fs.get q :=
  kvGet_kvDel_ne _ _ _ h

/-- Setting the ACL of an existing file changes no directory entry. -/
theorem FS.setAclAt_file_entries (fs : FS) (p : Path) (i : Nat) (a : ACL)
    (h : fs.get p = some (Entry.file i)) : (fs.setAclAt p a).entries = fs.entries := by
  simp [FS.setAclAt, h, FS.setInoAcl]

/-- Setting any ACL never changes the key set, link counts or kinds of
directory entries: `get` results change at most in a directory's ACL.
For a file path, `get` is untouched everywhere. -/
theorem FS.setAclAt_file_get (fs : FS) (p q : Path) (i : Nat) (a : ACL)
    (h : fs.get p = some (Entry.file i)) : (fs.setAclAt p a).get q = fs.get q := by
  simp [FS.get, FS.setAclAt_file_entries fs p i a h]

theorem FS.setAclAt_file_wf (fs : FS) (p : Path) (i : Nat) (a : ACL)
    (h : fs.get p = some (Entry.file i)) (hwf : fs.wf) : (fs.setAclAt p a).wf := by
  unfold FS.wf
  rw [FS.setAclAt_file_entries fs p i a h]
  exact hwf

theorem FS.setAclAt_file_countIno (fs : FS) (p : Path) (i j : Nat) (a : ACL)
    (h : fs.get p = some (Entry.file i)) : (fs.setAclAt p a).countIno j = fs.countIno j := by
  simp [FS.countIno, FS.setAclAt_file_entries fs p i a h]

/-! ### Claim C1: the one-hardlink guard of `_unshare_file` -/

/-- Behaviour of the unguarded removal tail on an existing file. -/
theorem unshareFileGo_spec (sh : Share) (target : Path) (i : Nat) (st : MState)
    (h : st.fs.get target = some (Entry.file i)) :
    (sh.unshareFileGo target st).1 = Except.ok () ∧
    (sh.unshareFileGo target st).2.fs =
      (st.fs.setAclAt target (aclSub (st.fs.aclAt target) (sh.permissionsOf st))).del target ∧
    (sh.unshareFileGo target st).2.trace =
      st.trace ++ [Event.setAclE target (aclSub (st.fs.aclAt target) (sh.permissionsOf st)),
        Event.unlinkE target] := by
  have hget : (st.fs.setAclAt target (aclSub (st.fs.aclAt target) (sh.permissionsOf st))).get
      target = some (Entry.file i) := by
    rw [FS.setAclAt_file_get _ _ _ _ _ h]
    exact h
  simp [Share.unshareFileGo, osUnlink, emit, hget]

/-- Claim C1.  If the file at `target` has hardlink count exactly 1,
`_unshare_file` without force raises `FileNotFoundError` and leaves the
filesystem (entries, link counts, every ACL) untouched; with force, or
when the count differs from 1, the removal proceeds: it returns
normally, the share's entry is gone, and the link count has dropped by
exactly one. -/
theorem unshare_file_one_link_guard (sh : Share) (target : Path) (i : Nat) (st : MState)
    (hwf : st.fs.wf) (hfile : st.fs.get target = some (Entry.file i)) :
    (st.fs.countIno i = 1 →
      (sh.unshareFile target false st).1 = Except.error (Err.fileNotFound target) ∧
      (sh.unshareFile target false st).2.fs = st.fs) ∧
    (∀ force : Bool, (force = true ∨ st.fs.countIno i ≠ 1) →
      (sh.unshareFile target force st).1 = Except.ok () ∧
      (sh.unshareFile target force st).2.fs.get target = none ∧
      (sh.unshareFile target force st).2.fs.countIno i = st.fs.countIno i - 1) := by
  constructor
  · intro hone
    simp [Share.unshareFile, hfile, hone, emit]
  · intro force hforce
    have hgo : (sh.unshareFileGo target st).1 = Except.ok () ∧
        (sh.unshareFileGo target st).2.fs =
          (st.fs.setAclAt target (aclSub (st.fs.aclAt target) (sh.permissionsOf st))).del
            target ∧ _ := unshareFileGo_spec sh target i st hfile
    have heq : sh.unshareFile target force st = sh.unshareFileGo target st := by
      cases force with
      | true => simp [Share.unshareFile]
      | false =>
        rcases hforce with hforce | hforce
        · exact absurd hforce (by simp)
        · simp [Share.unshareFile, hfile, hforce]
    rw [heq]
    refine ⟨hgo.1, ?_, ?_⟩
    · rw [hgo.2.1]
      exact FS.get_del_self _ _
    · rw [hgo.2.1]
      have hget' := FS.setAclAt_file_get st.fs target target i
        (aclSub (st.fs.aclAt target) (sh.permissionsOf st)) hfile
      rw [countIno_del _ target i
        (FS.setAclAt_file_wf st.fs target i _ hfile hwf) (by rw [hget']; exact hfile)]
      rw [FS.setAclAt_file_countIno st.fs target i i _ hfile]

/-- Sample entities for concrete witnesses. -/
def ambAce : AccessControlEntity :=
  { entry_type := "A", flags := "fd", identity := "GROUP", domain := "dom",
    permissions := "rxtcy" }

def ownAce : AccessControlEntity :=
  { entry_type := "A", flags := "", identity := "OWNER", domain := "", permissions := "rwx" }

def sampleShare : Share := { directory := ["srv", "share"], lock_acl := theLockAcl }

/-- A share holding the only hardlink of inode 9. -/
def oneLinkFS : FS :=
  { entries := [(["srv"], Entry.dir []), (["srv", "share"], Entry.dir [ambAce]),
      (["srv", "share", "x"], Entry.file 9)],
    inodeAcls := [(9, [ownAce])],
    protectedInos := [] }

def oneLinkSt : MState := { fs := oneLinkFS, trace := [] }

/-- Witness for claim C1 at a concrete state. -/
theorem unshare_file_one_link_guard_witness :
    (oneLinkSt.fs.wf ∧ oneLinkSt.fs.get ["srv", "share", "x"] = some (Entry.file 9) ∧
      oneLinkSt.fs.countIno 9 = 1) ∧
    ((sampleShare.unshareFile ["srv", "share", "x"] false oneLinkSt).1 =
        Except.error (Err.fileNotFound ["srv", "share", "x"]) ∧
      (sampleShare.unshareFile ["srv", "share", "x"] false oneLinkSt).2.fs = oneLinkSt.fs) :=
  ⟨⟨by unfold FS.wf; decide, by decide, by decide⟩,
    (unshare_file_one_link_guard sampleShare ["srv", "share", "x"] 9 oneLinkSt
      (by unfold FS.wf; decide) (by decide)).1 (by decide)⟩

/-! ### Claim C7: Share construction over a plain file -/

theorem osMakedirsAux_ok_isDir (existOk : Bool) :
    ∀ (rest : List String) (base : Path) (st : MState),
      (osMakedirsAux existOk base rest st).1 = Except.ok () →
      ((osMakedirsAux existOk base rest st).2).fs.isDir (base ++ rest) = true := by
  intro rest
  induction rest with
  | nil =>
    intro base st hok
    simp only [osMakedirsAux] at hok ⊢
    cases hget : st.fs.get base with
    | none =>
      simp only [hget] at hok ⊢
      simp [FS.isDir, emit, FS.get_set_self]
    | some e =>
      cases e with
      | file i => simp [hget] at hok
      | dir a =>
        cases existOk with
        | true => simp [hget, FS.isDir]
        | false => simp [hget] at hok
  | cons c cs ih =>
    intro base st hok
    have hsplit : base ++ c :: cs = (base ++ [c]) ++ cs := by simp
    rw [hsplit]
    simp only [osMakedirsAux] at hok ⊢
    cases hget : st.fs.get (base ++ [c]) with
    | none =>
      simp only [hget] at hok ⊢
      by_cases hcs : cs = []
      · rw [if_pos hcs] at hok ⊢
        exact ih (base ++ [c]) st hok
      · rw [if_neg hcs] at hok ⊢
        exact ih (base ++ [c]) _ hok
    | some e =>
      cases e with
      | dir a =>
        simp only [hget] at hok ⊢
        exact ih (base ++ [c]) st hok
      | file i =>
        simp only [hget] at hok ⊢
        by_cases hcs : cs = []
        · rw [if_pos hcs] at hok ⊢
          exact ih (base ++ [c]) st hok
        · rw [if_neg hcs] at hok
          simp at hok

theorem osMakedirs_ok_isDir (p : Path) (existOk : Bool) (st : MState)
    (hok : (osMakedirs p existOk st).1 = Except.ok ()) :
    ((osMakedirs p existOk st).2).fs.isDir p = true := by
  cases p with
  | nil => simp [osMakedirs] at hok
  | cons c cs =>
    simpa using osMakedirsAux_ok_isDir existOk (c :: cs) [] st (by simpa [osMakedirs] using hok)

/-- Claim C7.  Constructing a Share over a path that exists as a regular
file fails with `IllegalShareSetupError` and performs no filesystem
change at all; in every successful construction the returned share is
bound to the requested directory, which then exists as a directory. -/
theorem share_init_file_guard (d : Path) (existOk : Bool) (st : MState) :
    (∀ i : Nat, st.fs.get d = some (Entry.file i) →
      shareInit d existOk st = (Except.error (Err.illegalShareSetup d), st)) ∧
    (∀ (sh : Share) (st' : MState), shareInit d existOk st = (Except.ok sh, st') →
      sh.directory = d ∧ sh.lock_acl = theLockAcl ∧ st'.fs.isDir d = true) := by
  constructor
  · intro i hfile
    simp [shareInit, FS.isFile, hfile]
  · intro sh st' hok
    by_cases hfile : st.fs.isFile d
    · simp [shareInit, hfile] at hok
    · simp only [shareInit, hfile, if_neg, Bool.false_eq_true, if_false] at hok
      cases hmk : osMakedirs d existOk st with
      | mk r st2 =>
        cases r with
        | error e => rw [hmk] at hok; simp at hok
        | ok u =>
          rw [hmk] at hok
          simp only [Prod.mk.injEq] at hok
          have hsh := Except.ok.inj hok.1
          have hst := hok.2
          have hdir := osMakedirs_ok_isDir d existOk st (by rw [hmk])
          rw [hmk] at hdir
          subst hst
          exact ⟨by rw [← hsh], by rw [← hsh], by simpa using hdir⟩

/-! ### Recursive ACL application: supporting lemmas -/

theorem kvGet_mem {κ α : Type} [DecidableEq κ] (l : List (κ × α)) (k : κ) (v : α)
    (h : kvGet l k = some v) : (k, v) ∈ l := by
  induction l with
  | nil => simp [kvGet] at h
  | cons hd t ih =>
    obtain ⟨k1, v1⟩ := hd
    by_cases hk : k1 = k
    · subst hk
      simp only [kvGet, if_pos rfl] at h
      have := Option.some.inj h
      subst this
      exact List.mem_cons_self _ _
    · simp only [kvGet, if_neg hk] at h
      exact List.mem_cons_of_mem _ (ih h)

/-- A property enjoyed by every output of `f` holds at key `i` after the
fold whenever `i` is visited, or held before. -/
theorem applyInos_Q (f : ACL → ACL) (Q : ACL → Prop) (H : ∀ a, Q (f a)) :
    ∀ (inos : List Nat) (tbl : List (Nat × ACL)) (i : Nat),
      (i ∈ inos ∨ Q ((kvGet tbl i).getD [])) →
      Q ((kvGet (applyInos f inos tbl) i).getD []) := by
  intro inos
  induction inos with
  | nil =>
    intro tbl i h
    rcases h with h | h
    · simp at h
    · simpa [applyInos] using h
  | cons j rest ih =>
    intro tbl i h
    have step : applyInos f (j :: rest) tbl =
        applyInos f rest (kvSet tbl j (f ((kvGet tbl j).getD []))) := by
      simp [applyInos]
    rw [step]
    apply ih
    by_cases hij : i = j
    · right
      subst hij
      rw [kvGet_kvSet_self]
      exact H _
    · rcases h with h | h
      · rcases List.mem_cons.mp h with h | h
        · exact absurd h hij
        · exact Or.inl h
      · right
        rw [kvGet_kvSet_ne _ _ _ _ hij]
        exact h

/-- A projection invariant under `f` is invariant under the fold. -/
theorem applyInos_proj (f : ACL → ACL) (g : ACL → ACL) (H : ∀ a, g (f a) = g a) :
    ∀ (inos : List Nat) (tbl : List (Nat × ACL)) (i : Nat),
      g ((kvGet (applyInos f inos tbl) i).getD []) = g ((kvGet tbl i).getD []) := by
  intro inos
  induction inos with
  | nil =>
    intro tbl i
    simp [applyInos]
  | cons j rest ih =>
    intro tbl i
    have step : applyInos f (j :: rest) tbl =
        applyInos f rest (kvSet tbl j (f ((kvGet tbl j).getD []))) := by
      simp [applyInos]
    rw [step, ih]
    by_cases hij : i = j
    · subst hij
      rw [kvGet_kvSet_self]
      simp [H]
    · rw [kvGet_kvSet_ne _ _ _ _ hij]

/-- The entry transformation of `mapAclUnder`, at the entry level. -/
def aclEntryMap (p : Path) (f : ACL → ACL) (e : Path × Entry) : Path × Entry :=
  if isUnder p e.1 then
    match e.2 with
    | .dir a => (e.1, Entry.dir (f a))
    | .file i => (e.1, Entry.file i)
  else e

theorem mapAclUnder_entries (fs : FS) (p : Path) (f : ACL → ACL) :
    (fs.mapAclUnder p f).entries = fs.entries.map (aclEntryMap p f) := rfl

theorem mapAclUnder_inodeAcls (fs : FS) (p : Path) (f : ACL → ACL) :
    (fs.mapAclUnder p f).inodeAcls = applyInos f (fs.inosUnder p) fs.inodeAcls := rfl

/-- The value part of the entry transformation. -/
def aclEntryVal (p : Path) (f : ACL → ACL) (q : Path) (en : Entry) : Entry :=
  if isUnder p q then
    match en with
    | .dir a => Entry.dir (f a)
    | .file i => Entry.file i
  else en

theorem aclEntryMap_eq (p : Path) (f : ACL → ACL) (k : Path) (v : Entry) :
    aclEntryMap p f (k, v) = (k, aclEntryVal p f k v) := by
  unfold aclEntryMap aclEntryVal
  by_cases hu : isUnder p k <;> cases v <;> simp [hu]

theorem kvGet_map_aclEntry (p : Path) (f : ACL → ACL) (l : List (Path × Entry)) (q : Path) :
    kvGet (l.map (aclEntryMap p f)) q = (kvGet l q).map (aclEntryVal p f q) := by
  induction l with
  | nil => simp [kvGet]
  | cons hd t ih =>
    obtain ⟨k1, v1⟩ := hd
    rw [List.map_cons, aclEntryMap_eq]
    by_cases hk : k1 = q
    · subst hk
      simp [kvGet]
    · simp only [kvGet, if_neg hk]
      exact ih

theorem mapAclUnder_get_file (fs : FS) (p q : Path) (f : ACL → ACL) (i : Nat)
    (h : fs.get q = some (Entry.file i)) :
    (fs.mapAclUnder p f).get q = some (Entry.file i) := by
  show kvGet (fs.entries.map (aclEntryMap p f)) q = _
  rw [kvGet_map_aclEntry]
  rw [show kvGet fs.entries q = some (Entry.file i) from h]
  unfold aclEntryVal
  by_cases hu : isUnder p q <;> simp [hu]

theorem mapAclUnder_get_none (fs : FS) (p q : Path) (f : ACL → ACL)
    (h : fs.get q = none) : (fs.mapAclUnder p f).get q = none := by
  show kvGet (fs.entries.map (aclEntryMap p f)) q = _
  rw [kvGet_map_aclEntry]
  rw [show kvGet fs.entries q = none from h]
  rfl

theorem mapAclUnder_get_dir (fs : FS) (p q : Path) (f : ACL → ACL) (a : ACL)
    (h : fs.get q = some (Entry.dir a)) :
    (fs.mapAclUnder p f).get q =
      some (if isUnder p q then Entry.dir (f a) else Entry.dir a) := by
  show kvGet (fs.entries.map (aclEntryMap p f)) q = _
  rw [kvGet_map_aclEntry]
  rw [show kvGet fs.entries q = some (Entry.dir a) from h]
  unfold aclEntryVal
  by_cases hu : isUnder p q <;> simp [hu]

theorem FS.aclAt_file (fs : FS) (q : Path) (i : Nat) (h : fs.get q = some (Entry.file i)) :
    fs.aclAt q = fs.inoAcl i := by
  simp [FS.aclAt, h]

theorem FS.aclAt_dir (fs : FS) (q : Path) (a : ACL) (h : fs.get q = some (Entry.dir a)) :
    fs.aclAt q = a := by
  simp [FS.aclAt, h]

theorem FS.aclAt_none (fs : FS) (q : Path) (h : fs.get q = none) : fs.aclAt q = [] := by
  simp [FS.aclAt, h]

theorem mapAclUnder_inosUnder (fs : FS) (p q : Path) (f : ACL → ACL) :
    (fs.mapAclUnder p f).inosUnder q = fs.inosUnder q := by
  show (fs.entries.map (aclEntryMap p f)).filterMap _ = _
  rw [List.filterMap_map]
  apply List.filterMap_congr
  intro e _
  obtain ⟨k1, v1⟩ := e
  unfold Function.comp aclEntryMap
  by_cases hu : isUnder p k1 <;> cases v1 <;> simp [hu]

/-- A file inode linked under `p` is visited by the recursive ACL
application at `p`. -/
theorem mem_inosUnder (fs : FS) (p q : Path) (i : Nat)
    (hu : isUnder p q = true) (h : fs.get q = some (Entry.file i)) :
    i ∈ fs.inosUnder p := by
  have hmem : (q, Entry.file i) ∈ fs.entries := kvGet_mem _ _ _ h
  unfold FS.inosUnder
  apply List.mem_filterMap.mpr
  exact ⟨(q, Entry.file i), hmem, by simp [hu]⟩

theorem lockAce_mem_aclAppend (a : ACL) : lockAce ∈ aclAppend theLockAcl a := by
  simp [aclAppend, theLockAcl]

theorem lockAce_not_mem_aclUnset (a : ACL) : lockAce ∉ aclUnset theLockAcl a := by
  unfold aclUnset
  intro h
  have := List.of_mem_filter h
  simp [theLockAcl] at this

theorem nonDeny_aclAppend_lock (a : ACL) : nonDeny (aclAppend theLockAcl a) = nonDeny a := by
  simp [aclAppend, nonDeny, theLockAcl, List.filter_append, lockAce]

theorem nonDeny_aclUnset_lock (a : ACL) : nonDeny (aclUnset theLockAcl a) = nonDeny a := by
  unfold nonDeny aclUnset
  rw [List.filter_filter, List.filter_congr]
  intro e _
  by_cases hd : e.entry_type = "D"
  · simp [hd]
  · have : e ∉ theLockAcl := by
      simp only [theLockAcl, List.mem_singleton]
      intro heq
      exact hd (by rw [heq]; rfl)
    simp [hd, this]

/-! ### Claim C6: lock / unlock -/

/-- Claim C6.  With the lock ACL built at construction (the single
deny-type entry for EVERYONE with permission letters `wadNTo`),
`lock()` recursively applies the entry: afterwards every existing entry
at or under the share directory carries it; `unlock()` recursively
removes it: afterwards no entry at or under the share carries it; and
`lock()` followed by `unlock()` leaves the non-deny permission set of
every path in the filesystem unchanged. -/
theorem lock_unlock_toggle (sh : Share) (st : MState) (hlacl : sh.lock_acl = theLockAcl) :
    (∀ q, isUnder sh.directory q = true → st.fs.pathExists q = true →
      lockAce ∈ (sh.lock st).fs.aclAt q) ∧
    (∀ q, isUnder sh.directory q = true → st.fs.pathExists q = true →
      lockAce ∉ (sh.unlock st).fs.aclAt q) ∧
    (∀ q, nonDeny ((sh.unlock (sh.lock st)).fs.aclAt q) = nonDeny (st.fs.aclAt q)) := by
  have hlockfs : (sh.lock st).fs = st.fs.mapAclUnder sh.directory (aclAppend theLockAcl) := by
    simp [Share.lock, Share.lockPath, emit, hlacl]
  have hunlockfs : ∀ st' : MState,
      (sh.unlock st').fs = st'.fs.mapAclUnder sh.directory (aclUnset theLockAcl) := by
    intro st'
    simp [Share.unlock, Share.unlockPath, emit, hlacl]
  refine ⟨?_, ?_, ?_⟩
  · intro q hu hex
    rw [hlockfs]
    cases hget : st.fs.get q with
    | none => simp [FS.pathExists, hget] at hex
    | some e =>
      cases e with
      | file i =>
        rw [FS.aclAt_file _ _ i (mapAclUnder_get_file st.fs sh.directory q _ i hget)]
        unfold FS.inoAcl
        rw [mapAclUnder_inodeAcls]
        exact applyInos_Q (aclAppend theLockAcl) (fun a => lockAce ∈ a)
          lockAce_mem_aclAppend _ _ i (Or.inl (mem_inosUnder st.fs sh.directory q i hu hget))
      | dir a =>
        have hget2 := mapAclUnder_get_dir st.fs sh.directory q (aclAppend theLockAcl) a hget
        rw [if_pos hu] at hget2
        rw [FS.aclAt_dir _ _ _ hget2]
        exact lockAce_mem_aclAppend a
  · intro q hu hex
    rw [hunlockfs]
    cases hget : st.fs.get q with
    | none => simp [FS.pathExists, hget] at hex
    | some e =>
      cases e with
      | file i =>
        rw [FS.aclAt_file _ _ i (mapAclUnder_get_file st.fs sh.directory q _ i hget)]
        unfold FS.inoAcl
        rw [mapAclUnder_inodeAcls]
        exact applyInos_Q (aclUnset theLockAcl) (fun a => lockAce ∉ a)
          lockAce_not_mem_aclUnset _ _ i (Or.inl (mem_inosUnder st.fs sh.directory q i hu hget))
      | dir a =>
        have hget2 := mapAclUnder_get_dir st.fs sh.directory q (aclUnset theLockAcl) a hget
        rw [if_pos hu] at hget2
        rw [FS.aclAt_dir _ _ _ hget2]
        exact lockAce_not_mem_aclUnset a
  · intro q
    rw [hunlockfs, hlockfs]
    cases hget : st.fs.get q with
    | none =>
      rw [FS.aclAt_none _ _ (mapAclUnder_get_none _ _ _ _ (mapAclUnder_get_none _ _ _ _ hget))]
      rw [FS.aclAt_none _ _ hget]
    | some e =>
      cases e with
      | file i =>
        rw [FS.aclAt_file _ _ i
          (mapAclUnder_get_file _ _ _ _ i (mapAclUnder_get_file _ _ _ _ i hget))]
        rw [FS.aclAt_file _ _ i hget]
        unfold FS.inoAcl
        rw [mapAclUnder_inodeAcls, mapAclUnder_inodeAcls]
        rw [applyInos_proj (aclUnset theLockAcl) nonDeny nonDeny_aclUnset_lock]
        rw [applyInos_proj (aclAppend theLockAcl) nonDeny nonDeny_aclAppend_lock]
      | dir a =>
        rw [FS.aclAt_dir _ _ a hget]
        by_cases hu : isUnder sh.directory q
        · have hg1 := mapAclUnder_get_dir st.fs sh.directory q (aclAppend theLockAcl) a hget
          rw [if_pos hu] at hg1
          have hg2 := mapAclUnder_get_dir _ sh.directory q (aclUnset theLockAcl) _ hg1
          rw [if_pos hu] at hg2
          rw [FS.aclAt_dir _ _ _ hg2]
          rw [nonDeny_aclUnset_lock, nonDeny_aclAppend_lock]
        · have hg1 := mapAclUnder_get_dir st.fs sh.directory q (aclAppend theLockAcl) a hget
          rw [if_neg hu] at hg1
          have hg2 := mapAclUnder_get_dir _ sh.directory q (aclUnset theLockAcl) _ hg1
          rw [if_neg hu] at hg2
          rw [FS.aclAt_dir _ _ _ hg2]

/-- Witness for claim C6 at a concrete state and path. -/
theorem lock_unlock_toggle_witness :
    (isUnder sampleShare.directory ["srv", "share", "x"] = true ∧
      oneLinkSt.fs.pathExists ["srv", "share", "x"] = true) ∧
    lockAce ∈ (sampleShare.lock oneLinkSt).fs.aclAt ["srv", "share", "x"] ∧
    lockAce ∉ (sampleShare.unlock oneLinkSt).fs.aclAt ["srv", "share", "x"] ∧
    nonDeny ((sampleShare.unlock (sampleShare.lock oneLinkSt)).fs.aclAt
        ["srv", "share", "x"]) =
      nonDeny (oneLinkSt.fs.aclAt ["srv", "share", "x"]) :=
  ⟨⟨by decide, by decide⟩,
    (lock_unlock_toggle sampleShare oneLinkSt rfl).1 _ (by decide) (by decide),
    (lock_unlock_toggle sampleShare oneLinkSt rfl).2.1 _ (by decide) (by decide),
    (lock_unlock_toggle sampleShare oneLinkSt rfl).2.2 _⟩

/-! ### Claim C10: `_link_files` unlocks the source before linking -/

theorem applyInos_singleton (f : ACL → ACL) (i : Nat) (tbl : List (Nat × ACL)) :
    applyInos f [i] tbl = kvSet tbl i (f ((kvGet tbl i).getD [])) := by
  simp [applyInos]

theorem FS.set_inodeAcls (fs : FS) (p : Path) (e : Entry) :
    (fs.set p e).inodeAcls = fs.inodeAcls := rfl

theorem FS.setInoAcl_entries (fs : FS) (i : Nat) (a : ACL) :
    (fs.setInoAcl i a).entries = fs.entries := rfl

theorem mapAclUnder_protectedInos (fs : FS) (p : Path) (f : ACL → ACL) :
    (fs.mapAclUnder p f).protectedInos = fs.protectedInos := rfl

theorem FS.set_protectedInos (fs : FS) (p : Path) (e : Entry) :
    (fs.set p e).protectedInos = fs.protectedInos := rfl

/-- Claim C10.  Successful linking of a fresh target first applies the
recursive lock-entry removal to the source path itself, then creates the
hardlink (to the source's — canonical, since the model carries no
symbolic links — path), then layers the share's ambient ACL on the
shared inode.  Consequently the original file's ACL outside the share is
mutated: its final value is the ambient entries on top of its old ACL
with every lock entry stripped; in particular the lock entry, if it was
present, is gone (as long as the share directory's own ACL does not
contain it). -/
theorem unlockPath_eq (sh : Share) (source : Path) (st : MState) :
    sh.unlockPath source st =
      { fs := st.fs.mapAclUnder source (aclUnset sh.lock_acl),
        trace := st.trace ++ [Event.unsetAclRecE source sh.lock_acl] } := rfl

theorem osLink_ok_eq (src tgt : Path) (i : Nat) (st : MState)
    (hsrc : st.fs.get src = some (Entry.file i)) (htgt : st.fs.get tgt = none)
    (hprot : i ∉ st.fs.protectedInos) :
    osLink src tgt st =
      (Except.ok (), { fs := st.fs.set tgt (Entry.file i),
                       trace := st.trace ++ [Event.linkE src tgt] }) := by
  unfold osLink
  rw [hsrc]
  simp [FS.pathExists, htgt, hprot, emit]

theorem linkFilesN_succ_ok (sh : Share) (source target : Path) (fuel : Nat)
    (st st1 : MState)
    (hL : osLink source target (sh.unlockPath source st) = (Except.ok (), st1)) :
    sh.linkFilesN source target (fuel + 1) st =
      (Except.ok (), emit
        { st1 with
          fs := st1.fs.setAclAt target
            (aclAppend (sh.permissionsOf st1) (st1.fs.aclAt target)) }
        (Event.appendAclE target (sh.permissionsOf st1))) := by
  simp only [Share.linkFilesN]
  rw [hL]

/-- Claim C10.  Successful linking of a fresh target first applies the
recursive lock-entry removal to the source path itself, then creates the
hardlink (to the source's — canonical, since the model carries no
symbolic links — path), then layers the share's ambient ACL on the
shared inode.  Consequently the original file's ACL outside the share is
mutated: its final value is the ambient entries on top of its old ACL
with every lock entry stripped; in particular the lock entry, if it was
present, is gone (as long as the share directory's own ACL does not
contain it). -/
theorem link_files_unlocks_source (sh : Share) (source target : Path) (i : Nat)
    (P0 : ACL) (st : MState)
    (hlacl : sh.lock_acl = theLockAcl)
    (hsrc : st.fs.get source = some (Entry.file i))
    (htgt : st.fs.get target = none)
    (hinos : st.fs.inosUnder source = [i])
    (hprot : i ∉ st.fs.protectedInos)
    (hdir : st.fs.get sh.directory = some (Entry.dir P0))
    (hnu : isUnder source sh.directory = false) :
    (sh.linkFiles source target st).1 = Except.ok () ∧
    (sh.linkFiles source target st).2.trace =
      st.trace ++ [Event.unsetAclRecE source theLockAcl, Event.linkE source target,
        Event.appendAclE target P0] ∧
    (sh.linkFiles source target st).2.fs.get target = some (Entry.file i) ∧
    (sh.linkFiles source target st).2.fs.aclAt source =
      aclAppend P0 (aclUnset theLockAcl (st.fs.aclAt source)) ∧
    (lockAce ∉ P0 → lockAce ∉ (sh.linkFiles source target st).2.fs.aclAt source) := by
  have hne : source ≠ target := by
    intro h
    rw [h, htgt] at hsrc
    exact Option.noConfusion hsrc
  have hdirne : sh.directory ≠ target := by
    intro h
    rw [h, htgt] at hdir
    exact Option.noConfusion hdir
  -- facts about the state after the recursive unlock of the source
  have hsrc0 : (st.fs.mapAclUnder source (aclUnset theLockAcl)).get source =
      some (Entry.file i) := mapAclUnder_get_file st.fs source source _ i hsrc
  have htgt0 : (st.fs.mapAclUnder source (aclUnset theLockAcl)).get target = none :=
    mapAclUnder_get_none st.fs source target _ htgt
  have hdir0 : (st.fs.mapAclUnder source (aclUnset theLockAcl)).get sh.directory =
      some (Entry.dir P0) := by
    have := mapAclUnder_get_dir st.fs source sh.directory (aclUnset theLockAcl) P0 hdir
    rwa [if_neg (by simp [hnu])] at this
  have hino0 : (st.fs.mapAclUnder source (aclUnset theLockAcl)).inoAcl i =
      aclUnset theLockAcl (st.fs.inoAcl i) := by
    unfold FS.inoAcl
    rw [mapAclUnder_inodeAcls, hinos, applyInos_singleton, kvGet_kvSet_self]
    rfl
  -- facts about the state after the link
  have hsrc1 : ((st.fs.mapAclUnder source (aclUnset theLockAcl)).set target
      (Entry.file i)).get source = some (Entry.file i) := by
    rw [FS.get_set_ne _ _ _ _ hne]
    exact hsrc0
  have htgt1 : ((st.fs.mapAclUnder source (aclUnset theLockAcl)).set target
      (Entry.file i)).get target = some (Entry.file i) := FS.get_set_self _ _ _
  have hdir1 : ((st.fs.mapAclUnder source (aclUnset theLockAcl)).set target
      (Entry.file i)).get sh.directory = some (Entry.dir P0) := by
    rw [FS.get_set_ne _ _ _ _ hdirne]
    exact hdir0
  have hino1 : ((st.fs.mapAclUnder source (aclUnset theLockAcl)).set target
      (Entry.file i)).inoAcl i = aclUnset theLockAcl (st.fs.inoAcl i) := by
    unfold FS.inoAcl
    rw [FS.set_inodeAcls]
    exact hino0
  have hL : osLink source target (sh.unlockPath source st) =
      (Except.ok (),
        { fs := (st.fs.mapAclUnder source
                  (aclUnset theLockAcl)).set target (Entry.file i),
          trace := (st.trace ++ [Event.unsetAclRecE source sh.lock_acl]) ++
                   [Event.linkE source target] }) := by
    rw [unlockPath_eq, hlacl]
    exact osLink_ok_eq source target i _ hsrc0 htgt0 hprot
  have hrun := linkFilesN_succ_ok sh source target 1 st _ hL
  have hperm : sh.permissionsOf
      ({ fs := (st.fs.mapAclUnder source
                 (aclUnset theLockAcl)).set target (Entry.file i),
         trace := (st.trace ++ [Event.unsetAclRecE source sh.lock_acl]) ++
                  [Event.linkE source target] } : MState) = P0 :=
    FS.aclAt_dir _ _ _ hdir1
  have haclT : (((st.fs.mapAclUnder source (aclUnset theLockAcl)).set target
      (Entry.file i))).aclAt target = aclUnset theLockAcl (st.fs.aclAt source) := by
    rw [FS.aclAt_file _ _ i htgt1, hino1, FS.aclAt_file _ _ i hsrc]
  have hfinget : ∀ q : Path, (((st.fs.mapAclUnder source (aclUnset theLockAcl)).set target
      (Entry.file i)).setAclAt target
        (aclAppend P0 (aclUnset theLockAcl (st.fs.aclAt source)))).get q =
      ((st.fs.mapAclUnder source (aclUnset theLockAcl)).set target (Entry.file i)).get q :=
    fun q => FS.setAclAt_file_get _ _ q i _ htgt1
  have hfinacl : (((st.fs.mapAclUnder source (aclUnset theLockAcl)).set target
      (Entry.file i)).setAclAt target
        (aclAppend P0 (aclUnset theLockAcl (st.fs.aclAt source)))).aclAt source =
      aclAppend P0 (aclUnset theLockAcl (st.fs.aclAt source)) := by
    rw [FS.aclAt_file _ _ i (by rw [hfinget]; exact hsrc1)]
    unfold FS.setAclAt
    rw [htgt1]
    unfold FS.inoAcl FS.setInoAcl
    simp only
    rw [kvGet_kvSet_self]
    rfl
  have hfc : sh.linkFiles source target st =
      (Except.ok (), emit
        { fs := ((st.fs.mapAclUnder source (aclUnset theLockAcl)).set target
            (Entry.file i)).setAclAt target
              (aclAppend P0 (aclUnset theLockAcl (st.fs.aclAt source))),
          trace := (st.trace ++ [Event.unsetAclRecE source sh.lock_acl]) ++
            [Event.linkE source target] }
        (Event.appendAclE target P0)) := by
    show sh.linkFilesN source target 2 st = _
    rw [hrun]
    rw [hperm, haclT]
  rw [hfc]
  refine ⟨rfl, by simp [emit, hlacl], ?_, ?_, ?_⟩
  · simp only [emit]
    rw [hfinget]
    exact htgt1
  · simp only [emit]
    exact hfinacl
  · intro hP hmem
    simp only [emit] at hmem
    rw [hfinacl] at hmem
    rcases List.mem_append.mp hmem with hmem | hmem
    · exact hP hmem
    · unfold aclUnset at hmem
      have := List.of_mem_filter hmem
      simp [theLockAcl] at this
/-- A source file that carries the lock entry in its own ACL. -/
def lockedSrcFS : FS :=
  { entries := [(["srv"], Entry.dir []), (["srv", "share"], Entry.dir [ambAce]),
      (["data"], Entry.dir []), (["data", "f"], Entry.file 1)],
    inodeAcls := [(1, [lockAce, ownAce])],
    protectedInos := [] }

def lockedSrcSt : MState := { fs := lockedSrcFS, trace := [] }

/-- Witness for claim C10 at a concrete state: the lock entry present on
the original file outside the share is stripped by linking it. -/
theorem link_files_unlocks_source_witness :
    (lockedSrcSt.fs.get ["data", "f"] = some (Entry.file 1) ∧
      lockAce ∈ lockedSrcSt.fs.aclAt ["data", "f"]) ∧
    lockAce ∉ (sampleShare.linkFiles ["data", "f"] ["srv", "share", "f"]
      lockedSrcSt).2.fs.aclAt ["data", "f"] :=
  ⟨⟨by decide, by decide⟩,
    (link_files_unlocks_source sampleShare ["data", "f"] ["srv", "share", "f"] 1 [ambAce]
      lockedSrcSt rfl (by decide) (by decide) (by decide) (by decide) (by decide)
      (by decide)).2.2.2.2 (by decide)⟩

/-- A filesystem holding a plain file at `["tmp", "f"]`. -/
def plainFileFS : FS :=
  { entries := [(["tmp"], Entry.dir []), (["tmp", "f"], Entry.file 3)],
    inodeAcls := [(3, [ownAce])],
    protectedInos := [] }

def plainFileSt : MState := { fs := plainFileFS, trace := [] }

/-- Witness for claim C7 at a concrete state. -/
theorem share_init_file_guard_witness :
    plainFileSt.fs.get ["tmp", "f"] = some (Entry.file 3) ∧
    shareInit ["tmp", "f"] false plainFileSt =
      (Except.error (Err.illegalShareSetup ["tmp", "f"]), plainFileSt) :=
  ⟨by decide,
    (share_init_file_guard ["tmp", "f"] false plainFileSt).1 3 (by decide)⟩

/-! ### Path-prefix lemmas -/

theorem isUnder_iff (p q : Path) : isUnder p q = true ↔ ∃ s, q = p ++ s := by
  induction p generalizing q with
  | nil => simp [isUnder]
  | cons x xs ih =>
    cases q with
    | nil =>
      simp only [isUnder]
      constructor
      · intro h
        exact absurd h (by simp)
      · rintro ⟨s, hs⟩
        exact absurd hs (by simp)
    | cons y ys =>
      simp only [isUnder]
      by_cases hxy : x = y
      · subst hxy
        rw [if_pos rfl, ih]
        constructor
        · rintro ⟨s, hs⟩
          exact ⟨s, by simp [hs]⟩
        · rintro ⟨s, hs⟩
          simp only [List.cons_append, List.cons.injEq] at hs
          exact ⟨s, hs.2⟩
      · rw [if_neg hxy]
        constructor
        · intro h
          exact absurd h (by simp)
        · rintro ⟨s, hs⟩
          simp only [List.cons_append, List.cons.injEq] at hs
          exact absurd hs.1.symm hxy

theorem isUnder_refl (p : Path) : isUnder p p = true :=
  (isUnder_iff p p).mpr ⟨[], by simp⟩

theorem isUnder_append (p s : Path) : isUnder p (p ++ s) = true :=
  (isUnder_iff p (p ++ s)).mpr ⟨s, rfl⟩

theorem isUnder_trans {p q r : Path} (h1 : isUnder p q = true) (h2 : isUnder q r = true) :
    isUnder p r = true := by
  obtain ⟨s1, rfl⟩ := (isUnder_iff p q).mp h1
  obtain ⟨s2, rfl⟩ := (isUnder_iff _ r).mp h2
  exact (isUnder_iff _ _).mpr ⟨s1 ++ s2, by simp⟩

theorem isUnder_length_le {p q : Path} (h : isUnder p q = true) : p.length ≤ q.length := by
  obtain ⟨s, rfl⟩ := (isUnder_iff p q).mp h
  simp

theorem isUnder_iff_isPre (p q : Path) : isUnder p q = true ↔ p <+: q := by
  rw [isUnder_iff]
  constructor
  · rintro ⟨s, rfl⟩
    exact ⟨s, rfl⟩
  · rintro ⟨s, rfl⟩
    exact ⟨s, rfl⟩

theorem isUnder_antisymm {p q : Path} (h1 : isUnder p q = true) (h2 : isUnder q p = true) :
    p = q := by
  obtain ⟨s1, rfl⟩ := (isUnder_iff p q).mp h1
  obtain ⟨s2, hs2⟩ := (isUnder_iff _ _).mp h2
  have hlen := congrArg List.length hs2
  simp only [List.length_append] at hlen
  have hs : s1 = [] := List.eq_nil_of_length_eq_zero (by omega)
  simp [hs]

/-- Two leading parts of the same path are comparable. -/
theorem isUnder_comparable {p q r : Path} (h1 : isUnder p r = true)
    (h2 : isUnder q r = true) : isUnder p q = true ∨ isUnder q p = true := by
  rw [isUnder_iff_isPre] at h1 h2 ⊢
  rw [isUnder_iff_isPre]
  rcases Nat.le_total p.length q.length with hle | hle
  · exact Or.inl (List.prefix_of_prefix_length_le h1 h2 hle)
  · exact Or.inr (List.prefix_of_prefix_length_le h2 h1 hle)

theorem isUnder_append_singleton {p q : Path} {x : String} :
    isUnder p (q ++ [x]) = true ↔ isUnder p q = true ∨ p = q ++ [x] := by
  constructor
  · intro h
    obtain ⟨s, hs⟩ := (isUnder_iff p (q ++ [x])).mp h
    cases s using List.reverseRecOn with
    | nil => right; simpa using hs.symm
    | append_singleton s' y =>
      left
      rw [isUnder_iff]
      rw [show p ++ (s' ++ [y]) = (p ++ s') ++ [y] by simp] at hs
      have := List.append_inj' hs.symm rfl
      exact ⟨s', this.1.symm⟩
  · rintro (h | rfl)
    · exact isUnder_trans h (isUnder_append q [x])
    · exact isUnder_refl _

theorem isUnder_dropLast {p q : Path} (h : isUnder p q = true) (hne : p ≠ q) :
    isUnder p q.dropLast = true := by
  obtain ⟨s, rfl⟩ := (isUnder_iff p q).mp h
  cases s using List.reverseRecOn with
  | nil => simp at hne
  | append_singleton s' y =>
    rw [show p ++ (s' ++ [y]) = (p ++ s') ++ [y] by simp, List.dropLast_concat]
    exact isUnder_append p s'

theorem childNameOf_eq_none {p q : Path} (h : ¬ (isUnder p q = true ∧ q.length = p.length + 1)) :
    childNameOf p q = none := by
  unfold childNameOf
  cases hu : isUnder p q with
  | false => rfl
  | true =>
    cases hd : q.drop p.length with
    | nil => rfl
    | cons n rest =>
      cases rest with
      | nil =>
        exfalso
        apply h
        refine ⟨hu, ?_⟩
        have hlen := congrArg List.length hd
        simp only [List.length_drop, List.length_cons, List.length_nil] at hlen
        have := isUnder_length_le hu
        omega
      | cons m rest2 => rfl

theorem childNameOf_child (p : Path) (x : String) : childNameOf p (p ++ [x]) = some x := by
  unfold childNameOf
  rw [isUnder_append]
  simp

theorem childNameOf_some {p q : Path} {x : String} (h : childNameOf p q = some x) :
    q = p ++ [x] := by
  unfold childNameOf at h
  cases hu : isUnder p q with
  | false => rw [hu] at h; exact absurd h (by simp)
  | true =>
    rw [hu] at h
    cases hd : q.drop p.length with
    | nil => rw [hd] at h; exact absurd h (by simp)
    | cons n rest =>
      cases rest with
      | nil =>
        rw [hd] at h
        have hn := Option.some.inj h
        subst hn
        obtain ⟨s, rfl⟩ := (isUnder_iff p q).mp hu
        rw [List.drop_left] at hd
        rw [hd]
      | cons m rest2 => rw [hd] at h; exact absurd h (by simp)

/-! ### Shape of a filesystem: what walks depend on -/

/-- The kind of an entry (directory?), forgetting ACL values. -/
def entryIsDir : Entry → Bool
  | .dir _ => true
  | .file _ => false

def FS.shape (fs : FS) : List (Path × Bool) :=
  fs.entries.map (fun e => (e.1, entryIsDir e.2))

theorem kvGet_shape {l1 l2 : List (Path × Entry)} (q : Path)
    (h : l1.map (fun e => (e.1, entryIsDir e.2)) = l2.map (fun e => (e.1, entryIsDir e.2))) :
    (kvGet l1 q).map entryIsDir = (kvGet l2 q).map entryIsDir := by
  induction l1 generalizing l2 with
  | nil =>
    cases l2 with
    | nil => rfl
    | cons h2 t2 => simp at h
  | cons h1 t1 ih =>
    cases l2 with
    | nil => simp at h
    | cons h2 t2 =>
      obtain ⟨k1, v1⟩ := h1
      obtain ⟨k2, v2⟩ := h2
      simp only [List.map_cons, List.cons.injEq, Prod.mk.injEq] at h
      obtain ⟨⟨hk, hv⟩, ht⟩ := h
      subst hk
      by_cases hq : k1 = q
      · subst hq
        simp [kvGet, hv]
      · simp only [kvGet, if_neg hq]
        exact ih ht

theorem filterMap_shape_dir (p : Path) : ∀ (l1 l2 : List (Path × Entry)),
    l1.map (fun e => (e.1, entryIsDir e.2)) = l2.map (fun e => (e.1, entryIsDir e.2)) →
    l1.filterMap (fun e =>
        match e.2 with
        | .dir _ => childNameOf p e.1
        | .file _ => none) =
      l2.filterMap (fun e =>
        match e.2 with
        | .dir _ => childNameOf p e.1
        | .file _ => none) := by
  intro l1
  induction l1 with
  | nil =>
    intro l2 h
    cases l2 with
    | nil => rfl
    | cons hd t => simp at h
  | cons hd t ih =>
    intro l2 h
    cases l2 with
    | nil => simp at h
    | cons hd2 t2 =>
      obtain ⟨k1, v1⟩ := hd
      obtain ⟨k2, v2⟩ := hd2
      simp only [List.map_cons, List.cons.injEq, Prod.mk.injEq] at h
      obtain ⟨⟨hk, hv⟩, ht⟩ := h
      subst hk
      cases v1 with
      | dir a1 =>
        cases v2 with
        | dir a2 =>
          simp only [List.filterMap_cons]
          cases hcn : childNameOf p k1 <;> simp [hcn, ih t2 ht]
        | file i2 => simp [entryIsDir] at hv
      | file i1 =>
        cases v2 with
        | dir a2 => simp [entryIsDir] at hv
        | file i2 =>
          simp only [List.filterMap_cons]
          simp [ih t2 ht]

theorem filterMap_shape_file (p : Path) : ∀ (l1 l2 : List (Path × Entry)),
    l1.map (fun e => (e.1, entryIsDir e.2)) = l2.map (fun e => (e.1, entryIsDir e.2)) →
    l1.filterMap (fun e =>
        match e.2 with
        | .file _ => childNameOf p e.1
        | .dir _ => none) =
      l2.filterMap (fun e =>
        match e.2 with
        | .file _ => childNameOf p e.1
        | .dir _ => none) := by
  intro l1
  induction l1 with
  | nil =>
    intro l2 h
    cases l2 with
    | nil => rfl
    | cons hd t => simp at h
  | cons hd t ih =>
    intro l2 h
    cases l2 with
    | nil => simp at h
    | cons hd2 t2 =>
      obtain ⟨k1, v1⟩ := hd
      obtain ⟨k2, v2⟩ := hd2
      simp only [List.map_cons, List.cons.injEq, Prod.mk.injEq] at h
      obtain ⟨⟨hk, hv⟩, ht⟩ := h
      subst hk
      cases v1 with
      | file i1 =>
        cases v2 with
        | file i2 =>
          simp only [List.filterMap_cons]
          cases hcn : childNameOf p k1 <;> simp [hcn, ih t2 ht]
        | dir a2 => simp [entryIsDir] at hv
      | dir a1 =>
        cases v2 with
        | file i2 => simp [entryIsDir] at hv
        | dir a2 =>
          simp only [List.filterMap_cons]
          simp [ih t2 ht]

theorem dirChildNames_shape {fs1 fs2 : FS} (h : fs1.shape = fs2.shape) (p : Path) :
    fs1.dirChildNames p = fs2.dirChildNames p :=
  filterMap_shape_dir p fs1.entries fs2.entries h

theorem fileChildNames_shape {fs1 fs2 : FS} (h : fs1.shape = fs2.shape) (p : Path) :
    fs1.fileChildNames p = fs2.fileChildNames p :=
  filterMap_shape_file p fs1.entries fs2.entries h

theorem isDirGet_shape {fs1 fs2 : FS} (h : fs1.shape = fs2.shape) (p : Path) :
    (fs1.get p).map entryIsDir = (fs2.get p).map entryIsDir :=
  kvGet_shape p h

theorem walkTopA_shape {fs1 fs2 : FS} (h : fs1.shape = fs2.shape) :
    ∀ (fuel : Nat) (p : Path), walkTopA fs1 fuel p = walkTopA fs2 fuel p := by
  intro fuel
  induction fuel with
  | zero => intro p; rfl
  | succ n ih =>
    intro p
    have hg := isDirGet_shape h p
    unfold walkTopA
    cases h1 : fs1.get p with
    | none =>
      rw [h1] at hg
      cases h2 : fs2.get p with
      | none => rfl
      | some e2 =>
        rw [h2] at hg
        cases e2 <;> simp [entryIsDir] at hg
    | some e1 =>
      rw [h1] at hg
      cases h2 : fs2.get p with
      | none =>
        rw [h2] at hg
        cases e1 <;> simp [entryIsDir] at hg
      | some e2 =>
        rw [h2] at hg
        cases e1 with
        | file i =>
          cases e2 with
          | file j => rfl
          | dir a => simp [entryIsDir] at hg
        | dir a =>
          cases e2 with
          | file j => simp [entryIsDir] at hg
          | dir b =>
            rw [dirChildNames_shape h, fileChildNames_shape h]
            have hfun : (fun d => walkTopA fs1 n (p ++ [d])) =
                (fun d => walkTopA fs2 n (p ++ [d])) := funext (fun d => ih _)
            rw [hfun]

theorem walkBotA_shape {fs1 fs2 : FS} (h : fs1.shape = fs2.shape) :
    ∀ (fuel : Nat) (p : Path), walkBotA fs1 fuel p = walkBotA fs2 fuel p := by
  intro fuel
  induction fuel with
  | zero => intro p; rfl
  | succ n ih =>
    intro p
    have hg := isDirGet_shape h p
    unfold walkBotA
    cases h1 : fs1.get p with
    | none =>
      rw [h1] at hg
      cases h2 : fs2.get p with
      | none => rfl
      | some e2 =>
        rw [h2] at hg
        cases e2 <;> simp [entryIsDir] at hg
    | some e1 =>
      rw [h1] at hg
      cases h2 : fs2.get p with
      | none =>
        rw [h2] at hg
        cases e1 <;> simp [entryIsDir] at hg
      | some e2 =>
        rw [h2] at hg
        cases e1 with
        | file i =>
          cases e2 with
          | file j => rfl
          | dir a => simp [entryIsDir] at hg
        | dir a =>
          cases e2 with
          | file j => simp [entryIsDir] at hg
          | dir b =>
            rw [dirChildNames_shape h, fileChildNames_shape h]
            have hfun : (fun d => walkBotA fs1 n (p ++ [d])) =
                (fun d => walkBotA fs2 n (p ++ [d])) := funext (fun d => ih _)
            rw [hfun]

/-! ### Region shape: a walk depends only on the shape of its region -/

theorem kvGet_map_shape {α β : Type} [DecidableEq Path] (g : α → β)
    (l : List (Path × α)) (k : Path) :
    kvGet (l.map (fun e => (e.1, g e.2))) k = (kvGet l k).map g := by
  induction l with
  | nil => simp [kvGet]
  | cons hd t ih =>
    obtain ⟨k1, v1⟩ := hd
    by_cases hk : k1 = k
    · subst hk
      simp [kvGet]
    · simp only [List.map_cons, kvGet, if_neg hk]
      exact ih

theorem kvGet_filter {α : Type} (g : Path × α → Bool) (l : List (Path × α)) (k : Path)
    (hg : ∀ v : α, g (k, v) = true) : kvGet (l.filter g) k = kvGet l k := by
  induction l with
  | nil => simp [kvGet]
  | cons hd t ih =>
    obtain ⟨k1, v1⟩ := hd
    by_cases hk : k1 = k
    · subst hk
      simp [List.filter_cons, hg v1, kvGet]
    · cases hgv : g (k1, v1) <;> simp [List.filter_cons, hgv, kvGet, hk, ih]

theorem filterMap_eq_filterMap_filter {α β : Type} (f : α → Option β) (g : α → Bool)
    (l : List α) (h : ∀ e ∈ l, f e ≠ none → g e = true) :
    l.filterMap f = (l.filter g).filterMap f := by
  induction l with
  | nil => rfl
  | cons hd t ih =>
    have ht : ∀ e ∈ t, f e ≠ none → g e = true := fun e he => h e (List.mem_cons_of_mem _ he)
    cases hf : f hd with
    | none =>
      cases hg : g hd <;>
        simp [List.filter_cons, hg, List.filterMap_cons, hf, ih ht]
    | some b =>
      have hghd : g hd = true := h hd (List.mem_cons_self _ _) (by simp [hf])
      simp [List.filter_cons, hghd, List.filterMap_cons, hf, ih ht]

/-- The shape of the part of the filesystem at or under `p`. -/
def FS.regionShape (fs : FS) (p : Path) : List (Path × Bool) :=
  (fs.entries.filter (fun e => isUnder p e.1)).map (fun e => (e.1, entryIsDir e.2))

theorem regionShape_eq_filter_shape (fs : FS) (p : Path) :
    fs.regionShape p = fs.shape.filter (fun e => isUnder p e.1) := by
  unfold FS.regionShape FS.shape
  induction fs.entries with
  | nil => rfl
  | cons hd t ih =>
    cases hu : isUnder p hd.1 <;> simp [List.filter_cons, hu, ih]

theorem region_get_shape {fs1 fs2 : FS} {p : Path} (h : fs1.regionShape p = fs2.regionShape p)
    {r : Path} (hr : isUnder p r = true) :
    (fs1.get r).map entryIsDir = (fs2.get r).map entryIsDir := by
  have key : ∀ fs : FS, (fs.get r).map entryIsDir = kvGet (fs.regionShape p) r := by
    intro fs
    unfold FS.regionShape FS.get
    rw [kvGet_map_shape entryIsDir]
    rw [kvGet_filter _ _ _ (fun v => by simpa using hr)]
  rw [key fs1, key fs2, h]

theorem region_dirChildNames {fs1 fs2 : FS} {p : Path}
    (h : fs1.regionShape p = fs2.regionShape p) {r : Path} (hr : isUnder p r = true) :
    fs1.dirChildNames r = fs2.dirChildNames r := by
  have key : ∀ fs : FS, fs.dirChildNames r =
      (fs.entries.filter (fun e => isUnder p e.1)).filterMap (fun e =>
        match e.2 with
        | .dir _ => childNameOf r e.1
        | .file _ => none) := by
    intro fs
    unfold FS.dirChildNames
    apply filterMap_eq_filterMap_filter
    intro e _ hne
    cases he : e.2 with
    | file i => rw [he] at hne; simp at hne
    | dir a =>
      rw [he] at hne
      simp only at hne
      cases hcn : childNameOf r e.1 with
      | none => rw [hcn] at hne; simp at hne
      | some n =>
        have heq := childNameOf_some hcn
        rw [heq]
        exact isUnder_trans hr (isUnder_append r [n])
  rw [key fs1, key fs2]
  exact filterMap_shape_dir r _ _ h

theorem region_fileChildNames {fs1 fs2 : FS} {p : Path}
    (h : fs1.regionShape p = fs2.regionShape p) {r : Path} (hr : isUnder p r = true) :
    fs1.fileChildNames r = fs2.fileChildNames r := by
  have key : ∀ fs : FS, fs.fileChildNames r =
      (fs.entries.filter (fun e => isUnder p e.1)).filterMap (fun e =>
        match e.2 with
        | .file _ => childNameOf r e.1
        | .dir _ => none) := by
    intro fs
    unfold FS.fileChildNames
    apply filterMap_eq_filterMap_filter
    intro e _ hne
    cases he : e.2 with
    | dir a => rw [he] at hne; simp at hne
    | file i =>
      rw [he] at hne
      simp only at hne
      cases hcn : childNameOf r e.1 with
      | none => rw [hcn] at hne; simp at hne
      | some n =>
        have heq := childNameOf_some hcn
        rw [heq]
        exact isUnder_trans hr (isUnder_append r [n])
  rw [key fs1, key fs2]
  exact filterMap_shape_file r _ _ h

theorem walkTopA_region {fs1 fs2 : FS} {p : Path}
    (h : fs1.regionShape p = fs2.regionShape p) :
    ∀ (fuel : Nat) (r : Path), isUnder p r = true →
      walkTopA fs1 fuel r = walkTopA fs2 fuel r := by
  intro fuel
  induction fuel with
  | zero => intro r _; rfl
  | succ n ih =>
    intro r hr
    have hg := region_get_shape h hr
    unfold walkTopA
    cases h1 : fs1.get r with
    | none =>
      rw [h1] at hg
      cases h2 : fs2.get r with
      | none => rfl
      | some e2 =>
        rw [h2] at hg
        cases e2 <;> simp [entryIsDir] at hg
    | some e1 =>
      rw [h1] at hg
      cases h2 : fs2.get r with
      | none =>
        rw [h2] at hg
        cases e1 <;> simp [entryIsDir] at hg
      | some e2 =>
        rw [h2] at hg
        cases e1 with
        | file i =>
          cases e2 with
          | file j => rfl
          | dir a => simp [entryIsDir] at hg
        | dir a =>
          cases e2 with
          | file j => simp [entryIsDir] at hg
          | dir b =>
            have hfun : (fun d => walkTopA fs1 n (r ++ [d])) =
                (fun d => walkTopA fs2 n (r ++ [d])) :=
              funext (fun d => ih (r ++ [d]) (isUnder_trans hr (isUnder_append r [d])))
            rw [region_dirChildNames h hr, region_fileChildNames h hr, hfun]

theorem walkBotA_region {fs1 fs2 : FS} {p : Path}
    (h : fs1.regionShape p = fs2.regionShape p) :
    ∀ (fuel : Nat) (r : Path), isUnder p r = true →
      walkBotA fs1 fuel r = walkBotA fs2 fuel r := by
  intro fuel
  induction fuel with
  | zero => intro r _; rfl
  | succ n ih =>
    intro r hr
    have hg := region_get_shape h hr
    unfold walkBotA
    cases h1 : fs1.get r with
    | none =>
      rw [h1] at hg
      cases h2 : fs2.get r with
      | none => rfl
      | some e2 =>
        rw [h2] at hg
        cases e2 <;> simp [entryIsDir] at hg
    | some e1 =>
      rw [h1] at hg
      cases h2 : fs2.get r with
      | none =>
        rw [h2] at hg
        cases e1 <;> simp [entryIsDir] at hg
      | some e2 =>
        rw [h2] at hg
        cases e1 with
        | file i =>
          cases e2 with
          | file j => rfl
          | dir a => simp [entryIsDir] at hg
        | dir a =>
          cases e2 with
          | file j => simp [entryIsDir] at hg
          | dir b =>
            have hfun : (fun d => walkBotA fs1 n (r ++ [d])) =
                (fun d => walkBotA fs2 n (r ++ [d])) :=
              funext (fun d => ih (r ++ [d]) (isUnder_trans hr (isUnder_append r [d])))
            rw [region_dirChildNames h hr, region_fileChildNames h hr, hfun]

/-! ### Fuel sufficiency for walks -/

def FS.maxLen (fs : FS) : Nat := (fs.entries.map (fun e => e.1.length)).foldr Nat.max 0

theorem length_le_foldmax : ∀ (l : List (Path × Entry)) (q : Path), kvGet l q ≠ none →
    q.length ≤ (l.map (fun e => e.1.length)).foldr Nat.max 0 := by
  intro l
  induction l with
  | nil =>
    intro q h
    simp [kvGet] at h
  | cons hd t ih =>
    intro q h
    obtain ⟨k1, v1⟩ := hd
    by_cases hk : k1 = q
    · subst hk
      simp only [List.map_cons, List.foldr_cons]
      exact Nat.le_max_left _ _
    · simp only [kvGet, if_neg hk] at h
      simp only [List.map_cons, List.foldr_cons]
      exact le_trans (ih q h) (Nat.le_max_right _ _)

theorem FS.length_le_maxLen (fs : FS) (q : Path) (h : fs.get q ≠ none) :
    q.length ≤ fs.maxLen :=
  length_le_foldmax fs.entries q h

theorem FS.depthBound_eq (fs : FS) : fs.depthBound = fs.maxLen + 1 := rfl

theorem walkTopA_fuel (fs : FS) :
    ∀ (fuel1 fuel2 : Nat) (p : Path), fs.maxLen < p.length + fuel1 →
      fs.maxLen < p.length + fuel2 → walkTopA fs fuel1 p = walkTopA fs fuel2 p := by
  intro fuel1
  induction fuel1 with
  | zero =>
    intro fuel2 p h1 h2
    have hget : fs.get p = none ∨ ∃ i, fs.get p = some (Entry.file i) := by
      cases hg : fs.get p with
      | none => exact Or.inl rfl
      | some e =>
        cases e with
        | file i => exact Or.inr ⟨i, rfl⟩
        | dir a =>
          have := fs.length_le_maxLen p (by rw [hg]; simp)
          omega
    cases fuel2 with
    | zero => rfl
    | succ m =>
      show [] = walkTopA fs (m + 1) p
      unfold walkTopA
      rcases hget with hg | ⟨i, hg⟩ <;> rw [hg]
  | succ n ih =>
    intro fuel2 p h1 h2
    cases fuel2 with
    | zero =>
      have hget : fs.get p = none ∨ ∃ i, fs.get p = some (Entry.file i) := by
        cases hg : fs.get p with
        | none => exact Or.inl rfl
        | some e =>
          cases e with
          | file i => exact Or.inr ⟨i, rfl⟩
          | dir a =>
            have := fs.length_le_maxLen p (by rw [hg]; simp)
            omega
      show walkTopA fs (n + 1) p = []
      unfold walkTopA
      rcases hget with hg | ⟨i, hg⟩ <;> rw [hg]
    | succ m =>
      unfold walkTopA
      cases hg : fs.get p with
      | none => rfl
      | some e =>
        cases e with
        | file i => rfl
        | dir a =>
          have hfun : (fun d => walkTopA fs n (p ++ [d])) =
              (fun d => walkTopA fs m (p ++ [d])) :=
            funext (fun d => ih m (p ++ [d]) (by simp; omega) (by simp; omega))
          rw [hfun]

theorem walkBotA_fuel (fs : FS) :
    ∀ (fuel1 fuel2 : Nat) (p : Path), fs.maxLen < p.length + fuel1 →
      fs.maxLen < p.length + fuel2 → walkBotA fs fuel1 p = walkBotA fs fuel2 p := by
  intro fuel1
  induction fuel1 with
  | zero =>
    intro fuel2 p h1 h2
    have hget : fs.get p = none ∨ ∃ i, fs.get p = some (Entry.file i) := by
      cases hg : fs.get p with
      | none => exact Or.inl rfl
      | some e =>
        cases e with
        | file i => exact Or.inr ⟨i, rfl⟩
        | dir a =>
          have := fs.length_le_maxLen p (by rw [hg]; simp)
          omega
    cases fuel2 with
    | zero => rfl
    | succ m =>
      show [] = walkBotA fs (m + 1) p
      unfold walkBotA
      rcases hget with hg | ⟨i, hg⟩ <;> rw [hg]
  | succ n ih =>
    intro fuel2 p h1 h2
    cases fuel2 with
    | zero =>
      have hget : fs.get p = none ∨ ∃ i, fs.get p = some (Entry.file i) := by
        cases hg : fs.get p with
        | none => exact Or.inl rfl
        | some e =>
          cases e with
          | file i => exact Or.inr ⟨i, rfl⟩
          | dir a =>
            have := fs.length_le_maxLen p (by rw [hg]; simp)
            omega
      show walkBotA fs (n + 1) p = []
      unfold walkBotA
      rcases hget with hg | ⟨i, hg⟩ <;> rw [hg]
    | succ m =>
      unfold walkBotA
      cases hg : fs.get p with
      | none => rfl
      | some e =>
        cases e with
        | file i => rfl
        | dir a =>
          have hfun : (fun d => walkBotA fs n (p ++ [d])) =
              (fun d => walkBotA fs m (p ++ [d])) :=
            funext (fun d => ih m (p ++ [d]) (by simp; omega) (by simp; omega))
          rw [hfun]

theorem fsWalkTop_eq_walkTopA (fs : FS) (p : Path) (fuel : Nat)
    (h : fs.maxLen < p.length + fuel) : fsWalkTop fs p = walkTopA fs fuel p := by
  unfold fsWalkTop
  exact walkTopA_fuel fs fs.depthBound fuel p (by rw [FS.depthBound_eq]; omega) h

theorem fsWalkBot_eq_walkBotA (fs : FS) (p : Path) (fuel : Nat)
    (h : fs.maxLen < p.length + fuel) : fsWalkBot fs p = walkBotA fs fuel p := by
  unfold fsWalkBot
  exact walkBotA_fuel fs fs.depthBound fuel p (by rw [FS.depthBound_eq]; omega) h

/-! ### Clean-run equations for the elementary share operations -/

theorem kvSet_kvSet {κ α : Type} [DecidableEq κ] (l : List (κ × α)) (k : κ) (v w : α) :
    kvSet (kvSet l k v) k w = kvSet l k w := by
  induction l with
  | nil => simp [kvSet]
  | cons hd t ih =>
    obtain ⟨k1, v1⟩ := hd
    by_cases hk : k1 = k
    · subst hk
      simp [kvSet]
    · simp [kvSet, hk, ih]

theorem not_mem_of_kvGet_none {κ α : Type} [DecidableEq κ] (l : List (κ × α)) (k : κ)
    (h : kvGet l k = none) : k ∉ l.map Prod.fst := by
  intro hmem
  have := kvGet_isSome_of_mem l k hmem
  rw [h] at this
  simp at this

theorem mem_kvGet_nodup {κ α : Type} [DecidableEq κ] (l : List (κ × α)) (k : κ) (v : α)
    (hnd : (l.map Prod.fst).Nodup) (hmem : (k, v) ∈ l) : kvGet l k = some v := by
  induction l with
  | nil => simp at hmem
  | cons hd t ih =>
    obtain ⟨k1, v1⟩ := hd
    simp only [List.map_cons, List.nodup_cons] at hnd
    rcases List.mem_cons.mp hmem with heq | hmem'
    · obtain ⟨hk, hv⟩ := Prod.mk.injEq .. ▸ heq
      obtain ⟨rfl, rfl⟩ := Prod.mk.inj heq.symm
      simp [kvGet]
    · by_cases hk : k1 = k
      · subst hk
        exact absurd (List.mem_map_of_mem Prod.fst hmem') hnd.1
      · simp only [kvGet, if_neg hk]
        exact ih hnd.2 hmem'

/-- With only file entries at or under `p`, the recursive ACL map leaves
every directory entry untouched, hence the entry list unchanged. -/
theorem mapAclUnder_entries_files_only (fs : FS) (p : Path) (f : ACL → ACL)
    (hwf : fs.wf)
    (hnodir : ∀ q a, fs.get q = some (Entry.dir a) → isUnder p q = false) :
    (fs.mapAclUnder p f).entries = fs.entries := by
  rw [mapAclUnder_entries]
  have hcong : ∀ e ∈ fs.entries, aclEntryMap p f e = id e := by
    intro e hmem
    obtain ⟨k, v⟩ := e
    cases v with
    | file i =>
      unfold aclEntryMap
      by_cases hu : isUnder p k <;> simp [hu]
    | dir a =>
      have hget : fs.get k = some (Entry.dir a) := mem_kvGet_nodup fs.entries k _ hwf hmem
      have hnu := hnodir k a hget
      unfold aclEntryMap
      simp [hnu]
  rw [List.map_congr_left hcong, List.map_id]

/-- The net per-inode ACL transformation of linking one file. -/
def dupInoStep (P0 : ACL) (tbl : List (Nat × ACL)) (i : Nat) : List (Nat × ACL) :=
  kvSet tbl i (aclAppend P0 (aclUnset theLockAcl ((kvGet tbl i).getD [])))

/-- The net per-inode ACL transformation of un-sharing one file. -/
def unshareInoStep (P0 : ACL) (tbl : List (Nat × ACL)) (i : Nat) : List (Nat × ACL) :=
  kvSet tbl i (aclSub ((kvGet tbl i).getD []) P0)

/-- Clean run of `_link_files`: the source exists as a file, the target
is fresh, the inode is not link-protected.  The full resulting state. -/
theorem linkFiles_clean (sh : Share) (source target : Path) (i : Nat) (P0 : ACL)
    (st : MState)
    (hlacl : sh.lock_acl = theLockAcl)
    (hwf : st.fs.wf)
    (hsrc : st.fs.get source = some (Entry.file i))
    (htgt : st.fs.get target = none)
    (hinos : st.fs.inosUnder source = [i])
    (hnodir : ∀ q a, st.fs.get q = some (Entry.dir a) → isUnder source q = false)
    (hprot : i ∉ st.fs.protectedInos)
    (hdir : st.fs.get sh.directory = some (Entry.dir P0)) :
    sh.linkFiles source target st =
      (Except.ok (),
        { fs := { entries := st.fs.entries ++ [(target, Entry.file i)],
                  inodeAcls := dupInoStep P0 st.fs.inodeAcls i,
                  protectedInos := st.fs.protectedInos },
          trace := st.trace ++ [Event.unsetAclRecE source theLockAcl,
            Event.linkE source target, Event.appendAclE target P0] }) := by
  have hent0 : (st.fs.mapAclUnder source (aclUnset theLockAcl)).entries = st.fs.entries :=
    mapAclUnder_entries_files_only st.fs source _ hwf hnodir
  have hsrc0 : (st.fs.mapAclUnder source (aclUnset theLockAcl)).get source =
      some (Entry.file i) := mapAclUnder_get_file st.fs source source _ i hsrc
  have htgt0 : (st.fs.mapAclUnder source (aclUnset theLockAcl)).get target = none :=
    mapAclUnder_get_none st.fs source target _ htgt
  have hdir0 : (st.fs.mapAclUnder source (aclUnset theLockAcl)).get sh.directory =
      some (Entry.dir P0) := by
    have := mapAclUnder_get_dir st.fs source sh.directory (aclUnset theLockAcl) P0 hdir
    rwa [if_neg (by simp [hnodir sh.directory P0 hdir])] at this
  have hL : osLink source target (sh.unlockPath source st) =
      (Except.ok (),
        { fs := (st.fs.mapAclUnder source
                  (aclUnset theLockAcl)).set target (Entry.file i),
          trace := (st.trace ++ [Event.unsetAclRecE source sh.lock_acl]) ++
                   [Event.linkE source target] }) := by
    rw [unlockPath_eq, hlacl]
    exact osLink_ok_eq source target i _ hsrc0 htgt0 hprot
  have hrun := linkFilesN_succ_ok sh source target 1 st _ hL
  have htgt1 : ((st.fs.mapAclUnder source (aclUnset theLockAcl)).set target
      (Entry.file i)).get target = some (Entry.file i) := FS.get_set_self _ _ _
  have hdirne : sh.directory ≠ target := by
    intro h
    rw [h, htgt] at hdir
    exact Option.noConfusion hdir
  have hdir1 : ((st.fs.mapAclUnder source (aclUnset theLockAcl)).set target
      (Entry.file i)).get sh.directory = some (Entry.dir P0) := by
    rw [FS.get_set_ne _ _ _ _ hdirne]
    exact hdir0
  have hperm : sh.permissionsOf
      ({ fs := (st.fs.mapAclUnder source
                 (aclUnset theLockAcl)).set target (Entry.file i),
         trace := (st.trace ++ [Event.unsetAclRecE source sh.lock_acl]) ++
                  [Event.linkE source target] } : MState) = P0 :=
    FS.aclAt_dir _ _ _ hdir1
  have hino0 : (st.fs.mapAclUnder source (aclUnset theLockAcl)).inodeAcls =
      kvSet st.fs.inodeAcls i (aclUnset theLockAcl ((kvGet st.fs.inodeAcls i).getD [])) := by
    rw [mapAclUnder_inodeAcls, hinos, applyInos_singleton]
  have haclT : (((st.fs.mapAclUnder source (aclUnset theLockAcl)).set target
      (Entry.file i))).aclAt target =
      aclUnset theLockAcl ((kvGet st.fs.inodeAcls i).getD []) := by
    rw [FS.aclAt_file _ _ i htgt1]
    show ((st.fs.mapAclUnder source (aclUnset theLockAcl)).set target
      (Entry.file i)).inoAcl i = _
    unfold FS.inoAcl
    rw [FS.set_inodeAcls, hino0, kvGet_kvSet_self]
    rfl
  rw [Share.linkFiles, hrun, hperm, haclT]
  have hfs : (((st.fs.mapAclUnder source (aclUnset theLockAcl)).set target
        (Entry.file i)).setAclAt target
          (aclAppend P0 (aclUnset theLockAcl ((kvGet st.fs.inodeAcls i).getD [])))) =
      { entries := st.fs.entries ++ [(target, Entry.file i)],
        inodeAcls := dupInoStep P0 st.fs.inodeAcls i,
        protectedInos := st.fs.protectedInos } := by
    unfold FS.setAclAt
    rw [htgt1]
    unfold FS.setInoAcl FS.set
    simp only [hent0, FS.set_inodeAcls]
    congr 1
    · rw [kvSet_of_not_mem _ _ _ (not_mem_of_kvGet_none _ _ htgt)]
    · show kvSet ((st.fs.mapAclUnder source (aclUnset theLockAcl)).inodeAcls) i _ =
        dupInoStep P0 st.fs.inodeAcls i
      rw [hino0, kvSet_kvSet]
      rfl
  simp [emit, hfs, hlacl]

theorem osUnlink_ok_eq (p : Path) (i : Nat) (st : MState)
    (h : st.fs.get p = some (Entry.file i)) :
    osUnlink p st =
      (Except.ok (),
        { fs := { entries := kvDel st.fs.entries p,
                  inodeAcls := st.fs.inodeAcls,
                  protectedInos := st.fs.protectedInos },
          trace := st.trace ++ [Event.unlinkE p] }) := by
  unfold osUnlink
  rw [h]
  simp [emit, FS.del]

/-- Clean run of `_unshare_file` on an existing file when the guard does
not fire. -/
theorem unshareFile_clean (sh : Share) (target : Path) (i : Nat) (P0 : ACL) (st : MState)
    (force : Bool)
    (htgt : st.fs.get target = some (Entry.file i))
    (hok : force = true ∨ st.fs.countIno i ≠ 1)
    (hdir : st.fs.get sh.directory = some (Entry.dir P0)) :
    sh.unshareFile target force st =
      (Except.ok (),
        { fs := { entries := kvDel st.fs.entries target,
                  inodeAcls := unshareInoStep P0 st.fs.inodeAcls i,
                  protectedInos := st.fs.protectedInos },
          trace := st.trace ++
            [Event.setAclE target (aclSub ((kvGet st.fs.inodeAcls i).getD []) P0),
             Event.unlinkE target] }) := by
  have heq : sh.unshareFile target force st = sh.unshareFileGo target st := by
    cases force with
    | true => simp [Share.unshareFile]
    | false =>
      rcases hok with hok | hok
      · exact absurd hok (by simp)
      · simp [Share.unshareFile, htgt, hok]
  rw [heq]
  unfold Share.unshareFileGo
  have hacl : st.fs.aclAt target = (kvGet st.fs.inodeAcls i).getD [] :=
    FS.aclAt_file _ _ i htgt
  have hperm : sh.permissionsOf st = P0 := FS.aclAt_dir _ _ _ hdir
  rw [hacl, hperm]
  have hset : st.fs.setAclAt target (aclSub ((kvGet st.fs.inodeAcls i).getD []) P0) =
      { entries := st.fs.entries,
        inodeAcls := unshareInoStep P0 st.fs.inodeAcls i,
        protectedInos := st.fs.protectedInos } := by
    unfold FS.setAclAt
    rw [htgt]
    rfl
  have hget2 : (st.fs.setAclAt target (aclSub ((kvGet st.fs.inodeAcls i).getD []) P0)).get
      target = some (Entry.file i) := by
    rw [hset]
    exact htgt
  have hstep := osUnlink_ok_eq target i
    (emit { fs := st.fs.setAclAt target (aclSub ((kvGet st.fs.inodeAcls i).getD []) P0),
            trace := st.trace }
      (Event.setAclE target (aclSub ((kvGet st.fs.inodeAcls i).getD []) P0)))
    hget2
  show osUnlink target
      (emit { fs := st.fs.setAclAt target (aclSub ((kvGet st.fs.inodeAcls i).getD []) P0),
              trace := st.trace }
        (Event.setAclE target (aclSub ((kvGet st.fs.inodeAcls i).getD []) P0))) = _
  rw [hstep]
  simp [emit, hset]

theorem osMakedirsAux_fresh : ∀ (rest : List String) (base : Path) (st : MState),
    rest ≠ [] →
    (∀ k, 0 < k → k < rest.length → ∃ a, st.fs.get (base ++ rest.take k) =
      some (Entry.dir a)) →
    st.fs.get (base ++ rest) = none →
    osMakedirsAux false base rest st =
      (Except.ok (), { fs := st.fs.set (base ++ rest) (Entry.dir []),
                       trace := st.trace ++ [Event.mkdirE (base ++ rest)] }) := by
  intro rest
  induction rest with
  | nil => intro base st hne; exact absurd rfl hne
  | cons c cs ih =>
    intro base st _ hmid hfresh
    cases cs with
    | nil =>
      show osMakedirsAux false base [c] st = _
      simp only [osMakedirsAux]
      rw [show st.fs.get (base ++ [c]) = none from hfresh]
      simp [emit]
    | cons d ds =>
      obtain ⟨a, ha⟩ := hmid 1 (by omega) (by simp)
      show osMakedirsAux false base (c :: d :: ds) st = _
      simp only [osMakedirsAux]
      rw [show st.fs.get (base ++ [c]) = some (Entry.dir a) by
        simpa using ha]
      show osMakedirsAux false (base ++ [c]) (d :: ds) st = _
      have hmid' : ∀ k, 0 < k → k < (d :: ds).length →
          ∃ a', st.fs.get ((base ++ [c]) ++ (d :: ds).take k) = some (Entry.dir a') := by
        intro k hk1 hk2
        obtain ⟨a', ha'⟩ := hmid (k + 1) (by omega)
          (by simp only [List.length_cons] at hk2 ⊢; omega)
        refine ⟨a', ?_⟩
        rw [show (base ++ [c]) ++ (d :: ds).take k = base ++ (c :: d :: ds).take (k + 1) by
          simp]
        exact ha'
      have hfresh' : st.fs.get ((base ++ [c]) ++ (d :: ds)) = none := by
        rw [show (base ++ [c]) ++ (d :: ds) = base ++ (c :: d :: ds) by simp]
        exact hfresh
      rw [ih (base ++ [c]) st (by simp) hmid' hfresh']
      rw [show (base ++ [c]) ++ (d :: ds) = base ++ (c :: d :: ds) by simp]

theorem osMakedirs_fresh_eq (p : Path) (st : MState) (hp : p ≠ [])
    (hmid : ∀ k, 0 < k → k < p.length → ∃ a, st.fs.get (p.take k) = some (Entry.dir a))
    (hfresh : st.fs.get p = none) :
    osMakedirs p false st =
      (Except.ok (), { fs := st.fs.set p (Entry.dir []),
                       trace := st.trace ++ [Event.mkdirE p] }) := by
  cases p with
  | nil => exact absurd rfl hp
  | cons c cs =>
    show osMakedirsAux false [] (c :: cs) st = _
    rw [osMakedirsAux_fresh (c :: cs) [] st (by simp) (by simpa using hmid)
      (by simpa using hfresh)]
    simp

theorem osMakedirsAux_exists : ∀ (rest : List String) (base : Path) (st : MState)
    (e0 : Entry), rest ≠ [] →
    (∀ k, 0 < k → k < rest.length → ∃ a, st.fs.get (base ++ rest.take k) =
      some (Entry.dir a)) →
    st.fs.get (base ++ rest) = some e0 →
    osMakedirsAux false base rest st = (Except.error (Err.fileExists (base ++ rest)), st) := by
  intro rest
  induction rest with
  | nil => intro base st e0 hne; exact absurd rfl hne
  | cons c cs ih =>
    intro base st e0 _ hmid hex
    cases cs with
    | nil =>
      show osMakedirsAux false base [c] st = _
      simp only [osMakedirsAux]
      cases e0 with
      | dir a =>
        rw [show st.fs.get (base ++ [c]) = some (Entry.dir a) from hex]
        simp
      | file i =>
        rw [show st.fs.get (base ++ [c]) = some (Entry.file i) from hex]
        simp
    | cons d ds =>
      obtain ⟨a, ha⟩ := hmid 1 (by omega) (by simp)
      show osMakedirsAux false base (c :: d :: ds) st = _
      simp only [osMakedirsAux]
      rw [show st.fs.get (base ++ [c]) = some (Entry.dir a) by simpa using ha]
      show osMakedirsAux false (base ++ [c]) (d :: ds) st = _
      have hmid' : ∀ k, 0 < k → k < (d :: ds).length →
          ∃ a', st.fs.get ((base ++ [c]) ++ (d :: ds).take k) = some (Entry.dir a') := by
        intro k hk1 hk2
        obtain ⟨a', ha'⟩ := hmid (k + 1) (by omega)
          (by simp only [List.length_cons] at hk2 ⊢; omega)
        refine ⟨a', ?_⟩
        rw [show (base ++ [c]) ++ (d :: ds).take k = base ++ (c :: d :: ds).take (k + 1) by
          simp]
        exact ha'
      have hex' : st.fs.get ((base ++ [c]) ++ (d :: ds)) = some e0 := by
        rw [show (base ++ [c]) ++ (d :: ds) = base ++ (c :: d :: ds) by simp]
        exact hex
      rw [ih (base ++ [c]) st e0 (by simp) hmid' hex']
      rw [show (base ++ [c]) ++ (d :: ds) = base ++ (c :: d :: ds) by simp]

theorem osMakedirs_exists_err (p : Path) (e0 : Entry) (st : MState) (hp : p ≠ [])
    (hmid : ∀ k, 0 < k → k < p.length → ∃ a, st.fs.get (p.take k) = some (Entry.dir a))
    (hex : st.fs.get p = some e0) :
    osMakedirs p false st = (Except.error (Err.fileExists p), st) := by
  cases p with
  | nil => exact absurd rfl hp
  | cons c cs =>
    show osMakedirsAux false [] (c :: cs) st = _
    rw [osMakedirsAux_exists (c :: cs) [] st e0 (by simp) (by simpa using hmid)
      (by simpa using hex)]
    simp

/-- Clean run of `_makedir`: the target is fresh, its ancestors exist,
the share directory carries `P0`. -/
theorem makedirS_clean (sh : Share) (q : Path) (P0 : ACL) (st : MState)
    (hq : q ≠ [])
    (hanc : ∀ s, isUnder s q = true → s ≠ q → s ≠ [] → ∃ a, st.fs.get s =
      some (Entry.dir a))
    (hfresh : st.fs.get q = none)
    (hdir : st.fs.get sh.directory = some (Entry.dir P0)) :
    sh.makedirS q st =
      (Except.ok (),
        { fs := { entries := st.fs.entries ++ [(q, Entry.dir P0)],
                  inodeAcls := st.fs.inodeAcls,
                  protectedInos := st.fs.protectedInos },
          trace := st.trace ++ [Event.mkdirE q, Event.setAclE q P0] }) := by
  have hmid : ∀ k, 0 < k → k < q.length → ∃ a, st.fs.get (q.take k) =
      some (Entry.dir a) := by
    intro k hk1 hk2
    apply hanc
    · rw [isUnder_iff_isPre]
      exact List.take_prefix k q
    · intro h
      have := congrArg List.length h
      simp only [List.length_take] at this
      omega
    · intro h
      have := congrArg List.length h
      simp only [List.length_take, List.length_nil] at this
      omega
  have hqD : sh.directory ≠ q := by
    intro h
    rw [h, hfresh] at hdir
    exact Option.noConfusion hdir
  unfold Share.makedirS
  rw [osMakedirs_fresh_eq q st hq hmid hfresh]
  have hdir1 : (st.fs.set q (Entry.dir [])).get sh.directory = some (Entry.dir P0) := by
    rw [FS.get_set_ne _ _ _ _ hqD]
    exact hdir
  have hperm : sh.permissionsOf
      ({ fs := st.fs.set q (Entry.dir []), trace := st.trace ++ [Event.mkdirE q] } :
        MState) = P0 := FS.aclAt_dir _ _ _ hdir1
  simp only [andThen, hperm]
  have hsetacl : (st.fs.set q (Entry.dir [])).setAclAt q P0 =
      { entries := st.fs.entries ++ [(q, Entry.dir P0)],
        inodeAcls := st.fs.inodeAcls,
        protectedInos := st.fs.protectedInos } := by
    unfold FS.setAclAt
    rw [FS.get_set_self]
    unfold FS.set
    simp only [kvSet_kvSet]
    rw [kvSet_of_not_mem _ _ _ (not_mem_of_kvGet_none _ _ hfresh)]
  rw [hsetacl]
  simp [emit]

/-- Clean run of `os.rmdir` on an empty directory. -/
theorem osRmdir_clean (p : Path) (a : ACL) (st : MState)
    (hdir : st.fs.get p = some (Entry.dir a))
    (hempty : ∀ q, isUnder p q = true → q ≠ p → st.fs.get q = none) :
    osRmdir p st =
      (Except.ok (),
        { fs := { entries := kvDel st.fs.entries p,
                  inodeAcls := st.fs.inodeAcls,
                  protectedInos := st.fs.protectedInos },
          trace := st.trace ++ [Event.rmdirE p] }) := by
  unfold osRmdir
  rw [hdir]
  have hany : st.fs.entries.any (fun e => isUnder p e.1 && decide (e.1 ≠ p)) = false := by
    rw [List.any_eq_false]
    intro e hmem
    simp only [Bool.and_eq_true, decide_eq_true_eq, not_and]
    intro hu hne
    have hsome := kvGet_isSome_of_mem st.fs.entries e.1 (List.mem_map_of_mem Prod.fst hmem)
    have := hempty e.1 hu hne
    unfold FS.get at this
    rw [this] at hsome
    simp at hsome
  rw [hany]
  simp only [Bool.false_eq_true, if_false, emit, FS.del]

/-! ### Helper lemmas for the tree-duplication master lemma -/

theorem kvGet_append_left {κ α : Type} [DecidableEq κ] (l1 l2 : List (κ × α)) (k : κ)
    (h : kvGet l1 k = none) : kvGet (l1 ++ l2) k = kvGet l2 k := by
  induction l1 with
  | nil => simp [kvGet]
  | cons hd t ih =>
    obtain ⟨k1, v1⟩ := hd
    by_cases hk : k1 = k
    · subst hk
      simp [kvGet] at h
    · simp only [kvGet, if_neg hk] at h
      simp only [List.cons_append, kvGet, if_neg hk]
      exact ih h

theorem kvGet_append_right {κ α : Type} [DecidableEq κ] (l1 l2 : List (κ × α)) (k : κ)
    (h : kvGet l2 k = none) : kvGet (l1 ++ l2) k = kvGet l1 k := by
  induction l1 with
  | nil => simpa [kvGet] using h
  | cons hd t ih =>
    obtain ⟨k1, v1⟩ := hd
    by_cases hk : k1 = k
    · subst hk
      simp [kvGet]
    · simp only [List.cons_append, kvGet, if_neg hk]
      exact ih

theorem wf_append_fresh (l1 l2 : List (Path × Entry))
    (h1 : (l1.map Prod.fst).Nodup) (h2 : (l2.map Prod.fst).Nodup)
    (hdisj : ∀ k ∈ l2.map Prod.fst, kvGet l1 k = none) :
    ((l1 ++ l2).map Prod.fst).Nodup := by
  rw [List.map_append, List.nodup_append]
  refine ⟨h1, h2, ?_⟩
  intro k hk1 hk2
  have := hdisj k hk2
  have h3 := kvGet_eq_none_of_not_mem l1 k
  by_contra
  have h4 := kvGet_isSome_of_mem l1 k hk1
  rw [this] at h4
  simp at h4

/-- A path in the source region and a path in the mirror region are
never nested, as soon as the source and the share directory are not
nested. -/
theorem region_disjoint {src D : Path} (h1 : isUnder src D = false)
    (h2 : isUnder D src = false) {s t : Path} (hs : isUnder src s = true)
    (ht : isUnder D t = true) : isUnder s t = false ∧ isUnder t s = false := by
  constructor
  · cases hst : isUnder s t with
    | false => rfl
    | true =>
      exfalso
      have hsrct : isUnder src t = true := isUnder_trans hs hst
      rcases isUnder_comparable hsrct ht with h | h
      · rw [h] at h1; exact Bool.noConfusion h1
      · rw [h] at h2; exact Bool.noConfusion h2
  · cases hst : isUnder t s with
    | false => rfl
    | true =>
      exfalso
      have hDs : isUnder D s = true := isUnder_trans ht hst
      rcases isUnder_comparable hs hDs with h | h
      · rw [h] at h1; exact Bool.noConfusion h1
      · rw [h] at h2; exact Bool.noConfusion h2

theorem relTarget_child (srcLen : Nat) (top r : Path) (x : String)
    (h : srcLen ≤ r.length) :
    relTarget srcLen top (r ++ [x]) = relTarget srcLen top r ++ [x] := by
  unfold relTarget
  rw [List.drop_append_of_le_length h]
  simp

theorem relTarget_self (src top : Path) : relTarget src.length top src = top := by
  unfold relTarget
  simp

theorem relTarget_inj {src top : Path} {s1 s2 : Path}
    (h1 : isUnder src s1 = true) (h2 : isUnder src s2 = true)
    (heq : relTarget src.length top s1 = relTarget src.length top s2) : s1 = s2 := by
  obtain ⟨t1, rfl⟩ := (isUnder_iff src s1).mp h1
  obtain ⟨t2, rfl⟩ := (isUnder_iff src s2).mp h2
  unfold relTarget at heq
  rw [List.drop_left, List.drop_left] at heq
  have := List.append_cancel_left heq
  rw [this]

theorem relTarget_under (srcLen : Nat) (top s : Path) :
    isUnder top (relTarget srcLen top s) = true := isUnder_append _ _

/-- Two leading parts of one path with the same length coincide. -/
theorem isUnder_eq_of_length {p q s : Path} (hp : isUnder p s = true)
    (hq : isUnder q s = true) (hlen : p.length = q.length) : p = q := by
  rcases isUnder_comparable hp hq with h | h
  · obtain ⟨t, rfl⟩ := (isUnder_iff p q).mp h
    simp only [List.length_append] at hlen
    have : t = [] := List.eq_nil_of_length_eq_zero (by omega)
    simp [this]
  · obtain ⟨t, rfl⟩ := (isUnder_iff q p).mp h
    simp only [List.length_append] at hlen
    have : t = [] := List.eq_nil_of_length_eq_zero (by omega)
    simp [this]

/-- A name in the directory-children list names a directory entry. -/
theorem mem_dirChildNames (fs : FS) (r : Path) (n : String) (hwf : fs.wf)
    (h : n ∈ fs.dirChildNames r) : ∃ a, fs.get (r ++ [n]) = some (Entry.dir a) := by
  unfold FS.dirChildNames at h
  obtain ⟨e, hmem, hval⟩ := List.mem_filterMap.mp h
  cases he : e.2 with
  | file i => rw [he] at hval; simp at hval
  | dir a =>
    rw [he] at hval
    simp only at hval
    have hkey := childNameOf_some hval
    refine ⟨a, ?_⟩
    rw [← hkey]
    have : e = (e.1, Entry.dir a) := by
      rw [← he]
    rw [this] at hmem
    exact mem_kvGet_nodup fs.entries e.1 _ hwf hmem

theorem mem_fileChildNames (fs : FS) (r : Path) (n : String) (hwf : fs.wf)
    (h : n ∈ fs.fileChildNames r) : ∃ i, fs.get (r ++ [n]) = some (Entry.file i) := by
  unfold FS.fileChildNames at h
  obtain ⟨e, hmem, hval⟩ := List.mem_filterMap.mp h
  cases he : e.2 with
  | dir a => rw [he] at hval; simp at hval
  | file i =>
    rw [he] at hval
    simp only at hval
    have hkey := childNameOf_some hval
    refine ⟨i, ?_⟩
    rw [← hkey]
    have : e = (e.1, Entry.file i) := by
      rw [← he]
    rw [this] at hmem
    exact mem_kvGet_nodup fs.entries e.1 _ hwf hmem

theorem dirChildNames_nodup_aux (r : Path) : ∀ l : List (Path × Entry),
    (l.map Prod.fst).Nodup →
    (l.filterMap (fun e =>
      match e.2 with
      | Entry.dir _ => childNameOf r e.1
      | Entry.file _ => none)).Nodup := by
  intro l
  induction l with
  | nil => intro _; simp
  | cons hd t ih =>
    intro hwf
    simp only [List.map_cons, List.nodup_cons] at hwf
    simp only [List.filterMap_cons]
    cases hv : (match hd.2 with
        | Entry.dir _ => childNameOf r hd.1
        | Entry.file _ => none) with
    | none => exact ih hwf.2
    | some n =>
      rw [List.nodup_cons]
      refine ⟨?_, ih hwf.2⟩
      intro hmem
      obtain ⟨e, hmem2, hval⟩ := List.mem_filterMap.mp hmem
      have hkey1 : hd.1 = r ++ [n] := by
        cases hhd : hd.2 with
        | file i => rw [hhd] at hv; simp at hv
        | dir a =>
          rw [hhd] at hv
          exact childNameOf_some hv
      have hkey2 : e.1 = r ++ [n] := by
        cases hhe : e.2 with
        | file i => rw [hhe] at hval; simp at hval
        | dir a =>
          rw [hhe] at hval
          exact childNameOf_some hval
      apply hwf.1
      rw [hkey1, ← hkey2]
      exact List.mem_map_of_mem Prod.fst hmem2

theorem dirChildNames_nodup (fs : FS) (r : Path) (hwf : fs.wf) :
    (fs.dirChildNames r).Nodup :=
  dirChildNames_nodup_aux r fs.entries hwf

theorem fileChildNames_nodup_aux (r : Path) : ∀ l : List (Path × Entry),
    (l.map Prod.fst).Nodup →
    (l.filterMap (fun e =>
      match e.2 with
      | Entry.file _ => childNameOf r e.1
      | Entry.dir _ => none)).Nodup := by
  intro l
  induction l with
  | nil => intro _; simp
  | cons hd t ih =>
    intro hwf
    simp only [List.map_cons, List.nodup_cons] at hwf
    simp only [List.filterMap_cons]
    cases hv : (match hd.2 with
        | Entry.file _ => childNameOf r hd.1
        | Entry.dir _ => none) with
    | none => exact ih hwf.2
    | some n =>
      rw [List.nodup_cons]
      refine ⟨?_, ih hwf.2⟩
      intro hmem
      obtain ⟨e, hmem2, hval⟩ := List.mem_filterMap.mp hmem
      have hkey1 : hd.1 = r ++ [n] := by
        cases hhd : hd.2 with
        | dir a => rw [hhd] at hv; simp at hv
        | file i =>
          rw [hhd] at hv
          exact childNameOf_some hv
      have hkey2 : e.1 = r ++ [n] := by
        cases hhe : e.2 with
        | dir a => rw [hhe] at hval; simp at hval
        | file i =>
          rw [hhe] at hval
          exact childNameOf_some hval
      apply hwf.1
      rw [hkey1, ← hkey2]
      exact List.mem_map_of_mem Prod.fst hmem2

theorem fileChildNames_nodup (fs : FS) (r : Path) (hwf : fs.wf) :
    (fs.fileChildNames r).Nodup :=
  fileChildNames_nodup_aux r fs.entries hwf

theorem dir_file_names_disjoint (fs : FS) (r : Path) (n : String) (hwf : fs.wf)
    (h1 : n ∈ fs.dirChildNames r) (h2 : n ∈ fs.fileChildNames r) : False := by
  obtain ⟨a, ha⟩ := mem_dirChildNames fs r n hwf h1
  obtain ⟨i, hi⟩ := mem_fileChildNames fs r n hwf h2
  rw [ha] at hi
  exact Entry.noConfusion (Option.some.inj hi)

/-- A single file with nothing under it is its own ACL region. -/
theorem inosUnder_single (fs : FS) (p : Path) (i : Nat) (hwf : fs.wf)
    (hget : fs.get p = some (Entry.file i))
    (hdesc : ∀ q, isUnder p q = true → q ≠ p → fs.get q = none) :
    fs.inosUnder p = [i] := by
  obtain ⟨l1, l2, heq, hnot1, hnot2⟩ := kvGet_split_nodup fs.entries p _ hwf hget
  have hside : ∀ (l : List (Path × Entry)), (∀ e ∈ l, e ∈ fs.entries) →
      p ∉ l.map Prod.fst →
      l.filterMap (fun e =>
        if isUnder p e.1 then
          match e.2 with
          | .file j => some j
          | .dir _ => none
        else none) = [] := by
    intro l hsub hnp
    rw [List.filterMap_eq_nil_iff]
    intro e hmem
    cases hu : isUnder p e.1 with
    | false => simp [hu]
    | true =>
      exfalso
      have hne : e.1 ≠ p := by
        intro h
        exact hnp (h ▸ List.mem_map_of_mem Prod.fst hmem)
      have hnone := hdesc e.1 hu hne
      have hsome := kvGet_isSome_of_mem fs.entries e.1
        (List.mem_map_of_mem Prod.fst (hsub e hmem))
      unfold FS.get at hnone
      rw [hnone] at hsome
      simp at hsome
  unfold FS.inosUnder
  rw [heq]
  rw [List.filterMap_append, List.filterMap_cons]
  rw [hside l1 (fun e he => heq ▸ List.mem_append_left _ he) hnot1]
  rw [hside l2 (fun e he => heq ▸ List.mem_append_right _ (List.mem_cons_of_mem _ he)) hnot2]
  simp [isUnder_refl]

/-- `runAll` over an appended list. -/
theorem runAll_append {α : Type} (f : α → MState → MRes Unit) (l1 l2 : List α)
    (st : MState) :
    runAll f (l1 ++ l2) st = andThen (runAll f l1 st) (runAll f l2) := by
  induction l1 generalizing st with
  | nil => simp [runAll, andThen]
  | cons a t ih =>
    show runAll f (a :: (t ++ l2)) st = _
    unfold runAll
    cases hf : f a st with
    | mk r st1 =>
      cases r with
      | ok u => simp [andThen, ih]
      | error e => simp [andThen]

/-! ### Spec functions describing a clean tree duplication -/

/-- Inode number of the file entry at `q` (default 0, used only where a
file is known to exist). -/
def FS.inoOf (fs : FS) (q : Path) : Nat :=
  match fs.get q with
  | some (.file i) => i
  | _ => 0

/-- Directory entries created by duplicating the subtree below `r`
(excluding the mirror of `r` itself), in creation order, read off the
walk snapshot. -/
def mirrorList (fs : FS) (P0 : ACL) (srcLen : Nat) (top : Path) :
    Nat → Path → List (Path × Entry)
  | 0, _ => []
  | Nat.succ fuel, r =>
    match fs.get r with
    | some (.dir _) =>
      (fs.dirChildNames r).map
          (fun d => (relTarget srcLen top r ++ [d], Entry.dir P0)) ++
        (fs.fileChildNames r).map
          (fun f => (relTarget srcLen top r ++ [f], Entry.file (fs.inoOf (r ++ [f])))) ++
        (fs.dirChildNames r).flatMap (fun d => mirrorList fs P0 srcLen top fuel (r ++ [d]))
    | _ => []

/-- Inodes hardlinked while duplicating the subtree below `r`, in
processing order. -/
def dupInos (fs : FS) : Nat → Path → List Nat
  | 0, _ => []
  | Nat.succ fuel, r =>
    match fs.get r with
    | some (.dir _) =>
      (fs.fileChildNames r).map (fun f => fs.inoOf (r ++ [f])) ++
        (fs.dirChildNames r).flatMap (fun d => dupInos fs fuel (r ++ [d]))
    | _ => []

/-- The trace emitted while duplicating the subtree below `r`. -/
def dupTrace (fs : FS) (P0 : ACL) (srcLen : Nat) (top : Path) :
    Nat → Path → List Event
  | 0, _ => []
  | Nat.succ fuel, r =>
    match fs.get r with
    | some (.dir _) =>
      (fs.dirChildNames r).flatMap (fun d =>
        [Event.mkdirE (relTarget srcLen top r ++ [d]),
         Event.setAclE (relTarget srcLen top r ++ [d]) P0]) ++
      (fs.fileChildNames r).flatMap (fun f =>
        [Event.unsetAclRecE (r ++ [f]) theLockAcl,
         Event.linkE (r ++ [f]) (relTarget srcLen top r ++ [f]),
         Event.appendAclE (relTarget srcLen top r ++ [f]) P0]) ++
      (fs.dirChildNames r).flatMap (fun d => dupTrace fs P0 srcLen top fuel (r ++ [d]))
    | _ => []

/-- Every key created below `r` is the mirror of a strict descendant of
`r`. -/
theorem mirrorList_keys (fs : FS) (P0 : ACL) (srcLen : Nat) (top : Path) :
    ∀ (fuel : Nat) (r : Path) (e : Path × Entry),
      e ∈ mirrorList fs P0 srcLen top fuel r → srcLen ≤ r.length →
      ∃ s, isUnder r s = true ∧ s ≠ r ∧ e.1 = relTarget srcLen top s := by
  intro fuel
  induction fuel with
  | zero => intro r e h; simp [mirrorList] at h
  | succ n ih =>
    intro r e h hlen
    unfold mirrorList at h
    cases hg : fs.get r with
    | none => rw [hg] at h; simp at h
    | some en =>
      cases en with
      | file i => rw [hg] at h; simp at h
      | dir a =>
        rw [hg] at h
        rcases List.mem_append.mp h with h1 | h1
        · rcases List.mem_append.mp h1 with h2 | h2
          · obtain ⟨d, _, rfl⟩ := List.mem_map.mp h2
            refine ⟨r ++ [d], isUnder_append r [d], by simp, ?_⟩
            rw [relTarget_child _ _ _ _ hlen]
          · obtain ⟨f, _, rfl⟩ := List.mem_map.mp h2
            refine ⟨r ++ [f], isUnder_append r [f], by simp, ?_⟩
            rw [relTarget_child _ _ _ _ hlen]
        · obtain ⟨d, _, hmem⟩ := List.mem_flatMap.mp h1
          obtain ⟨s, hs1, hs2, hs3⟩ := ih (r ++ [d]) e hmem (by simp; omega)
          refine ⟨s, isUnder_trans (isUnder_append r [d]) hs1, ?_, hs3⟩
          intro hcon
          rw [hcon] at hs1
          have := isUnder_length_le hs1
          simp at this

theorem kvGet_some_mem_keys {κ α : Type} [DecidableEq κ] (l : List (κ × α)) (k : κ)
    (h : kvGet l k ≠ none) : k ∈ l.map Prod.fst := by
  by_contra hmem
  exact h (kvGet_eq_none_of_not_mem l k hmem)

/-- All keys of a list lie under `D`. -/
def underKeys (D : Path) (l : List (Path × Entry)) : Prop :=
  ∀ e ∈ l, isUnder D e.1 = true

theorem kvGet_none_of_underKeys {src D : Path} (h1 : isUnder src D = false)
    (h2 : isUnder D src = false) {l : List (Path × Entry)} (hl : underKeys D l)
    {q : Path} (hq : isUnder src q = true) : kvGet l q = none := by
  by_contra h
  have hmem := kvGet_some_mem_keys l q h
  obtain ⟨e, hme, hke⟩ := List.mem_map.mp hmem
  have hDq : isUnder D q = true := hke ▸ hl e hme
  have := (region_disjoint h1 h2 hq hDq).1
  rw [isUnder_refl q] at this
  exact Bool.noConfusion this

theorem kvGet_map_inj {β : Type} (g : String → Path) (v : String → β)
    (hinj : ∀ a b, g a = g b → a = b) (names : List String) (d : String)
    (hd : d ∈ names) :
    kvGet (names.map (fun n => (g n, v n))) (g d) = some (v d) := by
  induction names with
  | nil => simp at hd
  | cons n ns ih =>
    by_cases hdn : n = d
    · subst hdn
      simp [kvGet]
    · rcases List.mem_cons.mp hd with h | h
      · exact absurd h.symm hdn
      · simp only [List.map_cons, kvGet]
        rw [if_neg (fun hgg => hdn (hinj n d hgg))]
        exact ih h

theorem kvGet_map_none {β : Type} (g : String → Path) (v : String → β)
    (names : List String) (q : Path) (hq : ∀ n ∈ names, g n ≠ q) :
    kvGet (names.map (fun n => (g n, v n))) q = none := by
  induction names with
  | nil => simp [kvGet]
  | cons n ns ih =>
    simp only [List.map_cons, kvGet]
    rw [if_neg (hq n (List.mem_cons_self _ _))]
    exact ih (fun m hm => hq m (List.mem_cons_of_mem _ hm))

/-! ### The subdirectory-creation loop of one walk tuple -/

theorem dupMkdirLoop (sh : Share) (P0 : ACL) (shareRoot : Path) :
    ∀ (names : List String) (st : MState),
      names.Nodup →
      (∀ n ∈ names, st.fs.get (shareRoot ++ [n]) = none) →
      (∀ s, isUnder s shareRoot = true → s ≠ [] → ∃ a, st.fs.get s =
        some (Entry.dir a)) →
      st.fs.get sh.directory = some (Entry.dir P0) →
      runAll (fun sd => sh.makedirS (shareRoot ++ [sd])) names st =
        (Except.ok (),
          { fs := { entries := st.fs.entries ++
                      names.map (fun n => (shareRoot ++ [n], Entry.dir P0)),
                    inodeAcls := st.fs.inodeAcls,
                    protectedInos := st.fs.protectedInos },
            trace := st.trace ++ names.flatMap (fun n =>
              [Event.mkdirE (shareRoot ++ [n]), Event.setAclE (shareRoot ++ [n]) P0]) }) := by
  intro names
  induction names with
  | nil =>
    intro st _ _ _ _
    simp [runAll]
  | cons n ns ih =>
    intro st hnd hfr hchain hD
    have hstep := makedirS_clean sh (shareRoot ++ [n]) P0 st (by simp)
      (by
        intro s hs hne hnil
        rcases isUnder_append_singleton.mp hs with hs' | hs'
        · exact hchain s hs' hnil
        · exact absurd hs' hne)
      (hfr n (List.mem_cons_self _ _)) hD
    show runAll _ (n :: ns) st = _
    unfold runAll
    rw [hstep]
    simp only [andThen]
    rw [ih _ (List.nodup_cons.mp hnd).2
      (by
        intro m hm
        show kvGet (st.fs.entries ++ [(shareRoot ++ [n], Entry.dir P0)]) (shareRoot ++ [m]) =
          none
        rw [kvGet_append_right]
        · exact hfr m (List.mem_cons_of_mem _ hm)
        · apply kvGet_map_none (fun x => shareRoot ++ [x]) (fun _ => Entry.dir P0) [n]
          intro x hx
          simp only [List.mem_singleton] at hx
          subst hx
          intro hcon
          have := List.append_inj' hcon rfl
          have hxm := List.cons.inj this.2
          exact (List.nodup_cons.mp hnd).1 (hxm.1 ▸ hm))
      (by
        intro s hs hnil
        obtain ⟨a, ha⟩ := hchain s hs hnil
        refine ⟨a, ?_⟩
        show kvGet (st.fs.entries ++ [(shareRoot ++ [n], Entry.dir P0)]) s = some (Entry.dir a)
        rw [kvGet_append_right]
        · exact ha
        · apply kvGet_map_none (fun x => shareRoot ++ [x]) (fun _ => Entry.dir P0) [n]
          intro x hx hcon
          have hlen := congrArg List.length hcon
          have := isUnder_length_le hs
          simp only [List.length_append, List.length_singleton] at hlen
          omega)
      (by
        show kvGet (st.fs.entries ++ [(shareRoot ++ [n], Entry.dir P0)]) sh.directory =
          some (Entry.dir P0)
        rw [kvGet_append_right]
        · exact hD
        · apply kvGet_map_none (fun x => shareRoot ++ [x]) (fun _ => Entry.dir P0) [n]
          intro x hx hcon
          rw [← hcon] at hD
          simp only [List.mem_singleton] at hx
          rw [hx] at hD
          rw [hfr n (List.mem_cons_self _ _)] at hD
          exact Option.noConfusion hD)]
    simp [List.append_assoc]

/-! ### The file-linking loop of one walk tuple -/

theorem dupLinkLoop (sh : Share) (P0 : ACL) (src D shareRoot r : Path) (I : String → Nat)
    (hd1 : isUnder src D = false) (hd2 : isUnder D src = false)
    (hsrc_r : isUnder src r = true) (hD_sr : isUnder D shareRoot = true) :
    ∀ (names : List String) (st : MState),
      sh.lock_acl = theLockAcl →
      names.Nodup →
      (∀ n ∈ names, st.fs.get (r ++ [n]) = some (Entry.file (I n))) →
      (∀ n ∈ names, ∀ q, isUnder (r ++ [n]) q = true → q ≠ r ++ [n] →
        st.fs.get q = none) →
      (∀ n ∈ names, st.fs.get (shareRoot ++ [n]) = none) →
      (∀ n ∈ names, I n ∉ st.fs.protectedInos) →
      st.fs.get sh.directory = some (Entry.dir P0) →
      st.fs.wf →
      runAll (fun f => sh.linkFiles (r ++ [f]) (shareRoot ++ [f])) names st =
        (Except.ok (),
          { fs := { entries := st.fs.entries ++
                      names.map (fun n => (shareRoot ++ [n], Entry.file (I n))),
                    inodeAcls := (names.map I).foldl (dupInoStep P0) st.fs.inodeAcls,
                    protectedInos := st.fs.protectedInos },
            trace := st.trace ++ names.flatMap (fun n =>
              [Event.unsetAclRecE (r ++ [n]) theLockAcl,
               Event.linkE (r ++ [n]) (shareRoot ++ [n]),
               Event.appendAclE (shareRoot ++ [n]) P0]) }) := by
  intro names
  induction names with
  | nil =>
    intro st _ _ _ _ _ _ _ _
    simp [runAll]
  | cons n ns ih =>
    intro st hlacl hnd hsf hdesc hfr hprot hD hwf
    have hnodir : ∀ q a, st.fs.get q = some (Entry.dir a) →
        isUnder (r ++ [n]) q = false := by
      intro q a hq
      cases hu : isUnder (r ++ [n]) q with
      | false => rfl
      | true =>
        exfalso
        by_cases hqe : q = r ++ [n]
        · rw [hqe, hsf n (List.mem_cons_self _ _)] at hq
          exact Entry.noConfusion (Option.some.inj hq)
        · rw [hdesc n (List.mem_cons_self _ _) q hu hqe] at hq
          exact Option.noConfusion hq
    have hstep := linkFiles_clean sh (r ++ [n]) (shareRoot ++ [n]) (I n) P0 st hlacl hwf
      (hsf n (List.mem_cons_self _ _)) (hfr n (List.mem_cons_self _ _))
      (inosUnder_single st.fs (r ++ [n]) (I n) hwf (hsf n (List.mem_cons_self _ _))
        (hdesc n (List.mem_cons_self _ _)))
      hnodir (hprot n (List.mem_cons_self _ _)) hD
    have hsingleUK : underKeys D [(shareRoot ++ [n], Entry.file (I n))] := by
      intro e he
      simp only [List.mem_singleton] at he
      subst he
      exact isUnder_trans hD_sr (isUnder_append shareRoot [n])
    show runAll _ (n :: ns) st = _
    unfold runAll
    rw [hstep]
    simp only [andThen]
    rw [ih _ hlacl (List.nodup_cons.mp hnd).2
      (by
        intro m hm
        show kvGet (st.fs.entries ++ [(shareRoot ++ [n], Entry.file (I n))]) (r ++ [m]) =
          some (Entry.file (I m))
        rw [kvGet_append_right _ _ _ (kvGet_none_of_underKeys hd1 hd2 hsingleUK
          (isUnder_trans hsrc_r (isUnder_append r [m])))]
        exact hsf m (List.mem_cons_of_mem _ hm))
      (by
        intro m hm q hu hne
        show kvGet (st.fs.entries ++ [(shareRoot ++ [n], Entry.file (I n))]) q = none
        rw [kvGet_append_right _ _ _ (kvGet_none_of_underKeys hd1 hd2 hsingleUK
          (isUnder_trans (isUnder_trans hsrc_r (isUnder_append r [m])) hu))]
        exact hdesc m (List.mem_cons_of_mem _ hm) q hu hne)
      (by
        intro m hm
        show kvGet (st.fs.entries ++ [(shareRoot ++ [n], Entry.file (I n))])
          (shareRoot ++ [m]) = none
        rw [kvGet_append_right]
        · exact hfr m (List.mem_cons_of_mem _ hm)
        · apply kvGet_map_none (fun x => shareRoot ++ [x]) (fun _ => Entry.file (I n)) [n]
          intro x hx hcon
          simp only [List.mem_singleton] at hx
          subst hx
          have := List.append_inj' hcon rfl
          have hxm := List.cons.inj this.2
          exact (List.nodup_cons.mp hnd).1 (hxm.1 ▸ hm))
      (by
        intro m hm
        exact hprot m (List.mem_cons_of_mem _ hm))
      (by
        show kvGet (st.fs.entries ++ [(shareRoot ++ [n], Entry.file (I n))]) sh.directory =
          some (Entry.dir P0)
        rw [kvGet_append_right]
        · exact hD
        · apply kvGet_map_none (fun x => shareRoot ++ [x]) (fun _ => Entry.file (I n)) [n]
          intro x hx hcon
          rw [← hcon] at hD
          simp only [List.mem_singleton] at hx
          rw [hx] at hD
          rw [hfr n (List.mem_cons_self _ _)] at hD
          exact Option.noConfusion hD)
      (by
        show ((st.fs.entries ++ [(shareRoot ++ [n], Entry.file (I n))]).map Prod.fst).Nodup
        apply wf_append_fresh _ _ hwf (by simp)
        intro k hk
        simp only [List.map_cons, List.map_nil, List.mem_singleton] at hk
        subst hk
        exact hfr n (List.mem_cons_self _ _))]
    simp [List.append_assoc, dupInoStep]

theorem kvGet_none_of_ne {κ α : Type} [DecidableEq κ] (l : List (κ × α)) (k : κ)
    (h : ∀ e ∈ l, e.1 ≠ k) : kvGet l k = none := by
  induction l with
  | nil => rfl
  | cons hd t ih =>
    obtain ⟨k1, v1⟩ := hd
    simp only [kvGet, if_neg (h (k1, v1) (List.mem_cons_self _ _))]
    exact ih (fun e he => h e (List.mem_cons_of_mem _ he))

theorem kvGet_append_some {κ α : Type} [DecidableEq κ] (l1 l2 : List (κ × α)) (k : κ)
    (v : α) (h : kvGet l1 k = some v) : kvGet (l1 ++ l2) k = some v := by
  induction l1 with
  | nil => simp [kvGet] at h
  | cons hd t ih =>
    obtain ⟨k1, v1⟩ := hd
    by_cases hk : k1 = k
    · subst hk
      simp only [kvGet, if_pos rfl] at h
      simp only [List.cons_append, kvGet, if_pos rfl]
      exact h
    · simp only [kvGet, if_neg hk] at h
      simp only [List.cons_append, kvGet, if_neg hk]
      exact ih h

theorem relTarget_length (srcLen : Nat) (top s : Path) (h : srcLen ≤ s.length) :
    (relTarget srcLen top s).length = top.length + s.length - srcLen := by
  unfold relTarget
  simp only [List.length_append, List.length_drop]
  omega

/-- Keys of a mirror block lie under `top`. -/
theorem mirrorList_underKeys (fs : FS) (P0 : ACL) (srcLen : Nat) (top : Path)
    (fuel : Nat) (r : Path) (hlen : srcLen ≤ r.length) :
    underKeys top (mirrorList fs P0 srcLen top fuel r) := by
  intro e he
  obtain ⟨s, _, _, hs3⟩ := mirrorList_keys fs P0 srcLen top fuel r e he hlen
  rw [hs3]
  exact relTarget_under _ _ _

/-- Keys of a mirror block are strictly longer than the mirror of `r`. -/
theorem mirrorList_keys_long (fs : FS) (P0 : ACL) (srcLen : Nat) (top : Path)
    (fuel : Nat) (r : Path) (hlen : srcLen ≤ r.length) (e : Path × Entry)
    (he : e ∈ mirrorList fs P0 srcLen top fuel r) :
    (relTarget srcLen top r).length < e.1.length := by
  obtain ⟨s, hs1, hs2, hs3⟩ := mirrorList_keys fs P0 srcLen top fuel r e he hlen
  have hslen := isUnder_length_le hs1
  have hslt : r.length < s.length := by
    rcases Nat.lt_or_ge r.length s.length with h | h
    · exact h
    · exfalso
      obtain ⟨t, rfl⟩ := (isUnder_iff r s).mp hs1
      simp only [List.length_append] at h
      have : t = [] := List.eq_nil_of_length_eq_zero (by omega)
      exact hs2 (by simp [this])
  rw [hs3, relTarget_length _ _ _ hlen, relTarget_length _ _ _ (by omega)]
  omega

/-- Processing the walks of a list of subdirectories of `r`, assuming
the statement of the master lemma for the smaller fuel (`IH`). -/
theorem dupChildrenLoop (sh : Share) (fs : FS) (P0 : ACL) (src top : Path) (n : Nat)
    (htd1 : isUnder src top = false) (htd2 : isUnder top src = false)
    (hDtop : sh.directory.length < top.length)
    (IH : ∀ (r' : Path) (st' : MState), isUnder src r' = true →
      (∀ q, isUnder src q = true → st'.fs.get q = fs.get q) →
      st'.fs.wf →
      (∀ s, isUnder s (relTarget src.length top r') = true → s ≠ [] →
        ∃ a, st'.fs.get s = some (Entry.dir a)) →
      (∀ s, isUnder r' s = true → s ≠ r' →
        st'.fs.get (relTarget src.length top s) = none) →
      st'.fs.get sh.directory = some (Entry.dir P0) →
      (∀ p i, isUnder src p = true → fs.get p = some (Entry.file i) →
        i ∉ st'.fs.protectedInos) →
      runAll (sh.dupTuple src.length top) (walkTopA fs n r') st' =
        (Except.ok (), ⟨⟨st'.fs.entries ++ mirrorList fs P0 src.length top n r',
          (dupInos fs n r').foldl (dupInoStep P0) st'.fs.inodeAcls,
          st'.fs.protectedInos⟩,
          st'.trace ++ dupTrace fs P0 src.length top n r'⟩) ∧
        ((st'.fs.entries ++ mirrorList fs P0 src.length top n r').map Prod.fst).Nodup) :
    ∀ (r : Path), isUnder src r = true →
    ∀ (ds : List String), ds.Nodup →
    ∀ (st : MState),
      (∀ q, isUnder src q = true → st.fs.get q = fs.get q) →
      st.fs.wf →
      (∀ s, isUnder s (relTarget src.length top r) = true → s ≠ [] →
        ∃ a, st.fs.get s = some (Entry.dir a)) →
      (∀ d ∈ ds, st.fs.get (relTarget src.length top r ++ [d]) = some (Entry.dir P0)) →
      (∀ d ∈ ds, ∀ s, isUnder (r ++ [d]) s = true → s ≠ r ++ [d] →
        st.fs.get (relTarget src.length top s) = none) →
      st.fs.get sh.directory = some (Entry.dir P0) →
      (∀ p i, isUnder src p = true → fs.get p = some (Entry.file i) →
        i ∉ st.fs.protectedInos) →
      runAll (sh.dupTuple src.length top)
          (ds.flatMap (fun d => walkTopA fs n (r ++ [d]))) st =
        (Except.ok (), ⟨⟨st.fs.entries ++
            ds.flatMap (fun d => mirrorList fs P0 src.length top n (r ++ [d])),
          (ds.flatMap (fun d => dupInos fs n (r ++ [d]))).foldl (dupInoStep P0)
            st.fs.inodeAcls,
          st.fs.protectedInos⟩,
          st.trace ++ ds.flatMap (fun d => dupTrace fs P0 src.length top n (r ++ [d]))⟩) ∧
        ((st.fs.entries ++
          ds.flatMap (fun d => mirrorList fs P0 src.length top n (r ++ [d]))).map
            Prod.fst).Nodup := by
  intro r hsrc_r ds
  have hlen : src.length ≤ r.length := isUnder_length_le hsrc_r
  induction ds with
  | nil =>
    intro _ st _ hwf _ _ _ _ _
    constructor
    · simp [runAll]
    · simpa using hwf
  | cons d ds' ihds =>
    intro hnd st hagree hwf hchain hchild hfresh hD hprot
    have hsrc_rd : isUnder src (r ++ [d]) = true :=
      isUnder_trans hsrc_r (isUnder_append r [d])
    have hlen_rd : src.length ≤ (r ++ [d]).length := by
      simp only [List.length_append, List.length_singleton]
      omega
    have hrt_child : relTarget src.length top (r ++ [d]) =
        relTarget src.length top r ++ [d] := relTarget_child _ _ _ _ hlen
    obtain ⟨heq_d, hwf_d⟩ := IH (r ++ [d]) st hsrc_rd hagree hwf
      (by
        intro s hs hnil
        rw [hrt_child] at hs
        rcases isUnder_append_singleton.mp hs with hs' | hs'
        · exact hchain s hs' hnil
        · rw [hs']
          exact ⟨P0, hchild d (List.mem_cons_self _ _)⟩)
      (by
        intro s hs hne
        exact hfresh d (List.mem_cons_self _ _) s hs hne)
      hD hprot
    have hUK : underKeys top (mirrorList fs P0 src.length top n (r ++ [d])) :=
      mirrorList_underKeys fs P0 src.length top n (r ++ [d]) hlen_rd
    have hblock_src : ∀ q, isUnder src q = true →
        kvGet (mirrorList fs P0 src.length top n (r ++ [d])) q = none := by
      intro q hq
      exact kvGet_none_of_underKeys htd1 htd2 hUK hq
    have hblock_long : ∀ e ∈ mirrorList fs P0 src.length top n (r ++ [d]),
        (relTarget src.length top r).length + 1 < e.1.length := by
      intro e he
      have := mirrorList_keys_long fs P0 src.length top n (r ++ [d]) hlen_rd e he
      rw [hrt_child] at this
      simpa using this
    obtain ⟨hrec, hwfrec⟩ := ihds (List.nodup_cons.mp hnd).2
      (⟨⟨st.fs.entries ++ mirrorList fs P0 src.length top n (r ++ [d]),
        (dupInos fs n (r ++ [d])).foldl (dupInoStep P0) st.fs.inodeAcls,
        st.fs.protectedInos⟩,
        st.trace ++ dupTrace fs P0 src.length top n (r ++ [d])⟩)
      (by
        intro q hq
        show kvGet (st.fs.entries ++ _) q = fs.get q
        rw [kvGet_append_right _ _ _ (hblock_src q hq)]
        exact hagree q hq)
      hwf_d
      (by
        intro s hs hnil
        obtain ⟨a, ha⟩ := hchain s hs hnil
        refine ⟨a, ?_⟩
        show kvGet (st.fs.entries ++ _) s = some (Entry.dir a)
        rw [kvGet_append_right]
        · exact ha
        · apply kvGet_none_of_ne
          intro e he hcon
          have := hblock_long e he
          have hsl := isUnder_length_le hs
          rw [hcon] at this
          omega)
      (by
        intro d' hd'
        show kvGet (st.fs.entries ++ _) (relTarget src.length top r ++ [d']) =
          some (Entry.dir P0)
        rw [kvGet_append_right]
        · exact hchild d' (List.mem_cons_of_mem _ hd')
        · apply kvGet_none_of_ne
          intro e he hcon
          have := hblock_long e he
          rw [hcon] at this
          simp only [List.length_append, List.length_singleton] at this
          omega)
      (by
        intro d' hd' s hs hne
        show kvGet (st.fs.entries ++ _) (relTarget src.length top s) = none
        rw [kvGet_append_right]
        · exact hfresh d' (List.mem_cons_of_mem _ hd') s hs hne
        · apply kvGet_none_of_ne
          intro e he hcon
          obtain ⟨s2, hs1, hs2, hs3⟩ := mirrorList_keys fs P0 src.length top n (r ++ [d])
            e he hlen_rd
          rw [hs3] at hcon
          have hss : s2 = s := relTarget_inj
            (isUnder_trans hsrc_rd hs1)
            (isUnder_trans (isUnder_trans hsrc_r (isUnder_append r [d'])) hs)
            hcon
          subst hss
          have heqrd : r ++ [d] = r ++ [d'] := isUnder_eq_of_length hs1 hs (by simp)
          have hdd : d = d' := by
            have h2 := (List.append_inj' heqrd rfl).2
            exact (List.cons.inj h2).1
          exact (List.nodup_cons.mp hnd).1 (by rw [hdd]; exact hd'))
      (by
        show kvGet (st.fs.entries ++ _) sh.directory = some (Entry.dir P0)
        rw [kvGet_append_right]
        · exact hD
        · apply kvGet_none_of_ne
          intro e he hcon
          obtain ⟨s2, hs1, _, hs3⟩ := mirrorList_keys fs P0 src.length top n (r ++ [d])
            e he hlen_rd
          have hlong : top.length ≤ e.1.length := by
            rw [hs3]
            unfold relTarget
            simp
          rw [hcon] at hlong
          omega)
      hprot
    constructor
    · simp only [List.flatMap_cons]
      rw [runAll_append, heq_d]
      simp only [andThen]
      rw [hrec]
      simp [List.append_assoc, List.foldl_append]
    · simpa [List.flatMap_cons, List.append_assoc] using hwfrec

theorem underKeys_map (top SR : Path) (hT : isUnder top SR = true) (v : String → Entry)
    (l : List String) : underKeys top (l.map (fun nn => (SR ++ [nn], v nn))) := by
  intro e he
  obtain ⟨nn, _, rfl⟩ := List.mem_map.mp he
  exact isUnder_trans hT (isUnder_append SR [nn])

theorem nodup_map_append_singleton (p : Path) (l : List String) (h : l.Nodup) :
    (l.map (fun nn => p ++ [nn])).Nodup :=
  h.map (fun _ _ hab => (List.cons.inj (List.append_inj' hab rfl).2).1)

theorem map_pair_keys {β : Type} (g : String → Path) (v : String → β) (l : List String) :
    (l.map (fun nn => (g nn, v nn))).map Prod.fst = l.map g := by
  simp [List.map_map]

/-- Master lemma: a clean duplication pass over the walk of the source
region below `r`, against a snapshot `fs` the live state agrees with on
that region. -/
theorem dupGo (sh : Share) (fs : FS) (P0 : ACL) (src top : Path)
    (hlacl : sh.lock_acl = theLockAcl)
    (htd1 : isUnder src top = false) (htd2 : isUnder top src = false)
    (hDtop : sh.directory.length < top.length)
    (hsnapwf : fs.wf)
    (hff : ∀ p i q, isUnder src p = true → fs.get p = some (Entry.file i) →
      isUnder p q = true → q ≠ p → fs.get q = none) :
    ∀ (n : Nat) (r : Path) (st : MState), isUnder src r = true →
      (∀ q, isUnder src q = true → st.fs.get q = fs.get q) →
      st.fs.wf →
      (∀ s, isUnder s (relTarget src.length top r) = true → s ≠ [] →
        ∃ a, st.fs.get s = some (Entry.dir a)) →
      (∀ s, isUnder r s = true → s ≠ r →
        st.fs.get (relTarget src.length top s) = none) →
      st.fs.get sh.directory = some (Entry.dir P0) →
      (∀ p i, isUnder src p = true → fs.get p = some (Entry.file i) →
        i ∉ st.fs.protectedInos) →
      runAll (sh.dupTuple src.length top) (walkTopA fs n r) st =
        (Except.ok (), ⟨⟨st.fs.entries ++ mirrorList fs P0 src.length top n r,
          (dupInos fs n r).foldl (dupInoStep P0) st.fs.inodeAcls,
          st.fs.protectedInos⟩,
          st.trace ++ dupTrace fs P0 src.length top n r⟩) ∧
        ((st.fs.entries ++ mirrorList fs P0 src.length top n r).map Prod.fst).Nodup := by
  intro n
  induction n with
  | zero =>
    intro r st _ _ hwf _ _ _ _
    constructor
    · simp [walkTopA, mirrorList, dupInos, dupTrace, runAll]
    · simpa [mirrorList] using hwf
  | succ m ih =>
    intro r st hsrc_r hagree hwf hchain hfresh hD hprot
    have hlen : src.length ≤ r.length := isUnder_length_le hsrc_r
    cases hg : fs.get r with
    | none =>
      have hwalk : walkTopA fs (m + 1) r = [] := by
        unfold walkTopA
        rw [hg]
      have hmir : mirrorList fs P0 src.length top (m + 1) r = [] := by
        unfold mirrorList
        rw [hg]
      have hinos2 : dupInos fs (m + 1) r = [] := by
        unfold dupInos
        rw [hg]
      have htr : dupTrace fs P0 src.length top (m + 1) r = [] := by
        unfold dupTrace
        rw [hg]
      constructor
      · rw [hwalk, hmir, hinos2, htr]
        simp [runAll]
      · rw [hmir]
        simpa using hwf
    | some e0 =>
      cases e0 with
      | file i =>
        have hwalk : walkTopA fs (m + 1) r = [] := by
          unfold walkTopA
          rw [hg]
        have hmir : mirrorList fs P0 src.length top (m + 1) r = [] := by
          unfold mirrorList
          rw [hg]
        have hinos2 : dupInos fs (m + 1) r = [] := by
          unfold dupInos
          rw [hg]
        have htr : dupTrace fs P0 src.length top (m + 1) r = [] := by
          unfold dupTrace
          rw [hg]
        constructor
        · rw [hwalk, hmir, hinos2, htr]
          simp [runAll]
        · rw [hmir]
          simpa using hwf
      | dir a0 =>
        have hDn_nodup : (fs.dirChildNames r).Nodup := dirChildNames_nodup fs r hsnapwf
        have hFn_nodup : (fs.fileChildNames r).Nodup := fileChildNames_nodup fs r hsnapwf
        have hinj : ∀ x y : String, relTarget src.length top r ++ [x] =
            relTarget src.length top r ++ [y] → x = y := by
          intro x y h
          exact (List.cons.inj (List.append_inj' h rfl).2).1
        have hsrlen : (relTarget src.length top r).length =
            top.length + r.length - src.length := relTarget_length _ _ _ hlen
        have htople : top.length ≤ (relTarget src.length top r).length := by
          omega
        have hfilechild : ∀ ff ∈ fs.fileChildNames r,
            fs.get (r ++ [ff]) = some (Entry.file (fs.inoOf (r ++ [ff]))) := by
          intro ff hff2
          obtain ⟨i, hi⟩ := mem_fileChildNames fs r ff hsnapwf hff2
          simp [FS.inoOf, hi]
        have hmirror_fresh : ∀ nn : String, st.fs.get
            (relTarget src.length top r ++ [nn]) = none := by
          intro nn
          rw [← relTarget_child _ _ _ _ hlen]
          exact hfresh (r ++ [nn]) (isUnder_append r [nn]) (by
            intro hcon
            have := congrArg List.length hcon
            simp at this)
        have hUKD : underKeys top ((fs.dirChildNames r).map
            (fun nn => (relTarget src.length top r ++ [nn], Entry.dir P0))) :=
          underKeys_map top _ (relTarget_under _ _ _) _ _
        have hUKF : underKeys top ((fs.fileChildNames r).map
            (fun nn => (relTarget src.length top r ++ [nn],
              Entry.file (fs.inoOf (r ++ [nn]))))) :=
          underKeys_map top _ (relTarget_under _ _ _) _ _
        -- the subdirectory-creation loop
        have hmk := dupMkdirLoop sh P0 (relTarget src.length top r)
          (fs.dirChildNames r) st hDn_nodup
          (fun nn _ => hmirror_fresh nn) hchain hD
        -- facts at the state after the mkdir loop
        have hagree1 : ∀ q, isUnder src q = true →
            kvGet (st.fs.entries ++ (fs.dirChildNames r).map
              (fun nn => (relTarget src.length top r ++ [nn], Entry.dir P0))) q =
            fs.get q := by
          intro q hq
          rw [kvGet_append_right _ _ _ (kvGet_none_of_underKeys htd1 htd2 hUKD hq)]
          exact hagree q hq
        have hDB_keys_ne_file : ∀ ff ∈ fs.fileChildNames r,
            kvGet ((fs.dirChildNames r).map
              (fun nn => (relTarget src.length top r ++ [nn], Entry.dir P0)))
              (relTarget src.length top r ++ [ff]) = none := by
          intro ff hff2
          apply kvGet_map_none
          intro dd hdd hcon
          have hde : dd = ff := hinj dd ff hcon
          exact dir_file_names_disjoint fs r ff hsnapwf (hde ▸ hdd) hff2
        have hDB_dir_none : kvGet ((fs.dirChildNames r).map
            (fun nn => (relTarget src.length top r ++ [nn], Entry.dir P0)))
            sh.directory = none := by
          apply kvGet_map_none
          intro dd _ hcon
          have := congrArg List.length hcon
          simp only [List.length_append, List.length_singleton] at this
          omega
        have hwf1 : ((st.fs.entries ++ (fs.dirChildNames r).map
            (fun nn => (relTarget src.length top r ++ [nn], Entry.dir P0))).map
              Prod.fst).Nodup := by
          apply wf_append_fresh _ _ hwf
          · rw [map_pair_keys]
            exact nodup_map_append_singleton _ _ hDn_nodup
          · intro k hk
            rw [map_pair_keys] at hk
            obtain ⟨nn, _, rfl⟩ := List.mem_map.mp hk
            exact hmirror_fresh nn
        -- the file-linking loop
        have hlink := dupLinkLoop sh P0 src top (relTarget src.length top r) r
          (fun nn => fs.inoOf (r ++ [nn])) htd1 htd2 hsrc_r (relTarget_under _ _ _)
          (fs.fileChildNames r)
          (⟨⟨st.fs.entries ++ (fs.dirChildNames r).map
              (fun nn => (relTarget src.length top r ++ [nn], Entry.dir P0)),
            st.fs.inodeAcls, st.fs.protectedInos⟩,
            st.trace ++ (fs.dirChildNames r).flatMap (fun nn =>
              [Event.mkdirE (relTarget src.length top r ++ [nn]),
               Event.setAclE (relTarget src.length top r ++ [nn]) P0])⟩)
          hlacl hFn_nodup
          (by
            intro nn hnn
            show kvGet (st.fs.entries ++ _) (r ++ [nn]) = _
            rw [hagree1 (r ++ [nn]) (isUnder_trans hsrc_r (isUnder_append r [nn]))]
            exact hfilechild nn hnn)
          (by
            intro nn hnn q hq hne
            show kvGet (st.fs.entries ++ _) q = none
            have hsq : isUnder src q = true :=
              isUnder_trans (isUnder_trans hsrc_r (isUnder_append r [nn])) hq
            rw [hagree1 q hsq]
            exact hff (r ++ [nn]) (fs.inoOf (r ++ [nn])) q
              (isUnder_trans hsrc_r (isUnder_append r [nn]))
              (hfilechild nn hnn) hq hne)
          (by
            intro nn hnn
            show kvGet (st.fs.entries ++ _) (relTarget src.length top r ++ [nn]) = none
            rw [kvGet_append_right _ _ _ (hDB_keys_ne_file nn hnn)]
            exact hmirror_fresh nn)
          (by
            intro nn hnn
            exact hprot (r ++ [nn]) _ (isUnder_trans hsrc_r (isUnder_append r [nn]))
              (hfilechild nn hnn))
          (by
            show kvGet (st.fs.entries ++ _) sh.directory = some (Entry.dir P0)
            rw [kvGet_append_right _ _ _ hDB_dir_none]
            exact hD)
          hwf1
        -- the per-tuple step
        have hstep : sh.dupTuple src.length top
            (r, fs.dirChildNames r, fs.fileChildNames r) st =
            (Except.ok (),
              ⟨⟨(st.fs.entries ++ (fs.dirChildNames r).map
                  (fun nn => (relTarget src.length top r ++ [nn], Entry.dir P0))) ++
                 (fs.fileChildNames r).map
                  (fun nn => (relTarget src.length top r ++ [nn],
                    Entry.file (fs.inoOf (r ++ [nn])))),
               ((fs.fileChildNames r).map (fun nn => fs.inoOf (r ++ [nn]))).foldl
                 (dupInoStep P0) st.fs.inodeAcls,
               st.fs.protectedInos⟩,
               (st.trace ++ (fs.dirChildNames r).flatMap (fun nn =>
                  [Event.mkdirE (relTarget src.length top r ++ [nn]),
                   Event.setAclE (relTarget src.length top r ++ [nn]) P0])) ++
                (fs.fileChildNames r).flatMap (fun nn =>
                  [Event.unsetAclRecE (r ++ [nn]) theLockAcl,
                   Event.linkE (r ++ [nn]) (relTarget src.length top r ++ [nn]),
                   Event.appendAclE (relTarget src.length top r ++ [nn]) P0])⟩) := by
          show andThen (runAll (fun sd => sh.makedirS
              (relTarget src.length top r ++ [sd])) (fs.dirChildNames r) st)
            (fun st1 => runAll (fun f2 => sh.linkFiles (r ++ [f2])
              (relTarget src.length top r ++ [f2])) (fs.fileChildNames r) st1) = _
          rw [hmk]
          simp only [andThen]
          exact hlink
        -- walk and spec-function equations at this fuel
        have hwalk : walkTopA fs (m + 1) r =
            (r, fs.dirChildNames r, fs.fileChildNames r) ::
              (fs.dirChildNames r).flatMap (fun d => walkTopA fs m (r ++ [d])) := by
          simp only [walkTopA]
          rw [hg]
        have hmir : mirrorList fs P0 src.length top (m + 1) r =
            (fs.dirChildNames r).map
              (fun d => (relTarget src.length top r ++ [d], Entry.dir P0)) ++
            (fs.fileChildNames r).map
              (fun f2 => (relTarget src.length top r ++ [f2],
                Entry.file (fs.inoOf (r ++ [f2])))) ++
            (fs.dirChildNames r).flatMap
              (fun d => mirrorList fs P0 src.length top m (r ++ [d])) := by
          simp only [mirrorList]
          rw [hg]
        have hinos2 : dupInos fs (m + 1) r =
            (fs.fileChildNames r).map (fun f2 => fs.inoOf (r ++ [f2])) ++
            (fs.dirChildNames r).flatMap (fun d => dupInos fs m (r ++ [d])) := by
          simp only [dupInos]
          rw [hg]
        have htr : dupTrace fs P0 src.length top (m + 1) r =
            (fs.dirChildNames r).flatMap (fun d =>
              [Event.mkdirE (relTarget src.length top r ++ [d]),
               Event.setAclE (relTarget src.length top r ++ [d]) P0]) ++
            (fs.fileChildNames r).flatMap (fun f2 =>
              [Event.unsetAclRecE (r ++ [f2]) theLockAcl,
               Event.linkE (r ++ [f2]) (relTarget src.length top r ++ [f2]),
               Event.appendAclE (relTarget src.length top r ++ [f2]) P0]) ++
            (fs.dirChildNames r).flatMap
              (fun d => dupTrace fs P0 src.length top m (r ++ [d])) := by
          simp only [dupTrace]
          rw [hg]
        -- freshness of FB keys over st.entries ++ DB
        have hFB_fresh : ∀ k ∈ ((fs.fileChildNames r).map
            (fun nn => (relTarget src.length top r ++ [nn],
              Entry.file (fs.inoOf (r ++ [nn]))))).map Prod.fst,
            kvGet (st.fs.entries ++ (fs.dirChildNames r).map
              (fun nn => (relTarget src.length top r ++ [nn], Entry.dir P0))) k =
              none := by
          intro k hk
          rw [map_pair_keys] at hk
          obtain ⟨nn, hnn, rfl⟩ := List.mem_map.mp hk
          rw [kvGet_append_right _ _ _ (hDB_keys_ne_file nn hnn)]
          exact hmirror_fresh nn
        have hwf2 : (((st.fs.entries ++ (fs.dirChildNames r).map
            (fun nn => (relTarget src.length top r ++ [nn], Entry.dir P0))) ++
              (fs.fileChildNames r).map
              (fun nn => (relTarget src.length top r ++ [nn],
                Entry.file (fs.inoOf (r ++ [nn]))))).map Prod.fst).Nodup := by
          apply wf_append_fresh _ _ hwf1
          · rw [map_pair_keys]
            exact nodup_map_append_singleton _ _ hFn_nodup
          · exact hFB_fresh
        have hFB_dir_none : kvGet ((fs.fileChildNames r).map
            (fun nn => (relTarget src.length top r ++ [nn],
              Entry.file (fs.inoOf (r ++ [nn]))))) sh.directory = none := by
          apply kvGet_map_none
          intro ff _ hcon
          have := congrArg List.length hcon
          simp only [List.length_append, List.length_singleton] at this
          omega
        -- the children loop
        obtain ⟨hrec, hwfrec⟩ := dupChildrenLoop sh fs P0 src top m htd1 htd2 hDtop ih
          r hsrc_r (fs.dirChildNames r) hDn_nodup
          (⟨⟨(st.fs.entries ++ (fs.dirChildNames r).map
              (fun nn => (relTarget src.length top r ++ [nn], Entry.dir P0))) ++
             (fs.fileChildNames r).map
              (fun nn => (relTarget src.length top r ++ [nn],
                Entry.file (fs.inoOf (r ++ [nn])))),
           ((fs.fileChildNames r).map (fun nn => fs.inoOf (r ++ [nn]))).foldl
             (dupInoStep P0) st.fs.inodeAcls,
           st.fs.protectedInos⟩,
           (st.trace ++ (fs.dirChildNames r).flatMap (fun nn =>
              [Event.mkdirE (relTarget src.length top r ++ [nn]),
               Event.setAclE (relTarget src.length top r ++ [nn]) P0])) ++
            (fs.fileChildNames r).flatMap (fun nn =>
              [Event.unsetAclRecE (r ++ [nn]) theLockAcl,
               Event.linkE (r ++ [nn]) (relTarget src.length top r ++ [nn]),
               Event.appendAclE (relTarget src.length top r ++ [nn]) P0])⟩)
          (by
            intro q hq
            show kvGet ((st.fs.entries ++ _) ++ _) q = fs.get q
            rw [kvGet_append_right _ _ _ (kvGet_none_of_underKeys htd1 htd2 hUKF hq)]
            exact hagree1 q hq)
          hwf2
          (by
            intro s hs hnil
            obtain ⟨b, hb⟩ := hchain s hs hnil
            refine ⟨b, ?_⟩
            show kvGet ((st.fs.entries ++ _) ++ _) s = some (Entry.dir b)
            have hsl : s.length ≤ (relTarget src.length top r).length :=
              isUnder_length_le hs
            rw [kvGet_append_right, kvGet_append_right]
            · exact hb
            · apply kvGet_map_none
              intro nn _ hcon
              have := congrArg List.length hcon
              simp only [List.length_append, List.length_singleton] at this
              omega
            · apply kvGet_map_none
              intro nn _ hcon
              have := congrArg List.length hcon
              simp only [List.length_append, List.length_singleton] at this
              omega)
          (by
            intro dd hdd
            show kvGet ((st.fs.entries ++ _) ++ _)
              (relTarget src.length top r ++ [dd]) = some (Entry.dir P0)
            rw [kvGet_append_right]
            · rw [kvGet_append_left _ _ _ (hmirror_fresh dd)]
              exact kvGet_map_inj (fun nn => relTarget src.length top r ++ [nn])
                (fun _ => Entry.dir P0) hinj (fs.dirChildNames r) dd hdd
            · apply kvGet_map_none
              intro ff hff2 hcon
              have hde : ff = dd := hinj ff dd hcon
              exact dir_file_names_disjoint fs r dd hsnapwf hdd (by
                rw [← hde]
                exact hff2))
          (by
            intro dd hdd s hs hne
            show kvGet ((st.fs.entries ++ _) ++ _) (relTarget src.length top s) = none
            have hsrc_s : isUnder src s = true :=
              isUnder_trans (isUnder_trans hsrc_r (isUnder_append r [dd])) hs
            have hslen : src.length ≤ s.length := isUnder_length_le hsrc_s
            have hslong : r.length + 2 ≤ s.length := by
              obtain ⟨t, rfl⟩ := (isUnder_iff _ s).mp hs
              cases t with
              | nil => exact absurd (by simp) hne
              | cons x xs => simp
            have hrts : (relTarget src.length top s).length =
                top.length + s.length - src.length := relTarget_length _ _ _ hslen
            rw [kvGet_append_right, kvGet_append_right]
            · exact hfresh s (isUnder_trans (isUnder_append r [dd]) hs)
                (by
                  intro hcon
                  rw [hcon] at hslong
                  omega)
            · apply kvGet_map_none
              intro nn _ hcon
              have := congrArg List.length hcon
              simp only [List.length_append, List.length_singleton] at this
              omega
            · apply kvGet_map_none
              intro nn _ hcon
              have := congrArg List.length hcon
              simp only [List.length_append, List.length_singleton] at this
              omega)
          (by
            show kvGet ((st.fs.entries ++ _) ++ _) sh.directory = some (Entry.dir P0)
            rw [kvGet_append_right _ _ _ hFB_dir_none,
              kvGet_append_right _ _ _ hDB_dir_none]
            exact hD)
          hprot
        constructor
        · rw [hwalk]
          show runAll (sh.dupTuple src.length top) (_ :: _) st = _
          unfold runAll
          rw [hstep]
          simp only [andThen]
          rw [hrec, hmir, hinos2, htr]
          simp [List.append_assoc, List.foldl_append]
        · rw [hmir]
          simpa [List.append_assoc] using hwfrec

theorem foldr_max_init (l : List Nat) (b : Nat) :
    l.foldr Nat.max b = Nat.max (l.foldr Nat.max 0) b := by
  induction l with
  | nil => simp
  | cons x t ih => simp [ih, Nat.max_assoc]

/-- Clean run of `_duplicate_as_linked_tree`: the mirror region is
empty, the source region is well-shaped and unprotected.  The full
resulting state, phrased over the entry snapshot. -/
theorem dupTree_clean (sh : Share) (src top : Path) (P0 : ACL) (st : MState) (n : Nat)
    (htop : top = sh.directory ++ [src.getLastD ""])
    (hlacl : sh.lock_acl = theLockAcl)
    (hwf : st.fs.wf)
    (htd1 : isUnder src top = false)
    (htd2 : isUnder top src = false)
    (hD : st.fs.get sh.directory = some (Entry.dir P0))
    (hchainD : ∀ s, isUnder s sh.directory = true → s ≠ [] →
      ∃ a, st.fs.get s = some (Entry.dir a))
    (hmirror : ∀ q, isUnder top q = true → st.fs.get q = none)
    (hff : ∀ p i q, isUnder src p = true → st.fs.get p = some (Entry.file i) →
      isUnder p q = true → q ≠ p → st.fs.get q = none)
    (hprot : ∀ p i, isUnder src p = true → st.fs.get p = some (Entry.file i) →
      i ∉ st.fs.protectedInos)
    (hn1 : st.fs.maxLen < src.length + n)
    (hn2 : top.length < src.length + n) :
    sh.dupTree src st =
      (Except.ok (),
        ⟨⟨(st.fs.entries ++ [(top, Entry.dir P0)]) ++
            mirrorList st.fs P0 src.length top n src,
          (dupInos st.fs n src).foldl (dupInoStep P0) st.fs.inodeAcls,
          st.fs.protectedInos⟩,
          (st.trace ++ [Event.mkdirE top, Event.setAclE top P0]) ++
            dupTrace st.fs P0 src.length top n src⟩) ∧
      (((st.fs.entries ++ [(top, Entry.dir P0)]) ++
        mirrorList st.fs P0 src.length top n src).map Prod.fst).Nodup := by
  have hDtoplen : sh.directory.length < top.length := by
    rw [htop]
    simp
  have htopne : top ≠ [] := by
    rw [htop]
    simp
  have htopfresh : st.fs.get top = none := hmirror top (isUnder_refl top)
  have hanc : ∀ s, isUnder s top = true → s ≠ top → s ≠ [] →
      ∃ a, st.fs.get s = some (Entry.dir a) := by
    intro s hs hne hnil
    rw [htop] at hs
    rcases isUnder_append_singleton.mp hs with hs' | hs'
    · exact hchainD s hs' hnil
    · rw [← htop] at hs'
      exact absurd hs' hne
  have hmk := makedirS_clean sh top P0 st htopne hanc htopfresh hD
  have hsingle_none : ∀ q : Path, top ≠ q → kvGet [(top, Entry.dir P0)] q = none := by
    intro q hq
    apply kvGet_none_of_ne
    intro e he hcon
    simp only [List.mem_singleton] at he
    subst he
    exact hq hcon
  have hwf1 : ((st.fs.entries ++ [(top, Entry.dir P0)]).map Prod.fst).Nodup := by
    apply wf_append_fresh _ _ hwf (by simp)
    intro k hk
    simp only [List.map_cons, List.map_nil, List.mem_singleton] at hk
    subst hk
    exact htopfresh
  have hshape : (FS.mk (st.fs.entries ++ [(top, Entry.dir P0)]) st.fs.inodeAcls
      st.fs.protectedInos).regionShape src = st.fs.regionShape src := by
    unfold FS.regionShape
    simp [List.filter_append, htd1]
  have hmax1 : (FS.mk (st.fs.entries ++ [(top, Entry.dir P0)]) st.fs.inodeAcls
      st.fs.protectedInos).maxLen = Nat.max st.fs.maxLen top.length := by
    show ((st.fs.entries ++ [(top, Entry.dir P0)]).map (fun e => e.1.length)).foldr
      Nat.max 0 = _
    rw [List.map_append, List.foldr_append, foldr_max_init]
    simp [FS.maxLen]
  have hwalkeq : fsWalkTop (FS.mk (st.fs.entries ++ [(top, Entry.dir P0)])
      st.fs.inodeAcls st.fs.protectedInos) src = walkTopA st.fs n src := by
    rw [fsWalkTop_eq_walkTopA _ _ n (by
      rw [hmax1]
      exact Nat.max_lt.mpr ⟨hn1, hn2⟩)]
    exact walkTopA_region hshape n src (isUnder_refl src)
  obtain ⟨hgoeq, hgowf⟩ := dupGo sh st.fs P0 src top hlacl htd1 htd2 hDtoplen hwf hff
    n src
    (⟨⟨st.fs.entries ++ [(top, Entry.dir P0)], st.fs.inodeAcls, st.fs.protectedInos⟩,
      st.trace ++ [Event.mkdirE top, Event.setAclE top P0]⟩)
    (isUnder_refl src)
    (by
      intro q hq
      show kvGet (st.fs.entries ++ _) q = st.fs.get q
      rw [kvGet_append_right]
      · rfl
      · apply hsingle_none
        intro hcon
        rw [← hcon] at hq
        rw [hq] at htd1
        exact Bool.noConfusion htd1)
    hwf1
    (by
      intro s hs hnil
      rw [relTarget_self] at hs
      rw [htop] at hs
      rcases isUnder_append_singleton.mp hs with hs' | hs'
      · obtain ⟨a, ha⟩ := hchainD s hs' hnil
        refine ⟨a, ?_⟩
        show kvGet (st.fs.entries ++ _) s = some (Entry.dir a)
        rw [kvGet_append_right]
        · exact ha
        · apply hsingle_none
          intro hcon
          rw [← hcon] at ha
          rw [htopfresh] at ha
          exact Option.noConfusion ha
      · rw [← htop] at hs'
        refine ⟨P0, ?_⟩
        show kvGet (st.fs.entries ++ [(top, Entry.dir P0)]) s = some (Entry.dir P0)
        rw [hs']
        rw [kvGet_append_left _ _ _ htopfresh]
        simp [kvGet])
    (by
      intro s hs hne
      have hslen : src.length < s.length := by
        obtain ⟨t, rfl⟩ := (isUnder_iff src s).mp hs
        cases t with
        | nil => exact absurd (by simp) hne
        | cons x xs => simp
      have hrtlen : (relTarget src.length top s).length =
          top.length + s.length - src.length := relTarget_length _ _ _ (by omega)
      show kvGet (st.fs.entries ++ _) (relTarget src.length top s) = none
      rw [kvGet_append_right]
      · exact hmirror _ (relTarget_under _ _ _)
      · apply hsingle_none
        intro hcon
        have := congrArg List.length hcon
        omega)
    (by
      show kvGet (st.fs.entries ++ _) sh.directory = some (Entry.dir P0)
      rw [kvGet_append_right]
      · exact hD
      · apply hsingle_none
        intro hcon
        have := congrArg List.length hcon
        omega)
    hprot
  constructor
  · show andThen (sh.makedirS (sh.directory ++ [src.getLastD ""]) st)
        (fun st1 => runAll (sh.dupTuple src.length (sh.directory ++ [src.getLastD ""]))
          (fsWalkTop st1.fs src) st1) = _
    rw [← htop, hmk]
    simp only [andThen]
    rw [hwalkeq, hgoeq]
  · exact hgowf

/-! ### Helper lemmas and spec functions for tree un-sharing -/

theorem kvDel_eq_filter {κ α : Type} [DecidableEq κ] (l : List (κ × α)) (k : κ) :
    kvDel l k = l.filter (fun e => decide (e.1 ≠ k)) := by
  induction l with
  | nil => rfl
  | cons hd t ih =>
    obtain ⟨k1, v1⟩ := hd
    by_cases hk : k1 = k
    · subst hk
      simp [kvDel, List.filter_cons, ih]
    · simp [kvDel, hk, List.filter_cons, ih]

theorem kvGet_filter_none {α : Type} (g : Path × α → Bool) (l : List (Path × α)) (k : Path)
    (hg : ∀ v : α, g (k, v) = false) : kvGet (l.filter g) k = none := by
  induction l with
  | nil => rfl
  | cons hd t ih =>
    obtain ⟨k1, v1⟩ := hd
    by_cases hk : k1 = k
    · subst hk
      simp [List.filter_cons, hg v1, ih]
    · cases hgv : g (k1, v1) <;> simp [List.filter_cons, hgv, kvGet, hk, ih]

theorem kvGet_filter_none_of_none {α : Type} (g : Path × α → Bool) (l : List (Path × α))
    (k : Path) (h : kvGet l k = none) : kvGet (l.filter g) k = none := by
  induction l with
  | nil => rfl
  | cons hd t ih =>
    obtain ⟨k1, v1⟩ := hd
    by_cases hk : k1 = k
    · subst hk
      simp [kvGet] at h
    · have ht : kvGet t k = none := by
        simpa [kvGet, hk] using h
      cases hgv : g (k1, v1) <;> simp [List.filter_cons, hgv, kvGet, hk, ih ht]

theorem countP_two {α : Type} (l : List α) (p : α → Bool) (a b : α) (ha : a ∈ l)
    (hb : b ∈ l) (hne : a ≠ b) (hpa : p a = true) (hpb : p b = true) :
    2 ≤ l.countP p := by
  obtain ⟨l1, l2, rfl⟩ := List.append_of_mem ha
  rw [List.countP_append, List.countP_cons]
  rcases List.mem_append.mp hb with hb1 | hb2
  · have h1 : 0 < l1.countP p := List.countP_pos_iff.mpr ⟨b, hb1, hpb⟩
    simp only [hpa, if_true]
    omega
  · rcases List.mem_cons.mp hb2 with hb' | hb'
    · exact absurd hb'.symm hne
    · have h2 : 0 < l2.countP p := List.countP_pos_iff.mpr ⟨b, hb', hpb⟩
      simp only [hpa, if_true]
      omega

theorem countIno_two (fs : FS) (i : Nat) (p q : Path)
    (hp : (p, Entry.file i) ∈ fs.entries) (hq : (q, Entry.file i) ∈ fs.entries)
    (hne : p ≠ q) : 2 ≤ fs.countIno i :=
  countP_two fs.entries _ _ _ hp hq
    (by
      intro hcon
      exact hne (congrArg Prod.fst hcon))
    (by simp) (by simp)

theorem mem_dirChildNames_of_get (fs : FS) (r : Path) (x : String) (a : ACL)
    (h : fs.get (r ++ [x]) = some (Entry.dir a)) : x ∈ fs.dirChildNames r := by
  have hmem : (r ++ [x], Entry.dir a) ∈ fs.entries := kvGet_mem _ _ _ h
  unfold FS.dirChildNames
  exact List.mem_filterMap.mpr ⟨(r ++ [x], Entry.dir a), hmem, by
    simp [childNameOf_child]⟩

theorem mem_fileChildNames_of_get (fs : FS) (r : Path) (x : String) (i : Nat)
    (h : fs.get (r ++ [x]) = some (Entry.file i)) : x ∈ fs.fileChildNames r := by
  have hmem : (r ++ [x], Entry.file i) ∈ fs.entries := kvGet_mem _ _ _ h
  unfold FS.fileChildNames
  exact List.mem_filterMap.mpr ⟨(r ++ [x], Entry.file i), hmem, by
    simp [childNameOf_child]⟩

/-- Events and table evolution of un-sharing the files of one
directory, in order. -/
def botPlanFiles (fs : FS) (P0 : ACL) (r : Path) :
    List String → List (Nat × ACL) → List (Nat × ACL) × List Event
  | [], tbl => (tbl, [])
  | f :: rest, tbl =>
    let i := fs.inoOf (r ++ [f])
    let pr := botPlanFiles fs P0 r rest (unshareInoStep P0 tbl i)
    (pr.1, [Event.setAclE (r ++ [f]) (aclSub ((kvGet tbl i).getD []) P0),
            Event.unlinkE (r ++ [f])] ++ pr.2)

/-- Fold a per-child plan over a list of subdirectories. -/
def botPlanKids (step : Path → List (Nat × ACL) → List (Nat × ACL) × List Event)
    (r : Path) : List String → List (Nat × ACL) → List (Nat × ACL) × List Event
  | [], tbl => (tbl, [])
  | d :: rest, tbl =>
    let c := step (r ++ [d]) tbl
    let pr := botPlanKids step r rest c.1
    (pr.1, c.2 ++ pr.2)

/-- The table evolution and trace of the bottom-up un-share walk of the
region strictly below `r` (excluding the removal of `r` itself), read
off the walk snapshot. -/
def botPlan (fs : FS) (P0 : ACL) : Nat → Path → List (Nat × ACL) →
    List (Nat × ACL) × List Event
  | 0, _, tbl => (tbl, [])
  | Nat.succ n, r, tbl =>
    match fs.get r with
    | some (.dir _) =>
      let c := botPlanKids (botPlan fs P0 n) r (fs.dirChildNames r) tbl
      let fpl := botPlanFiles fs P0 r (fs.fileChildNames r) c.1
      (fpl.1, c.2 ++ fpl.2 ++ (fs.dirChildNames r).map (fun d => Event.rmdirE (r ++ [d])))
    | _ => (tbl, [])

theorem filter_id_of_none (l : List (Path × Entry)) (r : Path)
    (h : ∀ q, isUnder r q = true → q ≠ r → kvGet l q = none) :
    l.filter (fun e => !(isUnder r e.1 && decide (e.1 ≠ r))) = l := by
  apply List.filter_eq_self.mpr
  intro e he
  cases hu : isUnder r e.1 with
  | false => simp [hu]
  | true =>
    by_cases her : e.1 = r
    · simp [her]
    · exfalso
      have hnone := h e.1 hu her
      have hsome := kvGet_isSome_of_mem l e.1 (List.mem_map_of_mem Prod.fst he)
      rw [hnone] at hsome
      simp at hsome

theorem foldl_kvDel_filter (r : Path) :
    ∀ (names : List String) (l : List (Path × Entry)),
    names.foldl (fun l2 f2 => kvDel l2 (r ++ [f2])) l =
      l.filter (fun e => !(names.any (fun f2 => decide (e.1 = r ++ [f2])))) := by
  intro names
  induction names with
  | nil => intro l; simp
  | cons f rest ih =>
    intro l
    show rest.foldl _ (kvDel l (r ++ [f])) = _
    rw [ih, kvDel_eq_filter, List.filter_filter]
    apply List.filter_congr
    intro e _
    simp [Bool.and_comm]

/-! ### The per-tuple loops of one bottom-up walk triple -/

theorem unshareFilesLoop (sh : Share) (fs : FS) (P0 : ACL) (force : Bool) (r : Path)
    (hlen : sh.directory.length ≤ r.length) :
    ∀ (names : List String) (st : MState),
      names.Nodup →
      (∀ f2 ∈ names, st.fs.get (r ++ [f2]) =
        some (Entry.file (fs.inoOf (r ++ [f2])))) →
      (∀ f2 ∈ names, force = true ∨ ∃ q, isUnder r q = false ∧
        st.fs.get q = some (Entry.file (fs.inoOf (r ++ [f2])))) →
      st.fs.get sh.directory = some (Entry.dir P0) →
      runAll (fun f2 => sh.unshareFile (r ++ [f2]) force) names st =
        (Except.ok (),
          ⟨⟨names.foldl (fun l f2 => kvDel l (r ++ [f2])) st.fs.entries,
            (botPlanFiles fs P0 r names st.fs.inodeAcls).1,
            st.fs.protectedInos⟩,
            st.trace ++ (botPlanFiles fs P0 r names st.fs.inodeAcls).2⟩) := by
  intro names
  induction names with
  | nil =>
    intro st _ _ _ _
    simp [runAll, botPlanFiles]
  | cons f rest ih =>
    intro st hnd hsf hout hD
    have hguard : force = true ∨ st.fs.countIno (fs.inoOf (r ++ [f])) ≠ 1 := by
      rcases hout f (List.mem_cons_self _ _) with hf | ⟨q, hq1, hq2⟩
      · exact Or.inl hf
      · right
        have h1 : (r ++ [f], Entry.file (fs.inoOf (r ++ [f]))) ∈ st.fs.entries :=
          kvGet_mem _ _ _ (hsf f (List.mem_cons_self _ _))
        have h2 : (q, Entry.file (fs.inoOf (r ++ [f]))) ∈ st.fs.entries :=
          kvGet_mem _ _ _ hq2
        have hne : q ≠ r ++ [f] := by
          intro hcon
          rw [hcon, isUnder_append] at hq1
          exact Bool.noConfusion hq1
        have := countIno_two st.fs _ q (r ++ [f]) h2 h1 hne
        omega
    have hstep := unshareFile_clean sh (r ++ [f]) (fs.inoOf (r ++ [f])) P0 st force
      (hsf f (List.mem_cons_self _ _)) hguard hD
    have hfne : ∀ f2 ∈ rest, r ++ [f2] ≠ r ++ [f] := by
      intro f2 hf2 hcon
      have := (List.cons.inj (List.append_inj' hcon rfl).2).1
      exact (List.nodup_cons.mp hnd).1 (this ▸ hf2)
    show runAll _ (f :: rest) st = _
    unfold runAll
    rw [hstep]
    simp only [andThen]
    rw [ih _ (List.nodup_cons.mp hnd).2
      (by
        intro f2 hf2
        show kvGet (kvDel st.fs.entries (r ++ [f])) (r ++ [f2]) = _
        rw [kvGet_kvDel_ne _ _ _ (hfne f2 hf2)]
        exact hsf f2 (List.mem_cons_of_mem _ hf2))
      (by
        intro f2 hf2
        rcases hout f2 (List.mem_cons_of_mem _ hf2) with hf | ⟨q, hq1, hq2⟩
        · exact Or.inl hf
        · refine Or.inr ⟨q, hq1, ?_⟩
          show kvGet (kvDel st.fs.entries (r ++ [f])) q = _
          rw [kvGet_kvDel_ne _ _ _ (by
            intro hcon
            rw [hcon, isUnder_append] at hq1
            exact Bool.noConfusion hq1)]
          exact hq2)
      (by
        show kvGet (kvDel st.fs.entries (r ++ [f])) sh.directory = _
        rw [kvGet_kvDel_ne _ _ _ (by
          intro hcon
          have := congrArg List.length hcon
          simp only [List.length_append, List.length_singleton] at this
          omega)]
        exact hD)]
    simp [botPlanFiles, List.append_assoc]

theorem unshareDirsLoop (sh : Share) (r : Path) :
    ∀ (names : List String) (st : MState),
      names.Nodup →
      (∀ d ∈ names, ∃ a, st.fs.get (r ++ [d]) = some (Entry.dir a)) →
      (∀ d ∈ names, ∀ q, isUnder (r ++ [d]) q = true → q ≠ r ++ [d] →
        st.fs.get q = none) →
      runAll (fun sd => sh.unshareDir (r ++ [sd])) names st =
        (Except.ok (),
          ⟨⟨names.foldl (fun l d => kvDel l (r ++ [d])) st.fs.entries,
            st.fs.inodeAcls, st.fs.protectedInos⟩,
            st.trace ++ names.map (fun d => Event.rmdirE (r ++ [d]))⟩) := by
  intro names
  induction names with
  | nil =>
    intro st _ _ _
    simp [runAll]
  | cons d rest ih =>
    intro st hnd hdir hempty
    obtain ⟨a, ha⟩ := hdir d (List.mem_cons_self _ _)
    have hstep := osRmdir_clean (r ++ [d]) a st ha
      (hempty d (List.mem_cons_self _ _))
    have hdne : ∀ d2 ∈ rest, r ++ [d2] ≠ r ++ [d] := by
      intro d2 hd2 hcon
      have := (List.cons.inj (List.append_inj' hcon rfl).2).1
      exact (List.nodup_cons.mp hnd).1 (this ▸ hd2)
    show runAll _ (d :: rest) st = _
    unfold runAll
    show andThen (osRmdir (r ++ [d]) st) _ = _
    rw [hstep]
    simp only [andThen]
    rw [ih _ (List.nodup_cons.mp hnd).2
      (by
        intro d2 hd2
        obtain ⟨b, hb⟩ := hdir d2 (List.mem_cons_of_mem _ hd2)
        refine ⟨b, ?_⟩
        show kvGet (kvDel st.fs.entries (r ++ [d])) (r ++ [d2]) = _
        rw [kvGet_kvDel_ne _ _ _ (hdne d2 hd2)]
        exact hb)
      (by
        intro d2 hd2 q hq hqne
        show kvGet (kvDel st.fs.entries (r ++ [d])) q = none
        by_cases hqd : q = r ++ [d]
        · rw [hqd]
          exact kvGet_kvDel_self _ _
        · rw [kvGet_kvDel_ne _ _ _ hqd]
          exact hempty d2 (List.mem_cons_of_mem _ hd2) q hq hqne)]
    simp [List.append_assoc]

theorem isUnder_eq_of_length_le {p q : Path} (h : isUnder p q = true)
    (hl : q.length ≤ p.length) : q = p := by
  obtain ⟨t, rfl⟩ := (isUnder_iff p q).mp h
  simp only [List.length_append] at hl
  have : t = [] := List.eq_nil_of_length_eq_zero (by omega)
  simp [this]

/-- Processing the bottom-up walks of a list of subdirectories of `r`,
assuming the statement of the un-share master lemma for the smaller
fuel (`IH`). -/
theorem unshareKidsLoop (sh : Share) (fs : FS) (P0 : ACL) (force : Bool) (root : Path)
    (n : Nat)
    (IH : ∀ (r' : Path) (st' : MState), isUnder root r' = true →
      sh.directory.length ≤ r'.length →
      (∀ q, isUnder r' q = true → q ≠ r' → st'.fs.get q = fs.get q) →
      st'.fs.get sh.directory = some (Entry.dir P0) →
      (∀ p i, isUnder r' p = true → fs.get p = some (Entry.file i) →
        force = true ∨ ∃ q, isUnder r' q = false ∧
          st'.fs.get q = some (Entry.file i)) →
      (∀ q, isUnder r' q = true → q ≠ r' → fs.get q ≠ none →
        q.length < r'.length + n) →
      runAll (sh.unshareTuple force) (walkBotA fs n r') st' =
        (Except.ok (),
          ⟨⟨st'.fs.entries.filter (fun e => !(isUnder r' e.1 && decide (e.1 ≠ r'))),
            (botPlan fs P0 n r' st'.fs.inodeAcls).1, st'.fs.protectedInos⟩,
            st'.trace ++ (botPlan fs P0 n r' st'.fs.inodeAcls).2⟩)) :
    ∀ (r : Path), isUnder root r = true → sh.directory.length ≤ r.length →
    ∀ (ds : List String), ds.Nodup →
    ∀ (st : MState),
      (∀ d ∈ ds, ∀ q, isUnder (r ++ [d]) q = true → q ≠ r ++ [d] →
        st.fs.get q = fs.get q) →
      st.fs.get sh.directory = some (Entry.dir P0) →
      (∀ d ∈ ds, ∀ p i, isUnder (r ++ [d]) p = true →
        fs.get p = some (Entry.file i) →
        force = true ∨ ∃ q, isUnder r q = false ∧
          st.fs.get q = some (Entry.file i)) →
      (∀ d ∈ ds, ∀ q, isUnder (r ++ [d]) q = true → q ≠ r ++ [d] →
        fs.get q ≠ none → q.length < (r ++ [d]).length + n) →
      runAll (sh.unshareTuple force)
          (ds.flatMap (fun d => walkBotA fs n (r ++ [d]))) st =
        (Except.ok (),
          ⟨⟨st.fs.entries.filter (fun e =>
              !(ds.any (fun d => isUnder (r ++ [d]) e.1 && decide (e.1 ≠ r ++ [d])))),
            (botPlanKids (botPlan fs P0 n) r ds st.fs.inodeAcls).1,
            st.fs.protectedInos⟩,
            st.trace ++ (botPlanKids (botPlan fs P0 n) r ds st.fs.inodeAcls).2⟩) := by
  intro r hroot hlen ds
  induction ds with
  | nil =>
    intro _ st _ _ _ _
    simp [runAll, botPlanKids]
  | cons d rest ihds =>
    intro hnd st hagree hD hout hfuel
    have hnotunder : ∀ q, isUnder r q = false → isUnder (r ++ [d]) q = false := by
      intro q hq
      cases hu : isUnder (r ++ [d]) q with
      | false => rfl
      | true =>
        have h2 := isUnder_trans (isUnder_append r [d]) hu
        rw [h2] at hq
        exact Bool.noConfusion hq
    have h1 := IH (r ++ [d]) st (isUnder_trans hroot (isUnder_append r [d]))
      (by
        simp only [List.length_append, List.length_singleton]
        omega)
      (hagree d (List.mem_cons_self _ _)) hD
      (by
        intro p i hp hpf
        rcases hout d (List.mem_cons_self _ _) p i hp hpf with hf | ⟨q, hq1, hq2⟩
        · exact Or.inl hf
        · exact Or.inr ⟨q, hnotunder q hq1, hq2⟩)
      (hfuel d (List.mem_cons_self _ _))
    -- the filter of child `d` keeps every key that is not strictly
    -- below `r ++ [d]`
    have hchildkeep : ∀ (q : Path), isUnder (r ++ [d]) q = false →
        ∀ v : Entry, (fun (e : Path × Entry) =>
          !(isUnder (r ++ [d]) e.1 && decide (e.1 ≠ r ++ [d]))) (q, v) = true := by
      intro q hq v
      simp [hq]
    show runAll _ ((d :: rest).flatMap _) st = _
    simp only [List.flatMap_cons]
    rw [runAll_append, h1]
    simp only [andThen]
    rw [ihds (List.nodup_cons.mp hnd).2
      (⟨⟨st.fs.entries.filter (fun e =>
          !(isUnder (r ++ [d]) e.1 && decide (e.1 ≠ r ++ [d]))),
        (botPlan fs P0 n (r ++ [d]) st.fs.inodeAcls).1, st.fs.protectedInos⟩,
        st.trace ++ (botPlan fs P0 n (r ++ [d]) st.fs.inodeAcls).2⟩)
      (by
        intro d2 hd2 q hq hne
        have hdq : isUnder (r ++ [d]) q = false := by
          cases hu : isUnder (r ++ [d]) q with
          | false => rfl
          | true =>
            exfalso
            have heq : r ++ [d] = r ++ [d2] := isUnder_eq_of_length hu hq (by simp)
            have hde : d = d2 := (List.cons.inj (List.append_inj' heq rfl).2).1
            exact (List.nodup_cons.mp hnd).1 (hde ▸ hd2)
        show kvGet (st.fs.entries.filter _) q = fs.get q
        rw [kvGet_filter _ _ _ (hchildkeep q hdq)]
        exact hagree d2 (List.mem_cons_of_mem _ hd2) q hq hne)
      (by
        have hdD : isUnder (r ++ [d]) sh.directory = false := by
          cases hu : isUnder (r ++ [d]) sh.directory with
          | false => rfl
          | true =>
            exfalso
            have := isUnder_length_le hu
            simp only [List.length_append, List.length_singleton] at this
            omega
        show kvGet (st.fs.entries.filter _) sh.directory = some (Entry.dir P0)
        rw [kvGet_filter _ _ _ (hchildkeep sh.directory hdD)]
        exact hD)
      (by
        intro d2 hd2 p i hp hpf
        rcases hout d2 (List.mem_cons_of_mem _ hd2) p i hp hpf with hf | ⟨q, hq1, hq2⟩
        · exact Or.inl hf
        · refine Or.inr ⟨q, hq1, ?_⟩
          show kvGet (st.fs.entries.filter _) q = some (Entry.file i)
          rw [kvGet_filter _ _ _ (hchildkeep q (hnotunder q hq1))]
          exact hq2)
      (by
        intro d2 hd2 q hq hne
        exact hfuel d2 (List.mem_cons_of_mem _ hd2) q hq hne)]
    rw [List.filter_filter]
    have hpred : ∀ e ∈ st.fs.entries,
        ((!(rest.any (fun d2 => isUnder (r ++ [d2]) e.1 && decide (e.1 ≠ r ++ [d2])))) &&
          (!(isUnder (r ++ [d]) e.1 && decide (e.1 ≠ r ++ [d])))) =
        (!((d :: rest).any (fun d2 =>
          isUnder (r ++ [d2]) e.1 && decide (e.1 ≠ r ++ [d2])))) := by
      intro e _
      simp only [List.any_cons, Bool.not_or]
      rw [Bool.and_comm]
    rw [List.filter_congr hpred]
    simp [botPlanKids, List.append_assoc]

/-- Master lemma: a clean bottom-up un-share pass over the walk of the
region below `r`, against a snapshot `fs` the live state agrees with on
that region. -/
theorem unshareGo (sh : Share) (fs : FS) (P0 : ACL) (force : Bool) (root : Path)
    (hsnapwf : fs.wf)
    (hconn : ∀ p q, isUnder root p = true → isUnder p q = true → q ≠ p →
      fs.get q ≠ none → ∃ a, fs.get p = some (Entry.dir a)) :
    ∀ (n : Nat) (r : Path) (st : MState), isUnder root r = true →
      sh.directory.length ≤ r.length →
      (∀ q, isUnder r q = true → q ≠ r → st.fs.get q = fs.get q) →
      st.fs.get sh.directory = some (Entry.dir P0) →
      (∀ p i, isUnder r p = true → fs.get p = some (Entry.file i) →
        force = true ∨ ∃ q, isUnder r q = false ∧
          st.fs.get q = some (Entry.file i)) →
      (∀ q, isUnder r q = true → q ≠ r → fs.get q ≠ none →
        q.length < r.length + n) →
      runAll (sh.unshareTuple force) (walkBotA fs n r) st =
        (Except.ok (),
          ⟨⟨st.fs.entries.filter (fun e => !(isUnder r e.1 && decide (e.1 ≠ r))),
            (botPlan fs P0 n r st.fs.inodeAcls).1, st.fs.protectedInos⟩,
            st.trace ++ (botPlan fs P0 n r st.fs.inodeAcls).2⟩) := by
  intro n
  induction n with
  | zero =>
    intro r st _ _ hagree _ _ hfuel
    have hnone : ∀ q, isUnder r q = true → q ≠ r → kvGet st.fs.entries q = none := by
      intro q hq hne
      have hsnap : fs.get q = none := by
        by_contra hsome
        have := hfuel q hq hne hsome
        have hle := isUnder_length_le hq
        have : q.length ≠ r.length := by
          intro hcon
          exact hne (isUnder_eq_of_length_le hq (by omega))
        omega
      rw [← hsnap]
      exact hagree q hq hne
    show (Except.ok (), st) = _
    rw [filter_id_of_none _ _ hnone]
    simp [botPlan]
  | succ m ih =>
    intro r st hroot hlen hagree hD hout hfuel
    cases hg : fs.get r with
    | none =>
      have hnone : ∀ q, isUnder r q = true → q ≠ r → kvGet st.fs.entries q = none := by
        intro q hq hne
        have hsnap : fs.get q = none := by
          by_contra hsome
          obtain ⟨a, ha⟩ := hconn r q hroot hq hne hsome
          rw [hg] at ha
          exact Option.noConfusion ha
        rw [← hsnap]
        exact hagree q hq hne
      have hwalk : walkBotA fs (m + 1) r = [] := by
        simp only [walkBotA]
        rw [hg]
      have hplan : botPlan fs P0 (m + 1) r st.fs.inodeAcls =
          (st.fs.inodeAcls, []) := by
        simp only [botPlan]
        rw [hg]
      rw [hwalk, hplan]
      show (Except.ok (), st) = _
      rw [filter_id_of_none _ _ hnone]
      simp
    | some e0 =>
      cases e0 with
      | file i0 =>
        have hnone : ∀ q, isUnder r q = true → q ≠ r →
            kvGet st.fs.entries q = none := by
          intro q hq hne
          have hsnap : fs.get q = none := by
            by_contra hsome
            obtain ⟨a, ha⟩ := hconn r q hroot hq hne hsome
            rw [hg] at ha
            exact Entry.noConfusion (Option.some.inj ha)
          rw [← hsnap]
          exact hagree q hq hne
        have hwalk : walkBotA fs (m + 1) r = [] := by
          simp only [walkBotA]
          rw [hg]
        have hplan : botPlan fs P0 (m + 1) r st.fs.inodeAcls =
            (st.fs.inodeAcls, []) := by
          simp only [botPlan]
          rw [hg]
        rw [hwalk, hplan]
        show (Except.ok (), st) = _
        rw [filter_id_of_none _ _ hnone]
        simp
      | dir a0 =>
        have hDn_nodup : (fs.dirChildNames r).Nodup := dirChildNames_nodup fs r hsnapwf
        have hFn_nodup : (fs.fileChildNames r).Nodup := fileChildNames_nodup fs r hsnapwf
        have hfilechild : ∀ ff ∈ fs.fileChildNames r,
            fs.get (r ++ [ff]) = some (Entry.file (fs.inoOf (r ++ [ff]))) := by
          intro ff hff2
          obtain ⟨i, hi⟩ := mem_fileChildNames fs r ff hsnapwf hff2
          simp [FS.inoOf, hi]
        have hchildne : ∀ x : String, r ++ [x] ≠ r := by
          intro x hcon
          have := congrArg List.length hcon
          simp at this
        have hwalk : walkBotA fs (m + 1) r =
            (fs.dirChildNames r).flatMap (fun d => walkBotA fs m (r ++ [d])) ++
              [(r, fs.dirChildNames r, fs.fileChildNames r)] := by
          simp only [walkBotA]
          rw [hg]
        have hplan : botPlan fs P0 (m + 1) r st.fs.inodeAcls =
            ((botPlanFiles fs P0 r (fs.fileChildNames r)
                (botPlanKids (botPlan fs P0 m) r (fs.dirChildNames r)
                  st.fs.inodeAcls).1).1,
             (botPlanKids (botPlan fs P0 m) r (fs.dirChildNames r)
                st.fs.inodeAcls).2 ++
               (botPlanFiles fs P0 r (fs.fileChildNames r)
                  (botPlanKids (botPlan fs P0 m) r (fs.dirChildNames r)
                    st.fs.inodeAcls).1).2 ++
               (fs.dirChildNames r).map (fun d => Event.rmdirE (r ++ [d]))) := by
          simp only [botPlan]
          rw [hg]
        -- the children loop
        have hkids := unshareKidsLoop sh fs P0 force root m ih r hroot hlen
          (fs.dirChildNames r) hDn_nodup st
          (by
            intro d hd q hq hne
            exact hagree q (isUnder_trans (isUnder_append r [d]) hq)
              (by
                intro hcon
                rw [hcon] at hq
                have := isUnder_length_le hq
                simp at this))
          hD
          (by
            intro d hd p i hp hpf
            exact hout p i (isUnder_trans (isUnder_append r [d]) hp) hpf)
          (by
            intro d hd q hq hne hnn
            have h2 := hfuel q (isUnder_trans (isUnder_append r [d]) hq)
              (by
                intro hcon
                rw [hcon] at hq
                have := isUnder_length_le hq
                simp at this)
              hnn
            simp only [List.length_append, List.length_singleton]
            omega)
        -- the filter of the children loop keeps every short key and
        -- every key outside the region
        have hkeep : ∀ (q : Path), q.length ≤ r.length + 1 → ∀ v : Entry,
            (fun (e : Path × Entry) => !((fs.dirChildNames r).any
              (fun d => isUnder (r ++ [d]) e.1 && decide (e.1 ≠ r ++ [d])))) (q, v) =
              true := by
          intro q hql v
          have hany : ((fs.dirChildNames r).any
              (fun d => isUnder (r ++ [d]) q && decide (q ≠ r ++ [d]))) = false := by
            rw [List.any_eq_false]
            intro d _
            simp only [Bool.and_eq_true, decide_eq_true_eq, not_and]
            intro hu hne
            exact hne (isUnder_eq_of_length_le hu (by
              simp only [List.length_append, List.length_singleton]
              omega))
          simp only [hany, Bool.not_false]
        have houtkeep : ∀ (q : Path), isUnder r q = false → ∀ v : Entry,
            (fun (e : Path × Entry) => !((fs.dirChildNames r).any
              (fun d => isUnder (r ++ [d]) e.1 && decide (e.1 ≠ r ++ [d])))) (q, v) =
              true := by
          intro q hq v
          have hany : ((fs.dirChildNames r).any
              (fun d => isUnder (r ++ [d]) q && decide (q ≠ r ++ [d]))) = false := by
            rw [List.any_eq_false]
            intro d _
            simp only [Bool.and_eq_true, decide_eq_true_eq, not_and]
            intro hu
            have h2 := isUnder_trans (isUnder_append r [d]) hu
            rw [h2] at hq
            exact Bool.noConfusion hq
          simp only [hany, Bool.not_false]
        -- the file loop of the tuple
        have hfiles := unshareFilesLoop sh fs P0 force r hlen (fs.fileChildNames r)
          (⟨⟨st.fs.entries.filter (fun e => !((fs.dirChildNames r).any
              (fun d => isUnder (r ++ [d]) e.1 && decide (e.1 ≠ r ++ [d])))),
            (botPlanKids (botPlan fs P0 m) r (fs.dirChildNames r) st.fs.inodeAcls).1,
            st.fs.protectedInos⟩,
            st.trace ++ (botPlanKids (botPlan fs P0 m) r (fs.dirChildNames r)
              st.fs.inodeAcls).2⟩)
          hFn_nodup
          (by
            intro f2 hf2
            show kvGet (st.fs.entries.filter _) (r ++ [f2]) = _
            rw [kvGet_filter _ _ _ (hkeep (r ++ [f2]) (by simp))]
            rw [show kvGet st.fs.entries (r ++ [f2]) = fs.get (r ++ [f2]) from
              hagree (r ++ [f2]) (isUnder_append r [f2]) (hchildne f2)]
            exact hfilechild f2 hf2)
          (by
            intro f2 hf2
            rcases hout (r ++ [f2]) (fs.inoOf (r ++ [f2])) (isUnder_append r [f2])
              (hfilechild f2 hf2) with hf | ⟨q, hq1, hq2⟩
            · exact Or.inl hf
            · refine Or.inr ⟨q, hq1, ?_⟩
              show kvGet (st.fs.entries.filter _) q = _
              rw [kvGet_filter _ _ _ (houtkeep q hq1)]
              exact hq2)
          (by
            show kvGet (st.fs.entries.filter _) sh.directory = _
            rw [kvGet_filter _ _ _ (hkeep sh.directory (by omega))]
            exact hD)
        -- the subdirectory loop of the tuple
        have hfileskeep : ∀ d ∈ fs.dirChildNames r, ∀ (l : List (Path × Entry)),
            kvGet ((fs.fileChildNames r).foldl (fun l2 f2 => kvDel l2 (r ++ [f2])) l)
              (r ++ [d]) = kvGet l (r ++ [d]) := by
          intro d hd l
          rw [foldl_kvDel_filter]
          apply kvGet_filter
          intro v
          have hany : ((fs.fileChildNames r).any
              (fun f2 => decide (r ++ [d] = r ++ [f2]))) = false := by
            rw [List.any_eq_false]
            intro f2 hf2
            simp only [decide_eq_true_eq]
            intro hcon
            have hdf : d = f2 := (List.cons.inj (List.append_inj' hcon rfl).2).1
            exact dir_file_names_disjoint fs r f2 hsnapwf (hdf ▸ hd) hf2
          simp only [hany, Bool.not_false]
        have hdirs := unshareDirsLoop sh r (fs.dirChildNames r)
          (⟨⟨(fs.fileChildNames r).foldl (fun l f2 => kvDel l (r ++ [f2]))
              (st.fs.entries.filter (fun e => !((fs.dirChildNames r).any
                (fun d => isUnder (r ++ [d]) e.1 && decide (e.1 ≠ r ++ [d]))))),
            (botPlanFiles fs P0 r (fs.fileChildNames r)
              (botPlanKids (botPlan fs P0 m) r (fs.dirChildNames r)
                st.fs.inodeAcls).1).1,
            st.fs.protectedInos⟩,
            (st.trace ++ (botPlanKids (botPlan fs P0 m) r (fs.dirChildNames r)
                st.fs.inodeAcls).2) ++
              (botPlanFiles fs P0 r (fs.fileChildNames r)
                (botPlanKids (botPlan fs P0 m) r (fs.dirChildNames r)
                  st.fs.inodeAcls).1).2⟩)
          hDn_nodup
          (by
            intro d hd
            obtain ⟨a, ha⟩ := mem_dirChildNames fs r d hsnapwf hd
            refine ⟨a, ?_⟩
            show kvGet ((fs.fileChildNames r).foldl _ _) (r ++ [d]) = _
            rw [hfileskeep d hd]
            rw [kvGet_filter _ _ _ (hkeep (r ++ [d]) (by simp))]
            rw [show kvGet st.fs.entries (r ++ [d]) = fs.get (r ++ [d]) from
              hagree (r ++ [d]) (isUnder_append r [d]) (hchildne d)]
            exact ha)
          (by
            intro d hd q hq hne
            show kvGet ((fs.fileChildNames r).foldl _ _) q = none
            rw [foldl_kvDel_filter]
            apply kvGet_filter_none_of_none
            apply kvGet_filter_none
            intro v
            have hany : ((fs.dirChildNames r).any
                (fun d2 => isUnder (r ++ [d2]) q && decide (q ≠ r ++ [d2]))) =
                true := by
              apply List.any_eq_true.mpr
              exact ⟨d, hd, by simp [hq, hne]⟩
            simp only [hany, Bool.not_true])
        -- run the walk: children, then the tuple of `r`
        rw [hwalk, runAll_append, hkids]
        simp only [andThen]
        show andThen (sh.unshareTuple force (r, fs.dirChildNames r, fs.fileChildNames r)
          _) _ = _
        have hstep : sh.unshareTuple force (r, fs.dirChildNames r, fs.fileChildNames r)
            (⟨⟨st.fs.entries.filter (fun e => !((fs.dirChildNames r).any
                (fun d => isUnder (r ++ [d]) e.1 && decide (e.1 ≠ r ++ [d])))),
              (botPlanKids (botPlan fs P0 m) r (fs.dirChildNames r) st.fs.inodeAcls).1,
              st.fs.protectedInos⟩,
              st.trace ++ (botPlanKids (botPlan fs P0 m) r (fs.dirChildNames r)
                st.fs.inodeAcls).2⟩) =
            (Except.ok (),
              ⟨⟨(fs.dirChildNames r).foldl (fun l d => kvDel l (r ++ [d]))
                  ((fs.fileChildNames r).foldl (fun l f2 => kvDel l (r ++ [f2]))
                    (st.fs.entries.filter (fun e => !((fs.dirChildNames r).any
                      (fun d => isUnder (r ++ [d]) e.1 && decide (e.1 ≠ r ++ [d])))))),
                (botPlanFiles fs P0 r (fs.fileChildNames r)
                  (botPlanKids (botPlan fs P0 m) r (fs.dirChildNames r)
                    st.fs.inodeAcls).1).1,
                st.fs.protectedInos⟩,
                ((st.trace ++ (botPlanKids (botPlan fs P0 m) r (fs.dirChildNames r)
                    st.fs.inodeAcls).2) ++
                  (botPlanFiles fs P0 r (fs.fileChildNames r)
                    (botPlanKids (botPlan fs P0 m) r (fs.dirChildNames r)
                      st.fs.inodeAcls).1).2) ++
                  (fs.dirChildNames r).map (fun d => Event.rmdirE (r ++ [d]))⟩) := by
          show andThen (runAll (fun f2 => sh.unshareFile (r ++ [f2]) force)
              (fs.fileChildNames r) _)
            (fun st1 => runAll (fun sd => sh.unshareDir (r ++ [sd]))
              (fs.dirChildNames r) st1) = _
          rw [hfiles]
          simp only [andThen]
          exact hdirs
        rw [hstep]
        simp only [andThen]
        show (Except.ok (), _) = _
        have hplan1 : (botPlan fs P0 (m + 1) r st.fs.inodeAcls).1 =
            (botPlanFiles fs P0 r (fs.fileChildNames r)
              (botPlanKids (botPlan fs P0 m) r (fs.dirChildNames r)
                st.fs.inodeAcls).1).1 := by
          rw [hplan]
        have hplan2 : (botPlan fs P0 (m + 1) r st.fs.inodeAcls).2 =
            (botPlanKids (botPlan fs P0 m) r (fs.dirChildNames r)
              st.fs.inodeAcls).2 ++
              (botPlanFiles fs P0 r (fs.fileChildNames r)
                (botPlanKids (botPlan fs P0 m) r (fs.dirChildNames r)
                  st.fs.inodeAcls).1).2 ++
              (fs.dirChildNames r).map (fun d => Event.rmdirE (r ++ [d])) := by
          rw [hplan]
        rw [hplan1, hplan2]
        -- convert the deletions into the single region filter
        rw [foldl_kvDel_filter, foldl_kvDel_filter, List.filter_filter,
          List.filter_filter]
        have hpoint : ∀ e ∈ st.fs.entries,
            ((((!((fs.dirChildNames r).any (fun d => decide (e.1 = r ++ [d])))) &&
               (!((fs.fileChildNames r).any (fun f2 => decide (e.1 = r ++ [f2]))))) &&
              (!((fs.dirChildNames r).any (fun d =>
                isUnder (r ++ [d]) e.1 && decide (e.1 ≠ r ++ [d]))))) : Bool) =
            (!(isUnder r e.1 && decide (e.1 ≠ r))) := by
          intro e he
          by_cases hu : isUnder r e.1 = true
          · by_cases her : e.1 = r
            · have h1 : ((fs.dirChildNames r).any
                  (fun d => decide (e.1 = r ++ [d]))) = false := by
                rw [List.any_eq_false]
                intro d _
                simp only [decide_eq_true_eq]
                intro hcon
                rw [her] at hcon
                have := congrArg List.length hcon
                simp at this
              have h2 : ((fs.fileChildNames r).any
                  (fun f2 => decide (e.1 = r ++ [f2]))) = false := by
                rw [List.any_eq_false]
                intro f2 _
                simp only [decide_eq_true_eq]
                intro hcon
                rw [her] at hcon
                have := congrArg List.length hcon
                simp at this
              have h3 : ((fs.dirChildNames r).any (fun d =>
                  isUnder (r ++ [d]) e.1 && decide (e.1 ≠ r ++ [d]))) = false := by
                rw [List.any_eq_false]
                intro d _
                simp only [Bool.and_eq_true, decide_eq_true_eq, not_and]
                intro hud
                rw [her] at hud
                have := isUnder_length_le hud
                simp at this
              simp [h1, h2, h3, her]
              intro x _
              cases hq : isUnder (r ++ [x]) r with
              | false => rfl
              | true =>
                have := isUnder_length_le hq
                simp at this
            · -- a live key strictly below `r` is covered by the walk
              have hsome : kvGet st.fs.entries e.1 ≠ none := by
                have := kvGet_isSome_of_mem st.fs.entries e.1
                  (List.mem_map_of_mem Prod.fst he)
                intro hcon
                rw [hcon] at this
                simp at this
              have hfs : fs.get e.1 ≠ none := by
                rw [← hagree e.1 hu her]
                exact hsome
              obtain ⟨t, ht⟩ := (isUnder_iff r e.1).mp hu
              cases t with
              | nil =>
                exact absurd (by
                  rw [ht]
                  simp) her
              | cons x rest2 =>
                have hxe : e.1 = (r ++ [x]) ++ rest2 := by
                  rw [ht]
                  simp
                have hpe : isUnder (r ++ [x]) e.1 = true := by
                  rw [hxe]
                  exact isUnder_append _ _
                cases rest2 with
                | nil =>
                  have hex : e.1 = r ++ [x] := by simpa using hxe
                  cases hv : fs.get (r ++ [x]) with
                  | none =>
                    exfalso
                    rw [hex, hv] at hfs
                    exact hfs rfl
                  | some ev =>
                    cases ev with
                    | dir a =>
                      have hxd : x ∈ fs.dirChildNames r :=
                        mem_dirChildNames_of_get fs r x a hv
                      have h1 : ((fs.dirChildNames r).any
                          (fun d => decide (e.1 = r ++ [d]))) = true :=
                        List.any_eq_true.mpr ⟨x, hxd, by simp [hex]⟩
                      simp [h1, hu, her]
                    | file i =>
                      have hxf : x ∈ fs.fileChildNames r :=
                        mem_fileChildNames_of_get fs r x i hv
                      have h2 : ((fs.fileChildNames r).any
                          (fun f2 => decide (e.1 = r ++ [f2]))) = true :=
                        List.any_eq_true.mpr ⟨x, hxf, by simp [hex]⟩
                      simp [h2, hu, her]
                | cons y rest3 =>
                  have hnex : e.1 ≠ r ++ [x] := by
                    rw [hxe]
                    intro hcon
                    have := congrArg List.length hcon
                    simp at this
                  obtain ⟨a, ha⟩ := hconn (r ++ [x]) e.1
                    (isUnder_trans hroot (isUnder_append r [x])) hpe hnex hfs
                  have hxd : x ∈ fs.dirChildNames r :=
                    mem_dirChildNames_of_get fs r x a ha
                  simp [hu, her]
                  exact fun _ _ => ⟨x, hxd, hpe, hnex⟩
          · have hufalse : isUnder r e.1 = false := by
              cases h : isUnder r e.1 with
              | false => rfl
              | true => exact absurd h hu
            have h1 : ((fs.dirChildNames r).any
                (fun d => decide (e.1 = r ++ [d]))) = false := by
              rw [List.any_eq_false]
              intro d _
              simp only [decide_eq_true_eq]
              intro hcon
              rw [hcon, isUnder_append] at hufalse
              exact Bool.noConfusion hufalse
            have h2 : ((fs.fileChildNames r).any
                (fun f2 => decide (e.1 = r ++ [f2]))) = false := by
              rw [List.any_eq_false]
              intro f2 _
              simp only [decide_eq_true_eq]
              intro hcon
              rw [hcon, isUnder_append] at hufalse
              exact Bool.noConfusion hufalse
            have h3 : ((fs.dirChildNames r).any (fun d =>
                isUnder (r ++ [d]) e.1 && decide (e.1 ≠ r ++ [d]))) = false := by
              rw [List.any_eq_false]
              intro d _
              simp only [Bool.and_eq_true, decide_eq_true_eq, not_and]
              intro hud
              have h4 := isUnder_trans (isUnder_append r [d]) hud
              rw [h4] at hufalse
              exact Bool.noConfusion hufalse
            simp only [h1, h2, h3, hufalse]
            simp
        rw [List.filter_congr hpoint]
        simp [List.append_assoc]

/-- Clean run of `_unshare_linked_tree`: the whole region at or under
`dir0` is removed, bottom-up, and the target directory itself last. -/
theorem unshareTree_clean (sh : Share) (dir0 : Path) (P0 A0 : ACL) (force : Bool)
    (st : MState)
    (hwf : st.fs.wf)
    (hlen : sh.directory.length ≤ dir0.length)
    (hD : st.fs.get sh.directory = some (Entry.dir P0))
    (hdir : st.fs.get dir0 = some (Entry.dir A0))
    (hconn : ∀ p q, isUnder dir0 p = true → isUnder p q = true → q ≠ p →
      st.fs.get q ≠ none → ∃ a, st.fs.get p = some (Entry.dir a))
    (hout : ∀ p i, isUnder dir0 p = true → st.fs.get p = some (Entry.file i) →
      force = true ∨ ∃ q, isUnder dir0 q = false ∧
        st.fs.get q = some (Entry.file i)) :
    sh.unshareTree dir0 force st =
      (Except.ok (),
        ⟨⟨st.fs.entries.filter (fun e => !(isUnder dir0 e.1)),
          (botPlan st.fs P0 st.fs.depthBound dir0 st.fs.inodeAcls).1,
          st.fs.protectedInos⟩,
          (st.trace ++ (botPlan st.fs P0 st.fs.depthBound dir0 st.fs.inodeAcls).2) ++
            [Event.rmdirE dir0]⟩) := by
  have hgo := unshareGo sh st.fs P0 force dir0 hwf hconn st.fs.depthBound dir0 st
    (isUnder_refl _) hlen (fun q _ _ => rfl) hD hout
    (by
      intro q _ _ hnn
      have := st.fs.length_le_maxLen q hnn
      rw [FS.depthBound_eq]
      omega)
  show andThen (runAll (sh.unshareTuple force)
      (walkBotA st.fs st.fs.depthBound dir0) st) (fun st1 => osRmdir dir0 st1) = _
  rw [hgo]
  simp only [andThen]
  have hkeeproot : ∀ v : Entry, (fun (e : Path × Entry) =>
      !(isUnder dir0 e.1 && decide (e.1 ≠ dir0))) (dir0, v) = true := by
    intro v
    simp
  have hdir1 : kvGet (st.fs.entries.filter (fun e =>
      !(isUnder dir0 e.1 && decide (e.1 ≠ dir0)))) dir0 = some (Entry.dir A0) := by
    rw [kvGet_filter _ _ _ hkeeproot]
    exact hdir
  have hempty1 : ∀ q, isUnder dir0 q = true → q ≠ dir0 →
      kvGet (st.fs.entries.filter (fun e =>
        !(isUnder dir0 e.1 && decide (e.1 ≠ dir0)))) q = none := by
    intro q hq hne
    apply kvGet_filter_none
    intro v
    simp [hq, hne]
  have hrm := osRmdir_clean dir0 A0
    (⟨⟨st.fs.entries.filter (fun e => !(isUnder dir0 e.1 && decide (e.1 ≠ dir0))),
      (botPlan st.fs P0 st.fs.depthBound dir0 st.fs.inodeAcls).1,
      st.fs.protectedInos⟩,
      st.trace ++ (botPlan st.fs P0 st.fs.depthBound dir0 st.fs.inodeAcls).2⟩)
    hdir1 hempty1
  rw [hrm]
  rw [kvDel_eq_filter, List.filter_filter]
  have hpoint : ∀ e ∈ st.fs.entries,
      ((decide (e.1 ≠ dir0) && (!(isUnder dir0 e.1 && decide (e.1 ≠ dir0)))) : Bool) =
      (!(isUnder dir0 e.1)) := by
    intro e _
    by_cases he1 : e.1 = dir0
    · simp [he1, isUnder_refl]
    · by_cases hu : isUnder dir0 e.1 = true
      · simp [he1, hu]
      · have hu2 : isUnder dir0 e.1 = false := by
          cases h : isUnder dir0 e.1 with
          | false => rfl
          | true => exact absurd h hu
        simp [he1, hu2]
  rw [List.filter_congr hpoint]

/-! ### Reductions of universally quantified path hypotheses to
decidable facts about a concrete entry list -/

theorem isDir_exists (fs : FS) (p : Path) (h : fs.isDir p = true) :
    ∃ a, fs.get p = some (Entry.dir a) := by
  unfold FS.isDir at h
  cases hg : fs.get p with
  | none => rw [hg] at h; simp at h
  | some e =>
    cases e with
    | file i => rw [hg] at h; simp at h
    | dir a => exact ⟨a, rfl⟩

/-- A directory chain above `p` follows from the finitely many take
prefixes being directories. -/
theorem chain_of_take (fs : FS) (p : Path)
    (h : ∀ k < p.length + 1, 0 < k → fs.isDir (p.take k) = true) :
    ∀ s, isUnder s p = true → s ≠ [] → ∃ a, fs.get s = some (Entry.dir a) := by
  intro s hs hne
  have hsp : s = p.take s.length := by
    obtain ⟨t, ht⟩ := (isUnder_iff s p).mp hs
    rw [ht]
    simp
  have h1 : 0 < s.length := List.length_pos.mpr hne
  have h2 : s.length ≤ p.length := isUnder_length_le hs
  rw [hsp]
  exact isDir_exists _ _ (h s.length (by omega) h1)

/-- A region is empty when no entry key lies under its root. -/
theorem region_empty_of_keys (fs : FS) (p : Path)
    (h : ∀ e ∈ fs.entries, isUnder p e.1 = false) :
    ∀ q, isUnder p q = true → fs.get q = none := by
  intro q hq
  apply kvGet_none_of_ne
  intro e he hcon
  have := h e he
  rw [hcon, hq] at this
  exact Bool.noConfusion this

/-- No entry sits strictly below a file entry, from the finitely many
key pairs. -/
theorem files_no_desc (fs : FS) (src : Path)
    (h : ∀ e1 ∈ fs.entries, ∀ e2 ∈ fs.entries, isUnder src e1.1 = true →
      (match e1.2 with | Entry.file _ => true | Entry.dir _ => false) = true →
      isUnder e1.1 e2.1 = true → e2.1 = e1.1) :
    ∀ p i q, isUnder src p = true → fs.get p = some (Entry.file i) →
      isUnder p q = true → q ≠ p → fs.get q = none := by
  intro p i q hp hpf hq hne
  have hmem : (p, Entry.file i) ∈ fs.entries := kvGet_mem _ _ _ hpf
  cases hg : fs.get q with
  | none => rfl
  | some v =>
    exfalso
    have hqmem : q ∈ fs.entries.map Prod.fst := by
      apply kvGet_some_mem_keys
      rw [show (kvGet fs.entries q : Option Entry) = fs.get q from rfl, hg]
      simp
    obtain ⟨e2, he2, hke⟩ := List.mem_map.mp hqmem
    have := h (p, Entry.file i) hmem e2 he2 hp (by simp) (by rw [hke]; exact hq)
    rw [hke] at this
    exact hne this

/-- Directory connectivity of a region, from the finitely many entries
and their take prefixes. -/
theorem conn_of_concrete (fs : FS) (root : Path)
    (h : ∀ e ∈ fs.entries, isUnder root e.1 = true →
      ∀ k < e.1.length, root.length ≤ k → fs.isDir (e.1.take k) = true) :
    ∀ p q, isUnder root p = true → isUnder p q = true → q ≠ p →
      fs.get q ≠ none → ∃ a, fs.get p = some (Entry.dir a) := by
  intro p q hroot hpq hne hq
  have hqmem : q ∈ fs.entries.map Prod.fst := by
    apply kvGet_some_mem_keys
    exact hq
  obtain ⟨e2, he2, hke⟩ := List.mem_map.mp hqmem
  have hrootq : isUnder root e2.1 = true := by
    rw [hke]
    exact isUnder_trans hroot hpq
  have hp_take : p = q.take p.length := by
    obtain ⟨t, ht⟩ := (isUnder_iff p q).mp hpq
    rw [ht]
    simp
  have hlt : p.length < q.length := by
    have hle := isUnder_length_le hpq
    rcases Nat.lt_or_ge p.length q.length with hlt | hge
    · exact hlt
    · exact absurd (isUnder_eq_of_length_le hpq (by omega)) hne
  have := h e2 he2 hrootq p.length (by rw [hke]; exact hlt)
    (by
      have := isUnder_length_le hroot
      omega)
  rw [hke] at this
  rw [hp_take]
  exact isDir_exists _ _ this

/-- An outside hardlink for every file of a region, from the finitely
many entries. -/
theorem out_of_concrete (fs : FS) (root : Path) (hwf : fs.wf)
    (h : ∀ e ∈ fs.entries, isUnder root e.1 = true →
      (match e.2 with
       | Entry.file i => fs.entries.any (fun e2 =>
           !(isUnder root e2.1) && decide (e2.2 = Entry.file i))
       | Entry.dir _ => true) = true) :
    ∀ p i, isUnder root p = true → fs.get p = some (Entry.file i) →
      ∃ q, isUnder root q = false ∧ fs.get q = some (Entry.file i) := by
  intro p i hp hpf
  have hmem : (p, Entry.file i) ∈ fs.entries := kvGet_mem _ _ _ hpf
  have h2 := h (p, Entry.file i) hmem hp
  simp only [List.any_eq_true, Bool.and_eq_true, Bool.not_eq_true',
    decide_eq_true_eq] at h2
  obtain ⟨e2, he2, hout2, hval⟩ := h2
  refine ⟨e2.1, hout2, ?_⟩
  rw [← hval]
  exact mem_kvGet_nodup fs.entries e2.1 e2.2 hwf (by
    cases e2
    exact he2)

/-! ### Claim C4: tree duplication order -/

/-- C4: for every source directory, duplication creates the top-level
mirror directory (named after the source's base name, directly under
the share root) first, then walks the source top-down; within each
visited directory every mirror subdirectory is created and permissioned
before any regular file of that directory is hardlinked at its
corresponding relative path. -/
theorem tree_duplication_order (sh : Share) (src top : Path) (P0 : ACL) (st : MState)
    (n : Nat)
    (htop : top = sh.directory ++ [src.getLastD ""])
    (hlacl : sh.lock_acl = theLockAcl)
    (hwf : st.fs.wf)
    (htd1 : isUnder src top = false)
    (htd2 : isUnder top src = false)
    (hD : st.fs.get sh.directory = some (Entry.dir P0))
    (hchainD : ∀ s, isUnder s sh.directory = true → s ≠ [] →
      ∃ a, st.fs.get s = some (Entry.dir a))
    (hmirror : ∀ q, isUnder top q = true → st.fs.get q = none)
    (hff : ∀ p i q, isUnder src p = true → st.fs.get p = some (Entry.file i) →
      isUnder p q = true → q ≠ p → st.fs.get q = none)
    (hprot : ∀ p i, isUnder src p = true → st.fs.get p = some (Entry.file i) →
      i ∉ st.fs.protectedInos)
    (hn1 : st.fs.maxLen < src.length + n)
    (hn2 : top.length < src.length + n) :
    sh.dupTree src st =
      (Except.ok (),
        ⟨⟨(st.fs.entries ++ [(top, Entry.dir P0)]) ++
            mirrorList st.fs P0 src.length top n src,
          (dupInos st.fs n src).foldl (dupInoStep P0) st.fs.inodeAcls,
          st.fs.protectedInos⟩,
          (st.trace ++ [Event.mkdirE top, Event.setAclE top P0]) ++
            dupTrace st.fs P0 src.length top n src⟩) ∧
    (∀ (fuel : Nat) (r : Path) (a : ACL), st.fs.get r = some (Entry.dir a) →
      ∃ l1 l2, dupTrace st.fs P0 src.length top (fuel + 1) r = l1 ++ l2 ∧
        (∀ d ∈ st.fs.dirChildNames r,
          Event.mkdirE (relTarget src.length top r ++ [d]) ∈ l1 ∧
          Event.setAclE (relTarget src.length top r ++ [d]) P0 ∈ l1) ∧
        (∀ ev ∈ l1, ∀ s t, ev ≠ Event.linkE s t) ∧
        (∀ f2 ∈ st.fs.fileChildNames r,
          Event.linkE (r ++ [f2]) (relTarget src.length top r ++ [f2]) ∈ l2)) := by
  constructor
  · exact (dupTree_clean sh src top P0 st n htop hlacl hwf htd1 htd2 hD hchainD
      hmirror hff hprot hn1 hn2).1
  · intro fuel r a hr
    have heq : dupTrace st.fs P0 src.length top (fuel + 1) r =
        ((st.fs.dirChildNames r).flatMap (fun d =>
          [Event.mkdirE (relTarget src.length top r ++ [d]),
           Event.setAclE (relTarget src.length top r ++ [d]) P0])) ++
        (((st.fs.fileChildNames r).flatMap (fun f2 =>
          [Event.unsetAclRecE (r ++ [f2]) theLockAcl,
           Event.linkE (r ++ [f2]) (relTarget src.length top r ++ [f2]),
           Event.appendAclE (relTarget src.length top r ++ [f2]) P0])) ++
         ((st.fs.dirChildNames r).flatMap (fun d =>
           dupTrace st.fs P0 src.length top fuel (r ++ [d])))) := by
      have h0 : dupTrace st.fs P0 src.length top (fuel + 1) r =
          ((st.fs.dirChildNames r).flatMap (fun d =>
            [Event.mkdirE (relTarget src.length top r ++ [d]),
             Event.setAclE (relTarget src.length top r ++ [d]) P0])) ++
          ((st.fs.fileChildNames r).flatMap (fun f2 =>
            [Event.unsetAclRecE (r ++ [f2]) theLockAcl,
             Event.linkE (r ++ [f2]) (relTarget src.length top r ++ [f2]),
             Event.appendAclE (relTarget src.length top r ++ [f2]) P0])) ++
          ((st.fs.dirChildNames r).flatMap (fun d =>
            dupTrace st.fs P0 src.length top fuel (r ++ [d]))) := by
        simp only [dupTrace]
        rw [hr]
      rw [h0, List.append_assoc]
    refine ⟨_, _, heq, ?_, ?_, ?_⟩
    · intro d hd
      constructor
      · exact List.mem_flatMap.mpr ⟨d, hd, by simp⟩
      · exact List.mem_flatMap.mpr ⟨d, hd, by simp⟩
    · intro ev hev s t
      obtain ⟨d, _, hm⟩ := List.mem_flatMap.mp hev
      simp only [List.mem_cons, List.mem_singleton, List.not_mem_nil] at hm
      rcases hm with h | h
      · rw [h]
        simp
      · rcases h with h | h
        · rw [h]
          simp
        · exact absurd h (by simp)
    · intro f2 hf2
      apply List.mem_append_left
      exact List.mem_flatMap.mpr ⟨f2, hf2, by simp⟩

/-- A small source tree with one file, one subdirectory, and one nested
file, next to an empty share. -/
def cexFS4 : FS :=
  { entries := [(["srv"], Entry.dir []), (["srv", "share"], Entry.dir [ambAce]),
      (["data"], Entry.dir []), (["data", "sub"], Entry.dir []),
      (["data", "f"], Entry.file 1), (["data", "sub", "g"], Entry.file 2)],
    inodeAcls := [(1, [ownAce]), (2, [ownAce])],
    protectedInos := [] }

def cexSt4 : MState := { fs := cexFS4, trace := [] }

/-- Witness for claim C4 at a concrete state. -/
theorem tree_duplication_order_witness :
    cexSt4.fs.wf ∧
    sampleShare.dupTree ["data"] cexSt4 =
      (Except.ok (),
        ⟨⟨(cexSt4.fs.entries ++ [(["srv", "share", "data"], Entry.dir [ambAce])]) ++
            mirrorList cexSt4.fs [ambAce] (List.length ["data"])
              ["srv", "share", "data"] 5 ["data"],
          (dupInos cexSt4.fs 5 ["data"]).foldl (dupInoStep [ambAce])
            cexSt4.fs.inodeAcls,
          cexSt4.fs.protectedInos⟩,
          (cexSt4.trace ++ [Event.mkdirE ["srv", "share", "data"],
            Event.setAclE ["srv", "share", "data"] [ambAce]]) ++
            dupTrace cexSt4.fs [ambAce] (List.length ["data"])
              ["srv", "share", "data"] 5 ["data"]⟩) :=
  ⟨by unfold FS.wf; decide,
    (tree_duplication_order sampleShare ["data"] ["srv", "share", "data"] [ambAce]
      cexSt4 5 rfl rfl (by unfold FS.wf; decide) (by decide) (by decide) (by decide)
      (chain_of_take _ _ (by decide))
      (region_empty_of_keys _ _ (by decide))
      (files_no_desc _ _ (by decide))
      (fun p i _ _ => List.not_mem_nil i)
      (by decide) (by decide)).1⟩

/-! ### Claim C5: tree un-sharing order -/

/-- C5: `self_destruct` walks the share tree bottom-up, un-sharing the
files and removing the subdirectories of every directory before the
directory itself, removes the share directory last (so on success it no
longer exists), produces `dirNotEmpty` from removing a non-empty
subdirectory and propagates any error of the walk as-is, and forwards
the force flag to every per-file un-share. -/
theorem tree_unshare_order (sh : Share) (P0 : ACL) (force : Bool) (st : MState)
    (hwf : st.fs.wf)
    (hD : st.fs.get sh.directory = some (Entry.dir P0))
    (hconn : ∀ p q, isUnder sh.directory p = true → isUnder p q = true → q ≠ p →
      st.fs.get q ≠ none → ∃ a, st.fs.get p = some (Entry.dir a))
    (hout : ∀ p i, isUnder sh.directory p = true →
      st.fs.get p = some (Entry.file i) → force = true ∨
        ∃ q, isUnder sh.directory q = false ∧
          st.fs.get q = some (Entry.file i)) :
    sh.selfDestruct force st =
      (Except.ok (),
        ⟨⟨st.fs.entries.filter (fun e => !(isUnder sh.directory e.1)),
          (botPlan st.fs P0 st.fs.depthBound sh.directory st.fs.inodeAcls).1,
          st.fs.protectedInos⟩,
          (st.trace ++ (botPlan st.fs P0 st.fs.depthBound sh.directory
            st.fs.inodeAcls).2) ++ [Event.rmdirE sh.directory]⟩) ∧
    (sh.selfDestruct force st).2.fs.get sh.directory = none ∧
    (∀ (t : Path) (st2 : MState) (a : ACL) (q : Path),
      st2.fs.get t = some (Entry.dir a) → isUnder t q = true → q ≠ t →
      st2.fs.get q ≠ none →
      sh.unshareDir t st2 = (Except.error (Err.dirNotEmpty t), st2)) ∧
    (∀ (dir0 : Path) (e : Err) (st3 st4 : MState),
      runAll (sh.unshareTuple force) (fsWalkBot st3.fs dir0) st3 =
        (Except.error e, st4) →
      sh.unshareTree dir0 force st3 = (Except.error e, st4)) ∧
    (∀ (t : WalkTuple) (st5 : MState),
      sh.unshareTuple force t st5 =
        andThen (runAll (fun f2 => sh.unshareFile (t.1 ++ [f2]) force) t.2.2 st5)
          (fun st6 => runAll (fun sd => sh.unshareDir (t.1 ++ [sd])) t.2.1 st6)) := by
  have hmain := unshareTree_clean sh sh.directory P0 P0 force st hwf (Nat.le_refl _)
    hD hD hconn hout
  refine ⟨hmain, ?_, ?_, ?_, ?_⟩
  · show (sh.unshareTree sh.directory force st).2.fs.get sh.directory = none
    rw [hmain]
    apply kvGet_filter_none
    intro v
    simp [isUnder_refl]
  · intro t st2 a q hdir2 hq hne hsome
    show osRmdir t st2 = _
    unfold osRmdir
    rw [hdir2]
    have hqmem : q ∈ st2.fs.entries.map Prod.fst := kvGet_some_mem_keys _ _ hsome
    obtain ⟨e2, he2, hke⟩ := List.mem_map.mp hqmem
    have hany : st2.fs.entries.any (fun e => isUnder t e.1 && decide (e.1 ≠ t)) =
        true := by
      apply List.any_eq_true.mpr
      refine ⟨e2, he2, ?_⟩
      rw [hke]
      simp [hq, hne]
    rw [hany]
    simp
  · intro dir0 e st3 st4 hrun
    show andThen (runAll (sh.unshareTuple force) (fsWalkBot st3.fs dir0) st3)
      (fun st1 => osRmdir dir0 st1) = _
    rw [hrun]
    simp [andThen]
  · intro t st5
    rfl

/-- A populated share next to the original copies of its two files. -/
def cexFS5 : FS :=
  { entries := [(["srv"], Entry.dir []), (["srv", "share"], Entry.dir [ambAce]),
      (["srv", "share", "a"], Entry.file 1),
      (["srv", "share", "sub"], Entry.dir [ambAce]),
      (["srv", "share", "sub", "b"], Entry.file 2),
      (["orig1"], Entry.file 1), (["orig2"], Entry.file 2)],
    inodeAcls := [(1, [ownAce]), (2, [ownAce])],
    protectedInos := [] }

def cexSt5 : MState := { fs := cexFS5, trace := [] }

/-- Witness for claim C5 at a concrete state. -/
theorem tree_unshare_order_witness :
    cexSt5.fs.wf ∧
    sampleShare.selfDestruct false cexSt5 =
      (Except.ok (),
        ⟨⟨cexSt5.fs.entries.filter (fun e => !(isUnder sampleShare.directory e.1)),
          (botPlan cexSt5.fs [ambAce] cexSt5.fs.depthBound sampleShare.directory
            cexSt5.fs.inodeAcls).1,
          cexSt5.fs.protectedInos⟩,
          (cexSt5.trace ++ (botPlan cexSt5.fs [ambAce] cexSt5.fs.depthBound
            sampleShare.directory cexSt5.fs.inodeAcls).2) ++
            [Event.rmdirE sampleShare.directory]⟩) ∧
    (sampleShare.selfDestruct false cexSt5).2.fs.get sampleShare.directory = none :=
  ⟨by unfold FS.wf; decide,
    (tree_unshare_order sampleShare [ambAce] false cexSt5 (by unfold FS.wf; decide)
      (by decide)
      (conn_of_concrete _ _ (by decide))
      (fun p i hp hpf => Or.inr (out_of_concrete _ _ (by unfold FS.wf; decide)
        (by decide) p i hp hpf))).1,
    (tree_unshare_order sampleShare [ambAce] false cexSt5 (by unfold FS.wf; decide)
      (by decide)
      (conn_of_concrete _ _ (by decide))
      (fun p i hp hpf => Or.inr (out_of_concrete _ _ (by unfold FS.wf; decide)
        (by decide) p i hp hpf))).2.1⟩

/-! ### Structure of the mirror block -/

theorem mirrorList_entries_congr {fs1 fs2 : FS} (h : fs1.entries = fs2.entries)
    (P0 : ACL) (srcLen : Nat) (top : Path) :
    ∀ (fuel : Nat) (r : Path),
      mirrorList fs1 P0 srcLen top fuel r = mirrorList fs2 P0 srcLen top fuel r := by
  have hget : ∀ p, fs1.get p = fs2.get p := by
    intro p
    unfold FS.get
    rw [h]
  have hdn : ∀ p, fs1.dirChildNames p = fs2.dirChildNames p := by
    intro p
    unfold FS.dirChildNames
    rw [h]
  have hfn : ∀ p, fs1.fileChildNames p = fs2.fileChildNames p := by
    intro p
    unfold FS.fileChildNames
    rw [h]
  have hino : ∀ p, fs1.inoOf p = fs2.inoOf p := by
    intro p
    unfold FS.inoOf
    rw [hget]
  intro fuel
  induction fuel with
  | zero => intro r; rfl
  | succ m ih =>
    intro r
    unfold mirrorList
    rw [hget r]
    cases fs2.get r with
    | none => rfl
    | some e =>
      cases e with
      | file i => rfl
      | dir a =>
        rw [hdn, hfn]
        have hfun1 : (fun f2 => (relTarget srcLen top r ++ [f2],
            Entry.file (fs1.inoOf (r ++ [f2])))) =
            (fun f2 => (relTarget srcLen top r ++ [f2],
            Entry.file (fs2.inoOf (r ++ [f2])))) := by
          funext f2
          rw [hino]
        have hfun2 : (fun d => mirrorList fs1 P0 srcLen top m (r ++ [d])) =
            (fun d => mirrorList fs2 P0 srcLen top m (r ++ [d])) := by
          funext d
          exact ih (r ++ [d])
        rw [hfun1, hfun2]

/-- Every member of a mirror block is either a mirrored directory entry
with ambient ACL or a hardlink of a snapshot file. -/
theorem mirrorList_mem_char (fs : FS) (P0 : ACL) (srcLen : Nat) (top : Path)
    (hwf : fs.wf) :
    ∀ (fuel : Nat) (r : Path) (e : Path × Entry),
      e ∈ mirrorList fs P0 srcLen top fuel r → srcLen ≤ r.length →
      (∃ s a, isUnder r s = true ∧ s ≠ r ∧
        e = (relTarget srcLen top s, Entry.dir P0) ∧
        fs.get s = some (Entry.dir a)) ∨
      (∃ s i, isUnder r s = true ∧ s ≠ r ∧
        e = (relTarget srcLen top s, Entry.file i) ∧
        fs.get s = some (Entry.file i)) := by
  intro fuel
  induction fuel with
  | zero => intro r e h; simp [mirrorList] at h
  | succ m ih =>
    intro r e h hlen
    unfold mirrorList at h
    cases hg : fs.get r with
    | none => rw [hg] at h; simp at h
    | some en =>
      cases en with
      | file i => rw [hg] at h; simp at h
      | dir a =>
        rw [hg] at h
        have hne : ∀ x : String, r ++ [x] ≠ r := by
          intro x hcon
          have := congrArg List.length hcon
          simp at this
        rcases List.mem_append.mp h with h1 | h1
        · rcases List.mem_append.mp h1 with h2 | h2
          · obtain ⟨d, hd, rfl⟩ := List.mem_map.mp h2
            obtain ⟨b, hb⟩ := mem_dirChildNames fs r d hwf hd
            exact Or.inl ⟨r ++ [d], b, isUnder_append r [d], hne d,
              by rw [relTarget_child _ _ _ _ hlen], hb⟩
          · obtain ⟨f2, hf2, rfl⟩ := List.mem_map.mp h2
            obtain ⟨i, hi⟩ := mem_fileChildNames fs r f2 hwf hf2
            have hio : fs.inoOf (r ++ [f2]) = i := by
              unfold FS.inoOf
              rw [hi]
            exact Or.inr ⟨r ++ [f2], fs.inoOf (r ++ [f2]), isUnder_append r [f2],
              hne f2, by rw [relTarget_child _ _ _ _ hlen], by rw [hio]; exact hi⟩
        · obtain ⟨d, hd, hmem⟩ := List.mem_flatMap.mp h1
          have hlen2 : srcLen ≤ (r ++ [d]).length := by
            simp only [List.length_append, List.length_singleton]
            omega
          rcases ih (r ++ [d]) e hmem hlen2 with ⟨s, b, hs1, hs2, hs3, hs4⟩ |
            ⟨s, i, hs1, hs2, hs3, hs4⟩
          · exact Or.inl ⟨s, b, isUnder_trans (isUnder_append r [d]) hs1,
              (by
                intro hcon
                rw [hcon] at hs1
                have := isUnder_length_le hs1
                simp at this), hs3, hs4⟩
          · exact Or.inr ⟨s, i, isUnder_trans (isUnder_append r [d]) hs1,
              (by
                intro hcon
                rw [hcon] at hs1
                have := isUnder_length_le hs1
                simp at this), hs3, hs4⟩

/-- Completeness: the mirror of every snapshot directory strictly below
`r` (whose ancestors are connected directories) is created. -/
theorem mirrorList_covers_dir (fs : FS) (P0 : ACL) (srcLen : Nat) (top : Path)
    (hconn : ∀ p q, isUnder p q = true → q ≠ p → fs.get q ≠ none →
      ∃ a, fs.get p = some (Entry.dir a)) :
    ∀ (fuel : Nat) (r : Path) (s : Path) (a : ACL), srcLen ≤ r.length →
      isUnder r s = true → s ≠ r → fs.get s = some (Entry.dir a) →
      s.length < r.length + fuel →
      (relTarget srcLen top s, Entry.dir P0) ∈ mirrorList fs P0 srcLen top fuel r := by
  intro fuel
  induction fuel with
  | zero =>
    intro r s a _ hs hne _ hlen2
    exfalso
    have h1 := isUnder_length_le hs
    have : s.length ≠ r.length := by
      intro hcon
      exact hne (isUnder_eq_of_length_le hs (by omega))
    omega
  | succ m ih =>
    intro r s a hlen hs hne hsdir hfuel
    obtain ⟨t, ht⟩ := (isUnder_iff r s).mp hs
    cases t with
    | nil =>
      exact absurd (show s = r by
        rw [ht]
        simp) hne
    | cons x rest =>
      have ht2 : s = (r ++ [x]) ++ rest := by
        rw [ht]
        simp
      have hrx : ∃ b, fs.get (r ++ [x]) = some (Entry.dir b) := by
        cases hrest : rest with
        | nil =>
          refine ⟨a, ?_⟩
          rw [← hsdir, ht2, hrest]
          simp
        | cons y ys =>
          apply hconn (r ++ [x]) s
          · rw [ht2]
            exact isUnder_append _ _
          · rw [ht2, hrest]
            intro hcon
            have := congrArg List.length hcon
            simp at this
          · rw [hsdir]
            simp
      obtain ⟨b, hb⟩ := hrx
      have hxd : x ∈ fs.dirChildNames r := mem_dirChildNames_of_get fs r x b hb
      have hdirblock : ∀ a0, fs.get r = some (Entry.dir a0) →
          (relTarget srcLen top s, Entry.dir P0) ∈
            mirrorList fs P0 srcLen top (m + 1) r := by
        intro a0 hg
        have heq : mirrorList fs P0 srcLen top (m + 1) r =
            (fs.dirChildNames r).map
              (fun d => (relTarget srcLen top r ++ [d], Entry.dir P0)) ++
            (fs.fileChildNames r).map
              (fun f2 => (relTarget srcLen top r ++ [f2],
                Entry.file (fs.inoOf (r ++ [f2])))) ++
            (fs.dirChildNames r).flatMap
              (fun d => mirrorList fs P0 srcLen top m (r ++ [d])) := by
          simp only [mirrorList]
          rw [hg]
        rw [heq]
        by_cases hsx : s = r ++ [x]
        · apply List.mem_append_left
          apply List.mem_append_left
          apply List.mem_map.mpr
          refine ⟨x, hxd, ?_⟩
          rw [hsx, relTarget_child _ _ _ _ hlen]
        · apply List.mem_append_right
          apply List.mem_flatMap.mpr
          refine ⟨x, hxd, ?_⟩
          apply ih (r ++ [x]) s a
          · simp only [List.length_append, List.length_singleton]
            omega
          · rw [ht2]
            exact isUnder_append _ _
          · exact hsx
          · exact hsdir
          · simp only [List.length_append, List.length_singleton]
            omega
      obtain ⟨a0, ha0⟩ := hconn r s hs hne (by rw [hsdir]; simp)
      exact hdirblock a0 ha0

/-- A region with no live paths has no entry keys. -/
theorem entries_not_under_of_region_empty (fs : FS) (p : Path)
    (h : ∀ q, isUnder p q = true → fs.get q = none) :
    ∀ e ∈ fs.entries, isUnder p e.1 = false := by
  intro e he
  cases hu : isUnder p e.1 with
  | false => rfl
  | true =>
    exfalso
    have hnone := h e.1 hu
    have hsome := kvGet_isSome_of_mem fs.entries e.1 (List.mem_map_of_mem Prod.fst he)
    unfold FS.get at hnone
    rw [hnone] at hsome
    simp at hsome

/-! ### Claim C3: idempotence of add for directory inputs -/

/-- C3: re-adding a directory hits the existing mirror (a
`FileExistsError` on the top mirror directory), un-shares the stale
mirrored subtree, retries the duplication, and ends with a directory
tree identical to the one left by the first add. -/
theorem add_idempotent_dir (sh : Share) (src top : Path) (P0 : ACL) (st : MState)
    (n : Nat)
    (htop : top = sh.directory ++ [src.getLastD ""])
    (hlacl : sh.lock_acl = theLockAcl)
    (hwf : st.fs.wf)
    (htd1 : isUnder src top = false)
    (htd2 : isUnder top src = false)
    (hD : st.fs.get sh.directory = some (Entry.dir P0))
    (hchainD : ∀ s, isUnder s sh.directory = true → s ≠ [] →
      ∃ a, st.fs.get s = some (Entry.dir a))
    (hmirror : ∀ q, isUnder top q = true → st.fs.get q = none)
    (hff : ∀ p i q, isUnder src p = true → st.fs.get p = some (Entry.file i) →
      isUnder p q = true → q ≠ p → st.fs.get q = none)
    (hprot : ∀ p i, isUnder src p = true → st.fs.get p = some (Entry.file i) →
      i ∉ st.fs.protectedInos)
    (hconnG : ∀ p q, isUnder p q = true → q ≠ p → st.fs.get q ≠ none →
      ∃ a, st.fs.get p = some (Entry.dir a))
    (hn1 : st.fs.maxLen < src.length + n)
    (hn2 : top.length < src.length + n) :
    (sh.addDir src st).1 = Except.ok () ∧
    sh.dupTree src (sh.addDir src st).2 =
      (Except.error (Err.fileExists top), (sh.addDir src st).2) ∧
    (sh.addDir src (sh.addDir src st).2).1 = Except.ok () ∧
    (sh.addDir src (sh.addDir src st).2).2.fs.entries =
      (sh.addDir src st).2.fs.entries ∧
    (sh.addDir src (sh.addDir src st).2).2.fs.protectedInos =
      (sh.addDir src st).2.fs.protectedInos := by
  obtain ⟨hdup1, hwf1⟩ := dupTree_clean sh src top P0 st n htop hlacl hwf htd1 htd2
    hD hchainD hmirror hff hprot hn1 hn2
  have hDlen : sh.directory.length < top.length := by
    rw [htop]
    simp
  have hdisj : ∀ z, isUnder src z = true → isUnder top z = false := by
    intro z hz
    cases hu : isUnder top z with
    | false => rfl
    | true =>
      exfalso
      rcases isUnder_comparable hz hu with h | h
      · rw [h] at htd1
        exact Bool.noConfusion htd1
      · rw [h] at htd2
        exact Bool.noConfusion htd2
  have hMlong : ∀ e ∈ mirrorList st.fs P0 src.length top n src,
      top.length < e.1.length := by
    intro e he
    have := mirrorList_keys_long st.fs P0 src.length top n src (Nat.le_refl _) e he
    rwa [relTarget_self] at this
  have hMunder : underKeys top (mirrorList st.fs P0 src.length top n src) :=
    mirrorList_underKeys st.fs P0 src.length top n src (Nat.le_refl _)
  have hE0top : ∀ e ∈ st.fs.entries, isUnder top e.1 = false :=
    entries_not_under_of_region_empty st.fs top hmirror
  have htopfresh : st.fs.get top = none := hmirror top (isUnder_refl top)
  -- reads in the state after the first duplication
  have hget1_short : ∀ (q : Path), q.length ≤ top.length →
      kvGet ((st.fs.entries ++ [(top, Entry.dir P0)]) ++
        mirrorList st.fs P0 src.length top n src) q =
      kvGet (st.fs.entries ++ [(top, Entry.dir P0)]) q := by
    intro q hq
    apply kvGet_append_right
    apply kvGet_none_of_ne
    intro e he hcon
    have := hMlong e he
    rw [hcon] at this
    omega
  have hget1_top : kvGet ((st.fs.entries ++ [(top, Entry.dir P0)]) ++
      mirrorList st.fs P0 src.length top n src) top = some (Entry.dir P0) := by
    rw [hget1_short top (Nat.le_refl _), kvGet_append_left _ _ _ htopfresh]
    simp [kvGet]
  have hget1_D : kvGet ((st.fs.entries ++ [(top, Entry.dir P0)]) ++
      mirrorList st.fs P0 src.length top n src) sh.directory =
      some (Entry.dir P0) := by
    rw [hget1_short sh.directory (by omega)]
    rw [kvGet_append_right]
    · exact hD
    · apply kvGet_none_of_ne
      intro e he hcon
      simp only [List.mem_singleton] at he
      subst he
      have h2 : top = sh.directory := hcon
      have := congrArg List.length h2
      omega
  have hget1_src : ∀ q, isUnder src q = true →
      kvGet ((st.fs.entries ++ [(top, Entry.dir P0)]) ++
        mirrorList st.fs P0 src.length top n src) q = st.fs.get q := by
    intro q hq
    rw [kvGet_append_right _ _ _ (kvGet_none_of_underKeys htd1 htd2 hMunder hq)]
    rw [kvGet_append_right]
    · rfl
    · apply kvGet_none_of_ne
      intro e he hcon
      simp only [List.mem_singleton] at he
      subst he
      have h2 : top = q := hcon
      rw [h2, hq] at htd1
      exact Bool.noConfusion htd1
  have hget1_take : ∀ k, 0 < k → k < top.length →
      ∃ a, kvGet ((st.fs.entries ++ [(top, Entry.dir P0)]) ++
        mirrorList st.fs P0 src.length top n src) (top.take k) =
        some (Entry.dir a) := by
    intro k hk1 hk2
    have hkD : k ≤ sh.directory.length := by
      rw [htop] at hk2
      simp only [List.length_append, List.length_singleton] at hk2
      omega
    have htk : top.take k = sh.directory.take k := by
      rw [htop]
      rw [List.take_append_of_le_length hkD]
    have hlen_tk : (top.take k).length = k := by
      rw [htk]
      simp only [List.length_take]
      omega
    obtain ⟨a, ha⟩ := hchainD (top.take k)
      (by
        rw [htk]
        rw [isUnder_iff_isPre]
        exact List.take_prefix k sh.directory)
      (by
        intro hcon
        rw [hcon] at hlen_tk
        simp at hlen_tk
        omega)
    refine ⟨a, ?_⟩
    rw [hget1_short _ (by omega)]
    rw [kvGet_append_right]
    · exact ha
    · apply kvGet_none_of_ne
      intro e he hcon
      simp only [List.mem_singleton] at he
      subst he
      have h2 : top = top.take k := hcon
      have := congrArg List.length h2
      rw [hlen_tk] at this
      omega
  -- the second duplication collides with the existing top directory
  have haddDir1 : sh.addDir src st =
      (Except.ok (),
        ⟨⟨(st.fs.entries ++ [(top, Entry.dir P0)]) ++
            mirrorList st.fs P0 src.length top n src,
          (dupInos st.fs n src).foldl (dupInoStep P0) st.fs.inodeAcls,
          st.fs.protectedInos⟩,
          (st.trace ++ [Event.mkdirE top, Event.setAclE top P0]) ++
            dupTrace st.fs P0 src.length top n src⟩) := by
    unfold Share.addDir
    rw [hdup1]
  have hmk_err : osMakedirs top false
      (⟨⟨(st.fs.entries ++ [(top, Entry.dir P0)]) ++
          mirrorList st.fs P0 src.length top n src,
        (dupInos st.fs n src).foldl (dupInoStep P0) st.fs.inodeAcls,
        st.fs.protectedInos⟩,
        (st.trace ++ [Event.mkdirE top, Event.setAclE top P0]) ++
          dupTrace st.fs P0 src.length top n src⟩) =
      (Except.error (Err.fileExists top),
        ⟨⟨(st.fs.entries ++ [(top, Entry.dir P0)]) ++
            mirrorList st.fs P0 src.length top n src,
          (dupInos st.fs n src).foldl (dupInoStep P0) st.fs.inodeAcls,
          st.fs.protectedInos⟩,
          (st.trace ++ [Event.mkdirE top, Event.setAclE top P0]) ++
            dupTrace st.fs P0 src.length top n src⟩) := by
    apply osMakedirs_exists_err top (Entry.dir P0) _ (by
      rw [htop]
      simp)
    · intro k hk1 hk2
      exact hget1_take k hk1 hk2
    · exact hget1_top
  have hdup_err : sh.dupTree src
      (⟨⟨(st.fs.entries ++ [(top, Entry.dir P0)]) ++
          mirrorList st.fs P0 src.length top n src,
        (dupInos st.fs n src).foldl (dupInoStep P0) st.fs.inodeAcls,
        st.fs.protectedInos⟩,
        (st.trace ++ [Event.mkdirE top, Event.setAclE top P0]) ++
          dupTrace st.fs P0 src.length top n src⟩) =
      (Except.error (Err.fileExists top),
        ⟨⟨(st.fs.entries ++ [(top, Entry.dir P0)]) ++
            mirrorList st.fs P0 src.length top n src,
          (dupInos st.fs n src).foldl (dupInoStep P0) st.fs.inodeAcls,
          st.fs.protectedInos⟩,
          (st.trace ++ [Event.mkdirE top, Event.setAclE top P0]) ++
            dupTrace st.fs P0 src.length top n src⟩) := by
    show andThen (sh.makedirS (sh.directory ++ [src.getLastD ""]) _) _ = _
    rw [← htop]
    show andThen (andThen (osMakedirs top false _) _) _ = _
    rw [hmk_err]
    simp [andThen]
  -- ancestors inside the mirror region are mirrored directories
  have hanc : ∀ (p q s2 : Path), isUnder top p = true → p ≠ top →
      isUnder p q = true → q ≠ p → isUnder src s2 = true →
      q = relTarget src.length top s2 → st.fs.get s2 ≠ none →
      ∃ a, kvGet ((st.fs.entries ++ [(top, Entry.dir P0)]) ++
        mirrorList st.fs P0 src.length top n src) p = some (Entry.dir a) := by
    intro p q s2 htp hptop hpq hne hsrc_s2 hqrel hs2get
    obtain ⟨w, hw⟩ := (isUnder_iff src s2).mp hsrc_s2
    have hq_tw : q = top ++ w := by
      rw [hqrel, hw]
      unfold relTarget
      rw [List.drop_left]
    obtain ⟨u, hu⟩ := (isUnder_iff top p).mp htp
    obtain ⟨v, hv⟩ := (isUnder_iff p q).mp hpq
    have hwuv : w = u ++ v := by
      apply @List.append_cancel_left _ top _ _
      rw [← hq_tw, hv, hu]
      simp
    have hu_ne : u ≠ [] := by
      intro hcon
      rw [hcon] at hu
      exact hptop (by rw [hu]; simp)
    have hv_ne : v ≠ [] := by
      intro hcon
      rw [hcon] at hv
      exact hne (by rw [hv]; simp)
    have hrel_s' : relTarget src.length top (src ++ u) = p := by
      unfold relTarget
      rw [List.drop_left, hu]
    have hs'_ne_src : src ++ u ≠ src := by
      intro hcon
      have := congrArg List.length hcon
      simp only [List.length_append] at this
      have : u = [] := List.eq_nil_of_length_eq_zero (by omega)
      exact hu_ne this
    have hs'_under : isUnder (src ++ u) s2 = true := by
      rw [hw, hwuv, ← List.append_assoc]
      exact isUnder_append _ _
    have hs'_ne_s2 : s2 ≠ src ++ u := by
      intro hcon
      rw [hw, hwuv] at hcon
      have := congrArg List.length hcon
      simp only [List.length_append] at this
      have : v = [] := List.eq_nil_of_length_eq_zero (by omega)
      exact hv_ne this
    obtain ⟨a', ha'⟩ := hconnG (src ++ u) s2 hs'_under hs'_ne_s2 hs2get
    have hs2_len : s2.length ≤ st.fs.maxLen := st.fs.length_le_maxLen s2 hs2get
    have hs'_len : (src ++ u).length < src.length + n := by
      have h1 : (src ++ u).length < s2.length := by
        rw [hw, hwuv]
        simp only [List.length_append]
        have : 0 < v.length := List.length_pos.mpr hv_ne
        omega
      omega
    have hmem := mirrorList_covers_dir st.fs P0 src.length top hconnG n src
      (src ++ u) a' (Nat.le_refl _) (isUnder_append _ _) hs'_ne_src ha' hs'_len
    rw [hrel_s'] at hmem
    refine ⟨P0, ?_⟩
    exact mem_kvGet_nodup _ _ _ hwf1 (List.mem_append_right _ hmem)
  -- connectivity of the mirror region in the post-duplication state
  have hconn1 : ∀ p q, isUnder top p = true → isUnder p q = true → q ≠ p →
      kvGet ((st.fs.entries ++ [(top, Entry.dir P0)]) ++
        mirrorList st.fs P0 src.length top n src) q ≠ none →
      ∃ a, kvGet ((st.fs.entries ++ [(top, Entry.dir P0)]) ++
        mirrorList st.fs P0 src.length top n src) p = some (Entry.dir a) := by
    intro p q htp hpq hne hq
    by_cases hptop : p = top
    · exact ⟨P0, by rw [hptop]; exact hget1_top⟩
    obtain ⟨e2, he2, hke⟩ := List.mem_map.mp (kvGet_some_mem_keys _ _ hq)
    have htopq : isUnder top q = true := isUnder_trans htp hpq
    rcases List.mem_append.mp he2 with h01 | hM
    · rcases List.mem_append.mp h01 with h0 | h1
      · exfalso
        have := hE0top e2 h0
        rw [hke, htopq] at this
        exact Bool.noConfusion this
      · exfalso
        simp only [List.mem_singleton] at h1
        subst h1
        have hqt : q = top := hke.symm
        have h2 := isUnder_antisymm (hqt ▸ hpq) htp
        exact hne (by rw [hqt, h2])
    · rcases mirrorList_mem_char st.fs P0 src.length top hwf n src e2 hM
        (Nat.le_refl _) with ⟨s2, a2, hs1, _, heq2, hg2⟩ |
        ⟨s2, i2, hs1, _, heq2, hg2⟩
      · exact hanc p q s2 htp hptop hpq hne hs1
          (by rw [← hke, heq2]) (by rw [hg2]; simp)
      · exact hanc p q s2 htp hptop hpq hne hs1
          (by rw [← hke, heq2]) (by rw [hg2]; simp)
  -- every mirror file keeps its original hardlink outside the mirror
  have hout1 : ∀ p i, isUnder top p = true →
      kvGet ((st.fs.entries ++ [(top, Entry.dir P0)]) ++
        mirrorList st.fs P0 src.length top n src) p = some (Entry.file i) →
      ∃ q, isUnder top q = false ∧
        kvGet ((st.fs.entries ++ [(top, Entry.dir P0)]) ++
          mirrorList st.fs P0 src.length top n src) q = some (Entry.file i) := by
    intro p i htp hkv
    have hmem : (p, Entry.file i) ∈ (st.fs.entries ++ [(top, Entry.dir P0)]) ++
        mirrorList st.fs P0 src.length top n src := kvGet_mem _ _ _ hkv
    rcases List.mem_append.mp hmem with h01 | hM
    · rcases List.mem_append.mp h01 with h0 | h1
      · exfalso
        have hg0 : st.fs.get p = some (Entry.file i) :=
          mem_kvGet_nodup st.fs.entries p (Entry.file i) hwf h0
        rw [hmirror p htp] at hg0
        exact Option.noConfusion hg0
      · exfalso
        simp only [List.mem_singleton, Prod.mk.injEq] at h1
        exact Entry.noConfusion h1.2
    · rcases mirrorList_mem_char st.fs P0 src.length top hwf n src _ hM
        (Nat.le_refl _) with ⟨s2, a2, _, _, heq2, _⟩ |
        ⟨s2, i2, hs1, _, heq2, hg2⟩
      · exfalso
        have := congrArg Prod.snd heq2
        simp only at this
        exact Entry.noConfusion this
      · have hpi := Prod.mk.injEq .. ▸ heq2
        have hp_eq : p = relTarget src.length top s2 := congrArg Prod.fst heq2
        have hi_eq : Entry.file i = Entry.file i2 := congrArg Prod.snd heq2
        have hi2 : i = i2 := by
          cases hi_eq
          rfl
        refine ⟨s2, hdisj s2 hs1, ?_⟩
        rw [hget1_src s2 hs1, hg2, hi2]
  -- un-share the stale mirror
  have hunshare := unshareTree_clean sh top P0 P0 false
    (⟨⟨(st.fs.entries ++ [(top, Entry.dir P0)]) ++
        mirrorList st.fs P0 src.length top n src,
      (dupInos st.fs n src).foldl (dupInoStep P0) st.fs.inodeAcls,
      st.fs.protectedInos⟩,
      (st.trace ++ [Event.mkdirE top, Event.setAclE top P0]) ++
        dupTrace st.fs P0 src.length top n src⟩)
    hwf1 (by omega) hget1_D hget1_top hconn1
    (fun p i hp hpf => Or.inr (hout1 p i hp hpf))
  have hE2 : ((st.fs.entries ++ [(top, Entry.dir P0)]) ++
      mirrorList st.fs P0 src.length top n src).filter
        (fun e => !(isUnder top e.1)) = st.fs.entries := by
    rw [List.filter_append, List.filter_append]
    have h0 : st.fs.entries.filter (fun e => !(isUnder top e.1)) = st.fs.entries := by
      apply List.filter_eq_self.mpr
      intro e he
      rw [hE0top e he]
      rfl
    have h1 : ([(top, Entry.dir P0)] : List (Path × Entry)).filter
        (fun e => !(isUnder top e.1)) = [] := by
      simp [isUnder_refl]
    have h2 : (mirrorList st.fs P0 src.length top n src).filter
        (fun e => !(isUnder top e.1)) = [] := by
      apply List.filter_eq_nil_iff.mpr
      intro e he
      rw [hMunder e he]
      simp
    rw [h0, h1, h2]
    simp
  have hdup3 : ∀ (tbl : List (Nat × ACL)) (tr : List Event),
      sh.dupTree src (⟨⟨st.fs.entries, tbl, st.fs.protectedInos⟩, tr⟩ : MState) =
        (Except.ok (),
          ⟨⟨(st.fs.entries ++ [(top, Entry.dir P0)]) ++
              mirrorList (FS.mk st.fs.entries tbl st.fs.protectedInos) P0
                src.length top n src,
            (dupInos (FS.mk st.fs.entries tbl st.fs.protectedInos) n src).foldl
              (dupInoStep P0) tbl,
            st.fs.protectedInos⟩,
            (tr ++ [Event.mkdirE top, Event.setAclE top P0]) ++
              dupTrace (FS.mk st.fs.entries tbl st.fs.protectedInos) P0
                src.length top n src⟩) := by
    intro tbl tr
    exact (dupTree_clean sh src top P0
      (⟨⟨st.fs.entries, tbl, st.fs.protectedInos⟩, tr⟩) n htop hlacl hwf htd1 htd2
      hD hchainD hmirror hff hprot hn1 hn2).1
  have hsecond :
      (sh.addDir src
        (⟨⟨(st.fs.entries ++ [(top, Entry.dir P0)]) ++
            mirrorList st.fs P0 src.length top n src,
          (dupInos st.fs n src).foldl (dupInoStep P0) st.fs.inodeAcls,
          st.fs.protectedInos⟩,
          (st.trace ++ [Event.mkdirE top, Event.setAclE top P0]) ++
            dupTrace st.fs P0 src.length top n src⟩ : MState)).1 = Except.ok () ∧
      (sh.addDir src
        (⟨⟨(st.fs.entries ++ [(top, Entry.dir P0)]) ++
            mirrorList st.fs P0 src.length top n src,
          (dupInos st.fs n src).foldl (dupInoStep P0) st.fs.inodeAcls,
          st.fs.protectedInos⟩,
          (st.trace ++ [Event.mkdirE top, Event.setAclE top P0]) ++
            dupTrace st.fs P0 src.length top n src⟩ : MState)).2.fs.entries =
        (st.fs.entries ++ [(top, Entry.dir P0)]) ++
          mirrorList st.fs P0 src.length top n src ∧
      (sh.addDir src
        (⟨⟨(st.fs.entries ++ [(top, Entry.dir P0)]) ++
            mirrorList st.fs P0 src.length top n src,
          (dupInos st.fs n src).foldl (dupInoStep P0) st.fs.inodeAcls,
          st.fs.protectedInos⟩,
          (st.trace ++ [Event.mkdirE top, Event.setAclE top P0]) ++
            dupTrace st.fs P0 src.length top n src⟩ : MState)).2.fs.protectedInos =
        st.fs.protectedInos := by
    simp only [Share.addDir, hdup_err]
    rw [hunshare]
    simp only [andThen]
    rw [hE2, hdup3]
    refine ⟨rfl, ?_, rfl⟩
    refine congrArg (fun l => (st.fs.entries ++ [(top, Entry.dir P0)]) ++ l)
      (mirrorList_entries_congr ?_ P0 src.length top n src)
    rfl
  refine ⟨congrArg Prod.fst haddDir1, ?_, ?_, ?_, ?_⟩
  · rw [haddDir1]
    exact hdup_err
  · rw [haddDir1]
    exact hsecond.1
  · rw [haddDir1]
    exact hsecond.2.1
  · rw [haddDir1]
    exact hsecond.2.2

/-- A rooted filesystem with a source tree (one file, one subdirectory,
one nested file) next to an empty share. -/
def cexFS3 : FS :=
  { entries := [([], Entry.dir []), (["srv"], Entry.dir []),
      (["srv", "share"], Entry.dir [ambAce]),
      (["data"], Entry.dir []), (["data", "sub"], Entry.dir []),
      (["data", "f"], Entry.file 1), (["data", "sub", "g"], Entry.file 2)],
    inodeAcls := [(1, [ownAce]), (2, [ownAce])],
    protectedInos := [] }

def cexSt3 : MState := { fs := cexFS3, trace := [] }

/-- Witness for claim C3 at a concrete state. -/
theorem add_idempotent_dir_witness :
    (sampleShare.addDir ["data"] cexSt3).1 = Except.ok () ∧
    (sampleShare.addDir ["data"]
      (sampleShare.addDir ["data"] cexSt3).2).1 = Except.ok () ∧
    (sampleShare.addDir ["data"]
        (sampleShare.addDir ["data"] cexSt3).2).2.fs.entries =
      (sampleShare.addDir ["data"] cexSt3).2.fs.entries :=
  have h := add_idempotent_dir sampleShare ["data"] ["srv", "share", "data"]
    [ambAce] cexSt3 5 rfl rfl (by unfold FS.wf; decide) (by decide) (by decide)
    (by decide)
    (chain_of_take _ _ (by decide))
    (region_empty_of_keys _ _ (by decide))
    (files_no_desc _ _ (by decide))
    (fun p i _ _ => List.not_mem_nil i)
    (fun p q hpq hne hq => conn_of_concrete cexSt3.fs [] (by decide) p q
      ((isUnder_iff [] p).mpr ⟨p, rfl⟩) hpq hne hq)
    (by decide) (by decide)
  ⟨h.1, h.2.2.1, h.2.2.2.1⟩

/-! ### Helpers for the `add` loop claims -/

/-- `logAll` appends one log event per path and touches nothing else. -/
theorem logAll_spec (ps : List Path) : ∀ (st : MState),
    logAll ps st = { fs := st.fs, trace := st.trace ++ ps.map Event.logUnhandledE } := by
  induction ps with
  | nil =>
    intro st
    simp [logAll]
  | cons p ps ih =>
    intro st
    show logAll ps (emit st (Event.logUnhandledE p)) = _
    rw [ih]
    simp [emit]

/-- A loop body that returns `ok` lets the loop continue with the
remaining items. -/
theorem runAll_cons_ok {α : Type} (f : α → MState → MRes Unit) (x : α) (xs : List α)
    (st stx : MState) (h : f x st = (Except.ok (), stx)) :
    runAll f (x :: xs) st = runAll f xs stx := by
  show andThen (f x st) (runAll f xs) = _
  rw [h]
  rfl

/-- Absence of directories below a path, from the finitely many entries. -/
theorem nodir_of_concrete (fs : FS) (p : Path)
    (h : ∀ e ∈ fs.entries, (match e.2 with
      | Entry.dir _ => !(isUnder p e.1)
      | Entry.file _ => true) = true) :
    ∀ q a, fs.get q = some (Entry.dir a) → isUnder p q = false := by
  intro q a hq
  have hmem : (q, Entry.dir a) ∈ fs.entries := kvGet_mem _ _ _ hq
  have h2 : (!(isUnder p q)) = true := h (q, Entry.dir a) hmem
  cases hu : isUnder p q with
  | false => rfl
  | true =>
    rw [hu] at h2
    simp at h2

/-- Deleting a key keeps the key list duplicate-free. -/
theorem wf_kvDel {κ α : Type} [DecidableEq κ] (l : List (κ × α)) (k : κ)
    (h : (l.map Prod.fst).Nodup) : ((kvDel l k).map Prod.fst).Nodup := by
  rw [kvDel_eq_filter]
  exact h.sublist ((l.filter_sublist).map Prod.fst)

/-- Dropping entries at a path outside the visited region leaves the
visited inode list unchanged. -/
theorem inosUnder_del_list (src t : Path) (h : isUnder src t = false) :
    ∀ (l : List (Path × Entry)),
    (l.filter (fun e => decide (e.1 ≠ t))).filterMap (fun e =>
      if isUnder src e.1 then
        match e.2 with
        | Entry.file i => some i
        | Entry.dir _ => none
      else none) =
    l.filterMap (fun e =>
      if isUnder src e.1 then
        match e.2 with
        | Entry.file i => some i
        | Entry.dir _ => none
      else none) := by
  intro l
  induction l with
  | nil => rfl
  | cons e l ih =>
    by_cases he : e.1 = t
    · rw [List.filter_cons_of_neg (by simp [he])]
      rw [ih]
      have hnone : (if isUnder src e.1 then
          match e.2 with
          | Entry.file i => some i
          | Entry.dir _ => none
        else none) = none := by
        rw [he, h]
        rfl
      rw [List.filterMap_cons, hnone]
    · rw [List.filter_cons_of_pos (by simp [he])]
      rw [List.filterMap_cons, List.filterMap_cons, ih]

/-- Clean run of `_link_files` at any remaining recursion depth: the
source exists as a file, the target is fresh, the inode is not
link-protected. -/
theorem linkFilesN_clean (sh : Share) (source target : Path) (i : Nat) (P0 : ACL)
    (st : MState) (fuel : Nat)
    (hlacl : sh.lock_acl = theLockAcl)
    (hwf : st.fs.wf)
    (hsrc : st.fs.get source = some (Entry.file i))
    (htgt : st.fs.get target = none)
    (hinos : st.fs.inosUnder source = [i])
    (hnodir : ∀ q a, st.fs.get q = some (Entry.dir a) → isUnder source q = false)
    (hprot : i ∉ st.fs.protectedInos)
    (hdir : st.fs.get sh.directory = some (Entry.dir P0)) :
    sh.linkFilesN source target (fuel + 1) st =
      (Except.ok (),
        { fs := { entries := st.fs.entries ++ [(target, Entry.file i)],
                  inodeAcls := dupInoStep P0 st.fs.inodeAcls i,
                  protectedInos := st.fs.protectedInos },
          trace := st.trace ++ [Event.unsetAclRecE source theLockAcl,
            Event.linkE source target, Event.appendAclE target P0] }) := by
  have hent0 : (st.fs.mapAclUnder source (aclUnset theLockAcl)).entries = st.fs.entries :=
    mapAclUnder_entries_files_only st.fs source _ hwf hnodir
  have hsrc0 : (st.fs.mapAclUnder source (aclUnset theLockAcl)).get source =
      some (Entry.file i) := mapAclUnder_get_file st.fs source source _ i hsrc
  have htgt0 : (st.fs.mapAclUnder source (aclUnset theLockAcl)).get target = none :=
    mapAclUnder_get_none st.fs source target _ htgt
  have hdir0 : (st.fs.mapAclUnder source (aclUnset theLockAcl)).get sh.directory =
      some (Entry.dir P0) := by
    have := mapAclUnder_get_dir st.fs source sh.directory (aclUnset theLockAcl) P0 hdir
    rwa [if_neg (by simp [hnodir sh.directory P0 hdir])] at this
  have hL : osLink source target (sh.unlockPath source st) =
      (Except.ok (),
        { fs := (st.fs.mapAclUnder source
                  (aclUnset theLockAcl)).set target (Entry.file i),
          trace := (st.trace ++ [Event.unsetAclRecE source sh.lock_acl]) ++
                   [Event.linkE source target] }) := by
    rw [unlockPath_eq, hlacl]
    exact osLink_ok_eq source target i _ hsrc0 htgt0 hprot
  have hrun := linkFilesN_succ_ok sh source target fuel st _ hL
  have htgt1 : ((st.fs.mapAclUnder source (aclUnset theLockAcl)).set target
      (Entry.file i)).get target = some (Entry.file i) := FS.get_set_self _ _ _
  have hdirne : sh.directory ≠ target := by
    intro h
    rw [h, htgt] at hdir
    exact Option.noConfusion hdir
  have hdir1 : ((st.fs.mapAclUnder source (aclUnset theLockAcl)).set target
      (Entry.file i)).get sh.directory = some (Entry.dir P0) := by
    rw [FS.get_set_ne _ _ _ _ hdirne]
    exact hdir0
  have hperm : sh.permissionsOf
      ({ fs := (st.fs.mapAclUnder source
                 (aclUnset theLockAcl)).set target (Entry.file i),
         trace := (st.trace ++ [Event.unsetAclRecE source sh.lock_acl]) ++
                  [Event.linkE source target] } : MState) = P0 :=
    FS.aclAt_dir _ _ _ hdir1
  have hino0 : (st.fs.mapAclUnder source (aclUnset theLockAcl)).inodeAcls =
      kvSet st.fs.inodeAcls i (aclUnset theLockAcl ((kvGet st.fs.inodeAcls i).getD [])) := by
    rw [mapAclUnder_inodeAcls, hinos, applyInos_singleton]
  have haclT : (((st.fs.mapAclUnder source (aclUnset theLockAcl)).set target
      (Entry.file i))).aclAt target =
      aclUnset theLockAcl ((kvGet st.fs.inodeAcls i).getD []) := by
    rw [FS.aclAt_file _ _ i htgt1]
    show ((st.fs.mapAclUnder source (aclUnset theLockAcl)).set target
      (Entry.file i)).inoAcl i = _
    unfold FS.inoAcl
    rw [FS.set_inodeAcls, hino0, kvGet_kvSet_self]
    rfl
  rw [hrun, hperm, haclT]
  have hfs : (((st.fs.mapAclUnder source (aclUnset theLockAcl)).set target
        (Entry.file i)).setAclAt target
          (aclAppend P0 (aclUnset theLockAcl ((kvGet st.fs.inodeAcls i).getD [])))) =
      { entries := st.fs.entries ++ [(target, Entry.file i)],
        inodeAcls := dupInoStep P0 st.fs.inodeAcls i,
        protectedInos := st.fs.protectedInos } := by
    unfold FS.setAclAt
    rw [htgt1]
    unfold FS.setInoAcl FS.set
    simp only [hent0, FS.set_inodeAcls]
    congr 1
    · rw [kvSet_of_not_mem _ _ _ (not_mem_of_kvGet_none _ _ htgt)]
    · show kvSet ((st.fs.mapAclUnder source (aclUnset theLockAcl)).inodeAcls) i _ =
        dupInoStep P0 st.fs.inodeAcls i
      rw [hino0, kvSet_kvSet]
      rfl
  simp [emit, hfs, hlacl]

/-- A `FileExistsError` from the link step enters the un-share-and-retry
branch. -/
theorem linkFilesN_succ_exists (sh : Share) (source target : Path) (fuel : Nat)
    (st st1 : MState) (f' : Path)
    (hL : osLink source target (sh.unlockPath source st) =
      (Except.error (Err.fileExists f'), st1)) :
    sh.linkFilesN source target (fuel + 1) st =
      andThen (sh.unshareFile target false st1)
        (sh.linkFilesN source target fuel) := by
  simp only [Share.linkFilesN]
  rw [hL]

/-- A `PermissionError` from the link step is logged with the offending
path and the target's current ACL, and the routine returns `ok`. -/
theorem linkFilesN_succ_perm (sh : Share) (source target : Path) (fuel : Nat)
    (st st1 : MState) (f' : Path)
    (hL : osLink source target (sh.unlockPath source st) =
      (Except.error (Err.permissionDenied f'), st1)) :
    sh.linkFilesN source target (fuel + 1) st =
      (Except.ok (), emit st1 (Event.logPermissionE f' (st1.fs.aclAt target))) := by
  simp only [Share.linkFilesN]
  rw [hL]

/-- A clean single-file `add`: the lone item is classified as a file and
hardlinked into the share root under its base name. -/
theorem add_single_file_clean (sh : Share) (f : Path) (i : Nat) (P0 : ACL)
    (st : MState)
    (hlacl : sh.lock_acl = theLockAcl)
    (hwf : st.fs.wf)
    (hsrc : st.fs.get f = some (Entry.file i))
    (htgt : st.fs.get (sh.directory ++ [f.getLastD ""]) = none)
    (hinos : st.fs.inosUnder f = [i])
    (hnodir : ∀ q a, st.fs.get q = some (Entry.dir a) → isUnder f q = false)
    (hprot : i ∉ st.fs.protectedInos)
    (hdir : st.fs.get sh.directory = some (Entry.dir P0)) :
    sh.add [f] st =
      (Except.ok (),
        { fs := { entries := st.fs.entries ++
                    [(sh.directory ++ [f.getLastD ""], Entry.file i)],
                  inodeAcls := dupInoStep P0 st.fs.inodeAcls i,
                  protectedInos := st.fs.protectedInos },
          trace := st.trace ++ [Event.unsetAclRecE f theLockAcl,
            Event.linkE f (sh.directory ++ [f.getLastD ""]),
            Event.appendAclE (sh.directory ++ [f.getLastD ""]) P0] }) := by
  have hfile : st.fs.isFile f = true := by
    unfold FS.isFile
    rw [hsrc]
  have hdirb : st.fs.isDir f = false := by
    unfold FS.isDir
    rw [hsrc]
  have hfl : [f].filter (fun x => st.fs.isFile x) = [f] := by
    simp [hfile]
  have hdl : ([f].filter (fun x => st.fs.isDir x) : List Path) = [] := by
    simp [hdirb]
  have hul : (([f].filter (fun x => !(st.fs.isFile x) && !(st.fs.isDir x))).dedup :
      List Path) = [] := by
    simp [hfile]
  have hlink := linkFiles_clean sh f (sh.directory ++ [f.getLastD ""]) i P0 st
    hlacl hwf hsrc htgt hinos hnodir hprot hdir
  show andThen (runAll (fun f2 => sh.linkFiles f2 (sh.directory ++ [f2.getLastD ""]))
      ([f].filter (fun x => st.fs.isFile x)) st)
    (fun stA => andThen (runAll sh.addDir ([f].filter (fun x => st.fs.isDir x)) stA)
      (fun stB => (Except.ok (), logAll
        (([f].filter (fun x => !(st.fs.isFile x) && !(st.fs.isDir x))).dedup) stB))) = _
  rw [hfl, hdl, hul]
  rw [runAll_cons_ok _ f [] st _ hlink]
  simp [runAll, andThen, logAll]

/-! ### Claim C9: classification of the items passed to `add` -/

/-- C9: `add` classifies its items once at entry; when the file loop and
the directory loop finish without an exception, the run ends `ok` and
every item that is neither a regular file nor a directory is logged as
unhandled, one event per distinct item, with no further effect on the
filesystem — the unhandled items never abort the others.  A clean
single-file call hardlinks the item directly into the share root under
its base name. -/
theorem add_files_basename_unhandled (sh : Share) (f : Path) (i : Nat) (P0 : ACL)
    (st : MState)
    (hlacl : sh.lock_acl = theLockAcl)
    (hwf : st.fs.wf)
    (hsrc : st.fs.get f = some (Entry.file i))
    (htgt : st.fs.get (sh.directory ++ [f.getLastD ""]) = none)
    (hinos : st.fs.inosUnder f = [i])
    (hnodir : ∀ q a, st.fs.get q = some (Entry.dir a) → isUnder f q = false)
    (hprot : i ∉ st.fs.protectedInos)
    (hdir : st.fs.get sh.directory = some (Entry.dir P0)) :
    (∀ (items : List Path) (st1 st2 : MState),
      runAll (fun f2 => sh.linkFiles f2 (sh.directory ++ [f2.getLastD ""]))
        (items.filter (fun x => st.fs.isFile x)) st = (Except.ok (), st1) →
      runAll sh.addDir (items.filter (fun x => st.fs.isDir x)) st1 =
        (Except.ok (), st2) →
      sh.add items st =
        (Except.ok (),
          { fs := st2.fs,
            trace := st2.trace ++
              ((items.filter (fun x =>
                !(st.fs.isFile x) && !(st.fs.isDir x))).dedup).map
                Event.logUnhandledE })) ∧
    sh.add [f] st =
      (Except.ok (),
        { fs := { entries := st.fs.entries ++
                    [(sh.directory ++ [f.getLastD ""], Entry.file i)],
                  inodeAcls := dupInoStep P0 st.fs.inodeAcls i,
                  protectedInos := st.fs.protectedInos },
          trace := st.trace ++ [Event.unsetAclRecE f theLockAcl,
            Event.linkE f (sh.directory ++ [f.getLastD ""]),
            Event.appendAclE (sh.directory ++ [f.getLastD ""]) P0] }) := by
  constructor
  · intro items st1 st2 h1 h2
    show andThen (runAll (fun f2 => sh.linkFiles f2 (sh.directory ++ [f2.getLastD ""]))
        (items.filter (fun x => st.fs.isFile x)) st)
      (fun stA => andThen (runAll sh.addDir (items.filter (fun x => st.fs.isDir x)) stA)
        (fun stB => (Except.ok (), logAll
          ((items.filter (fun x =>
            !(st.fs.isFile x) && !(st.fs.isDir x))).dedup) stB))) = _
    rw [h1]
    simp only [andThen]
    rw [h2]
    simp only [andThen]
    rw [logAll_spec]
  · exact add_single_file_clean sh f i P0 st hlacl hwf hsrc htgt hinos hnodir
      hprot hdir

/-- A filesystem with one regular source file next to an empty share. -/
def cexFS9 : FS :=
  { entries := [(["srv"], Entry.dir []), (["srv", "share"], Entry.dir [ambAce]),
      (["doc"], Entry.file 1)],
    inodeAcls := [(1, [ownAce])],
    protectedInos := [] }

def cexSt9 : MState := { fs := cexFS9, trace := [] }

/-- Witness for claim C9 at a concrete state: one regular file and one
unhandled (non-existent) item. -/
theorem add_files_basename_unhandled_witness :
    sampleShare.add [["doc"], ["nope"]] cexSt9 =
      (Except.ok (),
        { fs := { entries := cexFS9.entries ++
                    [(["srv", "share", "doc"], Entry.file 1)],
                  inodeAcls := dupInoStep [ambAce] cexFS9.inodeAcls 1,
                  protectedInos := cexFS9.protectedInos },
          trace := ([] ++ [Event.unsetAclRecE ["doc"] theLockAcl,
            Event.linkE ["doc"] ["srv", "share", "doc"],
            Event.appendAclE ["srv", "share", "doc"] [ambAce]]) ++
            [Event.logUnhandledE ["nope"]] }) := by
  have h := (add_files_basename_unhandled sampleShare ["doc"] 1 [ambAce] cexSt9
    rfl (by unfold FS.wf; decide) (by decide) (by decide) (by decide)
    (nodir_of_concrete _ _ (by decide)) (by decide) (by decide)).1
    [["doc"], ["nope"]]
    ({ fs := { entries := cexFS9.entries ++
                 [(["srv", "share", "doc"], Entry.file 1)],
               inodeAcls := dupInoStep [ambAce] cexFS9.inodeAcls 1,
               protectedInos := cexFS9.protectedInos },
       trace := [] ++ [Event.unsetAclRecE ["doc"] theLockAcl,
         Event.linkE ["doc"] ["srv", "share", "doc"],
         Event.appendAclE ["srv", "share", "doc"] [ambAce]] } : MState)
    ({ fs := { entries := cexFS9.entries ++
                 [(["srv", "share", "doc"], Entry.file 1)],
               inodeAcls := dupInoStep [ambAce] cexFS9.inodeAcls 1,
               protectedInos := cexFS9.protectedInos },
       trace := [] ++ [Event.unsetAclRecE ["doc"] theLockAcl,
         Event.linkE ["doc"] ["srv", "share", "doc"],
         Event.appendAclE ["srv", "share", "doc"] [ambAce]] } : MState)
    (by rfl) (by rfl)
  rw [h]
  rfl

/-! ### Claim C8: link-creation error policy -/

/-- C8: a stale target found during linking is recovered automatically —
the stale entry is un-shared (its ACL restored, its link removed) and the
link is retried once, so the caller sees `ok`, never `FileExistsError`;
an insufficient-permission error during link creation is logged with the
offending path and the target's current ACL and the routine returns `ok`;
a `FileExistsError` from a whole-tree duplication makes `add` un-share
the stale subtree named by the exception and retry the duplication; and
a loop body that returns `ok` lets the surrounding loop continue with the
remaining items. -/
theorem link_error_policy (sh : Share) (source target : Path) (i j : Nat) (P0 : ACL)
    (st : MState)
    (hlacl : sh.lock_acl = theLockAcl)
    (hwf : st.fs.wf)
    (hne : source ≠ target)
    (hnotunder : isUnder source target = false)
    (hsrc : st.fs.get source = some (Entry.file i))
    (hstale : st.fs.get target = some (Entry.file j))
    (hcnt : st.fs.countIno j ≠ 1)
    (hinos : st.fs.inosUnder source = [i])
    (hnodir : ∀ q a, st.fs.get q = some (Entry.dir a) → isUnder source q = false)
    (hprot : i ∉ st.fs.protectedInos)
    (hdir : st.fs.get sh.directory = some (Entry.dir P0)) :
    sh.linkFiles source target st =
      (Except.ok (),
        { fs := { entries := kvDel st.fs.entries target ++ [(target, Entry.file i)],
                  inodeAcls := dupInoStep P0
                    (unshareInoStep P0
                      (kvSet st.fs.inodeAcls i
                        (aclUnset theLockAcl ((kvGet st.fs.inodeAcls i).getD []))) j) i,
                  protectedInos := st.fs.protectedInos },
          trace := st.trace ++
            [Event.unsetAclRecE source theLockAcl,
             Event.setAclE target
               (aclSub ((kvGet (kvSet st.fs.inodeAcls i
                 (aclUnset theLockAcl ((kvGet st.fs.inodeAcls i).getD []))) j).getD [])
                 P0),
             Event.unlinkE target,
             Event.unsetAclRecE source theLockAcl,
             Event.linkE source target,
             Event.appendAclE target P0] }) ∧
    (∀ (source' target' : Path) (st' st1 : MState) (f' : Path),
      osLink source' target' (sh.unlockPath source' st') =
        (Except.error (Err.permissionDenied f'), st1) →
      sh.linkFiles source' target' st' =
        (Except.ok (), emit st1 (Event.logPermissionE f' (st1.fs.aclAt target')))) ∧
    (∀ (d f' : Path) (stA stB : MState),
      sh.dupTree d stA = (Except.error (Err.fileExists f'), stB) →
      sh.addDir d stA =
        andThen (sh.unshareTree f' false stB) (fun st2 => sh.dupTree d st2)) ∧
    (∀ (g : Path → MState → MRes Unit) (x : Path) (xs : List Path)
      (stA stB : MState), g x stA = (Except.ok (), stB) →
      runAll g (x :: xs) stA = runAll g xs stB) := by
  have hent0 : (st.fs.mapAclUnder source (aclUnset theLockAcl)).entries = st.fs.entries :=
    mapAclUnder_entries_files_only st.fs source _ hwf hnodir
  have hino0 : (st.fs.mapAclUnder source (aclUnset theLockAcl)).inodeAcls =
      kvSet st.fs.inodeAcls i (aclUnset theLockAcl ((kvGet st.fs.inodeAcls i).getD [])) := by
    rw [mapAclUnder_inodeAcls, hinos, applyInos_singleton]
  have hsrc0 : (st.fs.mapAclUnder source (aclUnset theLockAcl)).get source =
      some (Entry.file i) := mapAclUnder_get_file st.fs source source _ i hsrc
  have hstale0 : (st.fs.mapAclUnder source (aclUnset theLockAcl)).get target =
      some (Entry.file j) := mapAclUnder_get_file st.fs source target _ j hstale
  have hdir0 : (st.fs.mapAclUnder source (aclUnset theLockAcl)).get sh.directory =
      some (Entry.dir P0) := by
    have := mapAclUnder_get_dir st.fs source sh.directory (aclUnset theLockAcl) P0 hdir
    rwa [if_neg (by simp [hnodir sh.directory P0 hdir])] at this
  have hdirne : sh.directory ≠ target := by
    intro hcon
    rw [hcon, hstale] at hdir
    exact Entry.noConfusion (Option.some.inj hdir)
  refine ⟨?_, ?_, ?_, ?_⟩
  · -- the stale link attempt fails, the stale entry is un-shared, the
    -- retry succeeds
    have hosL : osLink source target (sh.unlockPath source st) =
        (Except.error (Err.fileExists target),
          { fs := st.fs.mapAclUnder source (aclUnset theLockAcl),
            trace := st.trace ++ [Event.unsetAclRecE source theLockAcl] }) := by
      rw [unlockPath_eq, hlacl]
      simp only [osLink]
      rw [hsrc0]
      simp [FS.pathExists, hstale0]
    have hUF := unshareFile_clean sh target j P0
      ({ fs := st.fs.mapAclUnder source (aclUnset theLockAcl),
         trace := st.trace ++ [Event.unsetAclRecE source theLockAcl] } : MState)
      false hstale0
      (Or.inr (by
        show (st.fs.mapAclUnder source (aclUnset theLockAcl)).countIno j ≠ 1
        unfold FS.countIno
        rw [hent0]
        exact hcnt))
      hdir0
    have hUF2 : sh.unshareFile target false
        ({ fs := st.fs.mapAclUnder source (aclUnset theLockAcl),
           trace := st.trace ++ [Event.unsetAclRecE source theLockAcl] } : MState) =
        (Except.ok (),
          { fs := { entries := kvDel st.fs.entries target,
                    inodeAcls := unshareInoStep P0
                      (kvSet st.fs.inodeAcls i
                        (aclUnset theLockAcl ((kvGet st.fs.inodeAcls i).getD []))) j,
                    protectedInos := st.fs.protectedInos },
            trace := (st.trace ++ [Event.unsetAclRecE source theLockAcl]) ++
              [Event.setAclE target
                (aclSub ((kvGet (kvSet st.fs.inodeAcls i
                  (aclUnset theLockAcl ((kvGet st.fs.inodeAcls i).getD []))) j).getD [])
                  P0),
               Event.unlinkE target] }) := by
      rw [hUF]
      simp only [hent0, hino0, mapAclUnder_protectedInos]
    have hwf2 : (FS.mk (kvDel st.fs.entries target)
        (unshareInoStep P0
          (kvSet st.fs.inodeAcls i
            (aclUnset theLockAcl ((kvGet st.fs.inodeAcls i).getD []))) j)
        st.fs.protectedInos).wf := by
      unfold FS.wf
      exact wf_kvDel st.fs.entries target hwf
    have hsrc2 : kvGet (kvDel st.fs.entries target) source = some (Entry.file i) := by
      rw [kvGet_kvDel_ne _ _ _ hne]
      exact hsrc
    have hinos2 : (FS.mk (kvDel st.fs.entries target)
        (unshareInoStep P0
          (kvSet st.fs.inodeAcls i
            (aclUnset theLockAcl ((kvGet st.fs.inodeAcls i).getD []))) j)
        st.fs.protectedInos).inosUnder source = [i] := by
      show (kvDel st.fs.entries target).filterMap (fun e =>
        if isUnder source e.1 then
          match e.2 with
          | Entry.file i2 => some i2
          | Entry.dir _ => none
        else none) = [i]
      rw [kvDel_eq_filter, inosUnder_del_list source target hnotunder st.fs.entries]
      exact hinos
    have hnodir2 : ∀ q a, kvGet (kvDel st.fs.entries target) q =
        some (Entry.dir a) → isUnder source q = false := by
      intro q a hq
      by_cases hqt : q = target
      · rw [hqt, kvGet_kvDel_self] at hq
        exact Option.noConfusion hq
      · rw [kvGet_kvDel_ne _ _ _ hqt] at hq
        exact hnodir q a hq
    have hdir2 : kvGet (kvDel st.fs.entries target) sh.directory =
        some (Entry.dir P0) := by
      rw [kvGet_kvDel_ne _ _ _ hdirne]
      exact hdir
    have hN1 := linkFilesN_clean sh source target i P0
      ({ fs := { entries := kvDel st.fs.entries target,
                 inodeAcls := unshareInoStep P0
                   (kvSet st.fs.inodeAcls i
                     (aclUnset theLockAcl ((kvGet st.fs.inodeAcls i).getD []))) j,
                 protectedInos := st.fs.protectedInos },
         trace := (st.trace ++ [Event.unsetAclRecE source theLockAcl]) ++
           [Event.setAclE target
             (aclSub ((kvGet (kvSet st.fs.inodeAcls i
               (aclUnset theLockAcl ((kvGet st.fs.inodeAcls i).getD []))) j).getD [])
               P0),
            Event.unlinkE target] } : MState)
      0 hlacl hwf2 hsrc2 (kvGet_kvDel_self _ _) hinos2 hnodir2 hprot hdir2
    have hN1' : sh.linkFilesN source target 1
        ({ fs := { entries := kvDel st.fs.entries target,
                   inodeAcls := unshareInoStep P0
                     (kvSet st.fs.inodeAcls i
                       (aclUnset theLockAcl ((kvGet st.fs.inodeAcls i).getD []))) j,
                   protectedInos := st.fs.protectedInos },
           trace := (st.trace ++ [Event.unsetAclRecE source theLockAcl]) ++
             [Event.setAclE target
               (aclSub ((kvGet (kvSet st.fs.inodeAcls i
                 (aclUnset theLockAcl ((kvGet st.fs.inodeAcls i).getD []))) j).getD [])
                 P0),
              Event.unlinkE target] } : MState) =
        (Except.ok (),
          { fs := { entries := kvDel st.fs.entries target ++ [(target, Entry.file i)],
                    inodeAcls := dupInoStep P0
                      (unshareInoStep P0
                        (kvSet st.fs.inodeAcls i
                          (aclUnset theLockAcl ((kvGet st.fs.inodeAcls i).getD []))) j) i,
                    protectedInos := st.fs.protectedInos },
            trace := ((st.trace ++ [Event.unsetAclRecE source theLockAcl]) ++
              [Event.setAclE target
                (aclSub ((kvGet (kvSet st.fs.inodeAcls i
                  (aclUnset theLockAcl ((kvGet st.fs.inodeAcls i).getD []))) j).getD [])
                  P0),
               Event.unlinkE target]) ++
              [Event.unsetAclRecE source theLockAcl,
               Event.linkE source target, Event.appendAclE target P0] }) := hN1
    show sh.linkFilesN source target (1 + 1) st = _
    rw [linkFilesN_succ_exists sh source target 1 st _ target hosL]
    rw [hUF2]
    simp only [andThen]
    rw [hN1']
    simp [List.append_assoc]
  · intro source' target' st' st1 f' hL
    exact linkFilesN_succ_perm sh source' target' 1 st' st1 f' hL
  · intro d f' stA stB h
    simp only [Share.addDir, h]
  · intro g x xs stA stB h
    exact runAll_cons_ok g x xs stA stB h

/-- A populated share holding a stale link of the source file. -/
def cexFS8 : FS :=
  { entries := [(["srv"], Entry.dir []), (["srv", "share"], Entry.dir [ambAce]),
      (["doc"], Entry.file 1), (["srv", "share", "doc"], Entry.file 1)],
    inodeAcls := [(1, [ownAce])],
    protectedInos := [] }

def cexSt8 : MState := { fs := cexFS8, trace := [] }

/-- The same share next to a source file whose inode is link-protected,
so that the modelled `os.link` raises `PermissionError`. -/
def cexFS8p : FS :=
  { entries := [(["srv"], Entry.dir []), (["srv", "share"], Entry.dir [ambAce]),
      (["pdoc"], Entry.file 2)],
    inodeAcls := [(2, [ownAce])],
    protectedInos := [2] }

def cexSt8p : MState := { fs := cexFS8p, trace := [] }

/-- Witness for claim C8 at concrete states: re-linking over a stale
share entry succeeds; a permission-denied link is logged with the
offending path and the target's ACL and returns `ok`; and the
surrounding loop then continues (here: finishes) normally. -/
theorem link_error_policy_witness :
    (sampleShare.linkFiles ["doc"] ["srv", "share", "doc"] cexSt8).1 =
      Except.ok () ∧
    sampleShare.linkFiles ["pdoc"] ["srv", "share", "pdoc"] cexSt8p =
      (Except.ok (), emit (sampleShare.unlockPath ["pdoc"] cexSt8p)
        (Event.logPermissionE ["pdoc"]
          ((sampleShare.unlockPath ["pdoc"] cexSt8p).fs.aclAt
            ["srv", "share", "pdoc"]))) ∧
    runAll (fun f2 => sampleShare.linkFiles f2
        (sampleShare.directory ++ [f2.getLastD ""])) [["pdoc"]] cexSt8p =
      (Except.ok (), emit (sampleShare.unlockPath ["pdoc"] cexSt8p)
        (Event.logPermissionE ["pdoc"]
          ((sampleShare.unlockPath ["pdoc"] cexSt8p).fs.aclAt
            ["srv", "share", "pdoc"]))) := by
  have h := link_error_policy sampleShare ["doc"] ["srv", "share", "doc"] 1 1
    [ambAce] cexSt8 rfl (by unfold FS.wf; decide) (by decide) (by decide)
    (by decide) (by decide) (by decide) (by decide)
    (nodir_of_concrete _ _ (by decide)) (by decide) (by decide)
  have hperm := h.2.1 ["pdoc"] ["srv", "share", "pdoc"] cexSt8p
    (sampleShare.unlockPath ["pdoc"] cexSt8p) ["pdoc"] (by rfl)
  refine ⟨by rw [h.1], hperm, ?_⟩
  rw [h.2.2.2 _ ["pdoc"] [] cexSt8p _ hperm]
  rfl

/-! ### Claim C2: the add / self-destruct round trip -/

end Nfs4Share
